import Mathlib

/-!
Verification of the laddering-interview engine (ACV tree, priority queue,
stage machine, question/response handling) against its natural-language
specification.  The Python sources are shallowly embedded: nodes live in an
arena (a list of node records addressed by id), object references become ids,
and all operations are executable Lean functions mirroring the Python code
path by path.  Worklist loops (`mark_value_path_completed`, `is_ancestor_of`,
the serializer's DFS) are written with an explicit fuel argument that is
always instantiated large enough to cover the arena.
-/

namespace Interview

/-- Node labels, from `app/interview/interview_tree/node_label.py`
(`class NodeLabel(Enum)`). -/
inductive NodeLabel where
  | TOPIC
  | STIMULUS
  | IDEA
  | ATTRIBUTE
  | CONSEQUENCE
  | VALUE
  | IRRELEVANT_ANSWER
deriving DecidableEq, Repr, Fintype

/-- The string value of each label, from `node_label.py` (`NodeLabel` enum values). -/
def NodeLabel.value : NodeLabel → String
  | .TOPIC => "Topic"
  | .STIMULUS => "Stimulus"
  | .IDEA => "Idea"
  | .ATTRIBUTE => "A"
  | .CONSEQUENCE => "C"
  | .VALUE => "V"
  | .IRRELEVANT_ANSWER => "Irrelevant Answer"

/-- A trace element, from `app/interview/models/trace_explanation_element.py`:
it pairs an optional chat-interaction id with an optional back-reference to a
node (the Python object reference becomes a node id here). -/
structure TraceElem where
  interactionId : Option Nat
  node : Option Nat
deriving DecidableEq, Repr

/-- A node of the interview tree, from
`app/interview/interview_tree/node.py` (`class Node`).  Python object
references (parents, children, backwards relations) are node ids. -/
structure Node where
  id : Nat
  label : NodeLabel
  conclusion : Option String
  parents : List Nat
  children : List Nat
  trace : List TraceElem
  isValuePathCompleted : Bool
  backwardsRelations : List Nat
  createdNs : Nat
deriving DecidableEq, Repr

/-- The arena holding every live node; a Python heap of `Node` objects. -/
abbrev Arena := List Node

/-- Look up a node by id. -/
def findNode? (a : Arena) (i : Nat) : Option Node :=
  a.find? (fun n => n.id = i)

/-- Apply `f` to the node with id `i` (identity elsewhere). -/
def updateNode (a : Arena) (i : Nat) (f : Node → Node) : Arena :=
  a.map (fun n => if n.id = i then f n else n)

/-- The parents list of node `i` (empty if absent). -/
def parentsOf (a : Arena) (i : Nat) : List Nat :=
  ((findNode? a i).map Node.parents).getD []

/-- The children list of node `i` (empty if absent). -/
def childrenOf (a : Arena) (i : Nat) : List Nat :=
  ((findNode? a i).map Node.children).getD []

/-- The `is_value_path_completed` flag of node `i` (false if absent). -/
def completedOf (a : Arena) (i : Nat) : Bool :=
  ((findNode? a i).map Node.isValuePathCompleted).getD false

/-- The label of node `i` (if present). -/
def labelOf? (a : Arena) (i : Nat) : Option NodeLabel :=
  (findNode? a i).map Node.label

/-- `Node.add_child` from `node.py`: append `c` to `p`'s children unless
present, and `p` to `c`'s parents unless present. -/
def addChildLink (a : Arena) (p c : Nat) : Arena :=
  let a1 := updateNode a p (fun n =>
    if c ∈ n.children then n else { n with children := n.children ++ [c] })
  updateNode a1 c (fun n =>
    if p ∈ n.parents then n else { n with parents := n.parents ++ [p] })

/-- `Node.add_parent` from `node.py`: append `p` to `c`'s parents unless
present, and `c` to `p`'s children unless present. -/
def addParentLink (a : Arena) (c p : Nat) : Arena :=
  let a1 := updateNode a c (fun n =>
    if p ∈ n.parents then n else { n with parents := n.parents ++ [p] })
  updateNode a1 p (fun n =>
    if c ∈ n.children then n else { n with children := n.children ++ [c] })

/-- `Node.remove_child` from `node.py`: drop the first occurrence of `c`
from `p`'s children (Python `list.remove`). -/
def removeChildLink (a : Arena) (p c : Nat) : Arena :=
  updateNode a p (fun n =>
    if c ∈ n.children then { n with children := n.children.erase c } else n)

/-- `Node.add_backwards_relation` from `node.py`. -/
def addBackwardsRelation (a : Arena) (i rel : Nat) : Arena :=
  updateNode a i (fun n =>
    if rel ∈ n.backwardsRelations then n
    else { n with backwardsRelations := n.backwardsRelations ++ [rel] })

/-- The per-label node registry `Tree.nodes_by_label` from
`app/interview/interview_tree/tree.py`: one ordered id list per label. -/
structure LabelIndex where
  topics : List Nat
  stimuli : List Nat
  ideas : List Nat
  attributes : List Nat
  consequences : List Nat
  values : List Nat
  irrelevants : List Nat
deriving DecidableEq, Repr

def LabelIndex.empty : LabelIndex := ⟨[], [], [], [], [], [], []⟩

def LabelIndex.get (ix : LabelIndex) : NodeLabel → List Nat
  | .TOPIC => ix.topics
  | .STIMULUS => ix.stimuli
  | .IDEA => ix.ideas
  | .ATTRIBUTE => ix.attributes
  | .CONSEQUENCE => ix.consequences
  | .VALUE => ix.values
  | .IRRELEVANT_ANSWER => ix.irrelevants

def LabelIndex.set (ix : LabelIndex) (l : NodeLabel) (xs : List Nat) : LabelIndex :=
  match l with
  | .TOPIC => { ix with topics := xs }
  | .STIMULUS => { ix with stimuli := xs }
  | .IDEA => { ix with ideas := xs }
  | .ATTRIBUTE => { ix with attributes := xs }
  | .CONSEQUENCE => { ix with consequences := xs }
  | .VALUE => { ix with values := xs }
  | .IRRELEVANT_ANSWER => { ix with irrelevants := xs }

/-- `nodes_by_label[label].append(node)`. -/
def LabelIndex.append (ix : LabelIndex) (l : NodeLabel) (i : Nat) : LabelIndex :=
  ix.set l (ix.get l ++ [i])

/-- The interview tree, from `tree.py` (`class Tree`): an arena of nodes, a
root id, an active id (`self.active`, which `remove_irrelevant_node` can set
to `None`) and the per-label registry. -/
structure Tree where
  arena : Arena
  root : Nat
  active : Option Nat
  index : LabelIndex
deriving DecidableEq, Repr

/-- `Tree.__init__(root)`: active is the root; the root is registered under
its own label. -/
def Tree.init (rootNode : Node) : Tree :=
  { arena := [rootNode]
    root := rootNode.id
    active := some rootNode.id
    index := LabelIndex.empty.append rootNode.label rootNode.id }

/-- `Tree.set_active_node`. -/
def Tree.setActiveNode (t : Tree) (i : Nat) : Tree :=
  { t with active := some i }

/-- `Tree.get_nodes_by_label`: registered ids of that label whose node has a
non-`None` conclusion, in registry order. -/
def Tree.getNodesByLabel (t : Tree) (l : NodeLabel) : List Nat :=
  (t.index.get l).filter (fun i =>
    match findNode? t.arena i with
    | some n => n.conclusion.isSome
    | none => false)

/-- One step of the worklist loop inside `Tree.mark_value_path_completed`.
The Python stack's top (`stack.pop()`) is the head of `stack` here, so the
parents pushed by one iteration are consed in reverse order.  The parents
and their flags are read from the live heap, i.e. after the current node was
marked. -/
def markLoop (a : Arena) (stack visited : List Nat) : Nat → Arena
  | 0 => a
  | fuel + 1 =>
    match stack with
    | [] => a
    | c :: rest =>
      if c ∈ visited then markLoop a rest visited fuel
      else
        let a1 := updateNode a c (fun n => { n with isValuePathCompleted := true })
        let ps := (parentsOf a1 c).filter (fun p => !(completedOf a1 p))
        markLoop a1 (ps.reverse ++ rest) (c :: visited) fuel

/-- Fuel that strictly dominates the loop's iteration count: each processed
node pushes at most `|arena|` parents, and at most `|arena|` nodes are
processed. -/
def loopFuel (a : Arena) : Nat :=
  (a.length + 1) * (a.length + 1) + 1

/-- `Tree.mark_value_path_completed` from `tree.py`: starting from a VALUE
node, iteratively mark it and all ancestors reachable through
not-yet-completed parents. -/
def Tree.markValuePathCompleted (t : Tree) (i : Nat) : Tree :=
  match labelOf? t.arena i with
  | some .VALUE => { t with arena := markLoop t.arena [i] [] (loopFuel t.arena) }
  | _ => t

/-- `Tree.add_child` from `tree.py`: create a fresh node under the active
node, link both directions, register it, and run
`mark_value_path_completed` on it.  `newId` and `ts` stand for the generated
UUID and the monotonic timestamp; the caller guarantees freshness.  Python
dereferences `self.active`, so the operation is only invoked with an active
node present (otherwise it would raise); we return the tree unchanged in
that impossible case. -/
def Tree.addChild (t : Tree) (newId ts : Nat) (label : NodeLabel)
    (trace : List TraceElem) (conclusion : Option String) : Tree :=
  match t.active with
  | none => t
  | some act =>
    let newNode : Node :=
      { id := newId, label := label, conclusion := conclusion
        parents := [act], children := [], trace := trace
        isValuePathCompleted := label = NodeLabel.VALUE
        backwardsRelations := [], createdNs := ts }
    let a := addChildLink (t.arena ++ [newNode]) act newId
    let t1 : Tree := { t with arena := a, index := t.index.append label newId }
    t1.markValuePathCompleted newId

/-- One step of the BFS inside `Tree.is_ancestor_of` (`tree.py`): the queue
is popped at the front; each unvisited node's parents are compared against
the candidate ancestor and appended. -/
def ancestorLoop (a : Arena) (anc : Nat) (queue visited : List Nat) : Nat → Bool
  | 0 => false
  | fuel + 1 =>
    match queue with
    | [] => false
    | c :: rest =>
      if c ∈ visited then ancestorLoop a anc rest visited fuel
      else
        let ps := parentsOf a c
        if anc ∈ ps then true
        else ancestorLoop a anc (rest ++ ps) (c :: visited) fuel

/-- `Tree.is_ancestor_of(potential_ancestor, descendant)` from `tree.py`:
BFS over parents starting at the descendant. -/
def Tree.isAncestorOf (t : Tree) (anc desc : Nat) : Bool :=
  ancestorLoop t.arena anc [desc] [] (loopFuel t.arena)

/-- `Tree.add_existing_node_as_child` from `tree.py` (node sharing): if the
edge between the active node and `i` already exists in either direction the
call is a no-op, otherwise the bidirectional link is created.  Note the
source checks only edge existence here; there is no ancestor check. -/
def Tree.addExistingNodeAsChild (t : Tree) (i : Nat) : Tree :=
  match t.active with
  | none => t
  | some act =>
    if i ∈ childrenOf t.arena act ∨ act ∈ parentsOf t.arena i then t
    else
      let a1 := addParentLink t.arena i act
      let a2 := addChildLink a1 act i
      { t with arena := a2 }

/-- `Tree.remove_irrelevant_node` from `tree.py`: if the active node is an
IRRELEVANT_ANSWER, set active to `None`, detach the node from every parent's
children list, and deregister it. -/
def Tree.removeIrrelevantNode (t : Tree) : Tree :=
  match t.active with
  | none => t
  | some act =>
    match findNode? t.arena act with
    | none => t
    | some n =>
      if n.label ≠ NodeLabel.IRRELEVANT_ANSWER then t
      else
        let t1 : Tree := { t with active := none }
        let a2 := n.parents.foldl (fun acc p => removeChildLink acc p act) t1.arena
        let ix2 :=
          if act ∈ t1.index.get NodeLabel.IRRELEVANT_ANSWER then
            t1.index.set NodeLabel.IRRELEVANT_ANSWER
              ((t1.index.get NodeLabel.IRRELEVANT_ANSWER).erase act)
          else t1.index
        { t1 with arena := a2, index := ix2 }

/-! ### Priority queue (`app/interview/handlers/chat_queue_handler.py`) -/

/-- Queue state, from `chat_queue_handler.py` (`class QueueManager`): the
associated tree, the worklist of node ids (`self.queue` holds `Node` objects
in Python), the separately tracked active node, the unchanged counter, and
the instance's `MAX_UNCHANGED_COUNT` (overridden from `max_retries` by
`StimulusChatHandler`). -/
structure QueueManager where
  tree : Tree
  queue : List Nat
  activeNode : Option Nat
  unchangedCount : Nat
  maxUnchanged : Nat
deriving DecidableEq, Repr

/-- `QueueManager._set_active_node`: set the active node, reset the counter,
and propagate to the tree. -/
def QueueManager.setActiveNode (qm : QueueManager) (i : Nat) : QueueManager :=
  { qm with activeNode := some i, unchangedCount := 0, tree := qm.tree.setActiveNode i }

/-- `QueueManager.initialize_stimuli_queue`: clear the queue, extend it with
the stimulus nodes, pop the first and make it active.  Python raises on an
empty list (`self.queue.pop(0)`), so the empty case never occurs. -/
def QueueManager.initializeStimuliQueue (qm : QueueManager) (stimuli : List Nat) : QueueManager :=
  match stimuli with
  | [] => { qm with queue := [] }
  | first :: rest =>
    { qm with
      queue := rest
      tree := qm.tree.setActiveNode first
      activeNode := some first }

/-- The last index in `q` (offset by `k`) holding a node with label `l`;
mirrors the `last_c_pos` / `last_a_pos` scan in `_get_insert_position`. -/
def lastLabelPosAux (a : Arena) (l : NodeLabel) : List Nat → Nat → Option Nat
  | [], _ => none
  | i :: rest, k =>
    match lastLabelPosAux a l rest (k + 1) with
    | some j => some j
    | none => if labelOf? a i = some l then some k else none

def lastLabelPos (a : Arena) (q : List Nat) (l : NodeLabel) : Option Nat :=
  lastLabelPosAux a l q 0

/-- `QueueManager._get_insert_position` from `chat_queue_handler.py`:
consequences go to the front; attributes go after the last attribute, else
after the last consequence, else to the end. -/
def QueueManager.getInsertPosition (qm : QueueManager) (label : NodeLabel) : Nat :=
  if label ≠ NodeLabel.ATTRIBUTE ∧ label ≠ NodeLabel.CONSEQUENCE then
    qm.queue.length
  else if qm.queue = [] then 0
  else
    let lastC := lastLabelPos qm.tree.arena qm.queue NodeLabel.CONSEQUENCE
    let lastA := lastLabelPos qm.tree.arena qm.queue NodeLabel.ATTRIBUTE
    if label = NodeLabel.CONSEQUENCE then 0
    else
      match lastA with
      | some i => i + 1
      | none =>
        match lastC with
        | some j => j + 1
        | none => qm.queue.length

/-- `QueueManager.add_to_queue` from `chat_queue_handler.py`.  IDEA nodes are
set active directly (removing a lingering irrelevant active node from the
tree first); VALUE nodes are never enqueued; IRRELEVANT_ANSWER nodes replace
the active node (preserving the counter when stacking); everything else is
inserted at `_get_insert_position` unless its id is already queued. -/
def QueueManager.addToQueue (qm : QueueManager) (i : Nat) : QueueManager :=
  match labelOf? qm.tree.arena i with
  | none => qm
  | some label =>
    if label = NodeLabel.IDEA then
      let qm1 :=
        if qm.activeNode.any (fun j => labelOf? qm.tree.arena j = some NodeLabel.IRRELEVANT_ANSWER) then
          { qm with tree := qm.tree.removeIrrelevantNode }
        else qm
      qm1.setActiveNode i
    else if label = NodeLabel.VALUE then
      if qm.activeNode.any (fun j => labelOf? qm.tree.arena j = some NodeLabel.IRRELEVANT_ANSWER) then
        let t1 := qm.tree.removeIrrelevantNode
        { qm with tree := t1, activeNode := t1.active }
      else qm
    else if label = NodeLabel.IRRELEVANT_ANSWER then
      if qm.activeNode.any (fun j => labelOf? qm.tree.arena j = some NodeLabel.IRRELEVANT_ANSWER) then
        { qm with activeNode := some i, tree := qm.tree.setActiveNode i }
      else qm.setActiveNode i
    else
      if i ∈ qm.queue then qm
      else { qm with queue := qm.queue.insertIdx (qm.getInsertPosition label) i }

/-- `QueueManager.update_unchanged_count`. -/
def QueueManager.updateUnchangedCount (qm : QueueManager) (hasRequiredElement : Bool) : QueueManager :=
  if hasRequiredElement then { qm with unchangedCount := 0 }
  else { qm with unchangedCount := qm.unchangedCount + 1 }

/-- `QueueManager.should_move_to_next_node`. -/
def QueueManager.shouldMoveToNextNode (qm : QueueManager) : Bool :=
  qm.maxUnchanged ≤ qm.unchangedCount

/-- `QueueManager.get_next_active_node` from `chat_queue_handler.py`: pop the
queue head and make it active, after synchronizing with `tree.active` and
removing a residual irrelevant active node. -/
def QueueManager.getNextActiveNode (qm : QueueManager) : QueueManager × Option Nat :=
  if qm.queue = [] then (qm, none)
  else
    let qm1 :=
      if qm.activeNode ≠ qm.tree.active then { qm with activeNode := qm.tree.active }
      else qm
    let qm2 :=
      if qm1.activeNode.any
          (fun j => labelOf? qm1.tree.arena j = some NodeLabel.IRRELEVANT_ANSWER)
          ∧ qm1.unchangedCount < qm1.maxUnchanged then
        let t1 := qm1.tree.removeIrrelevantNode
        { qm1 with tree := t1, activeNode := t1.active }
      else qm1
    match qm2.queue with
    | [] => (qm2, none)
    | nxt :: rest => (({ qm2 with queue := rest }).setActiveNode nxt, some nxt)

/-! ### Interview stages (`app/interview/chat_state/chat_state_handler.py`,
`app/interview/chat_state/stage_transition.py`) -/

/-- `class InterviewStage(Enum)` from `chat_state_handler.py`. -/
inductive InterviewStage where
  | INITIAL
  | ASKING_FOR_IDEA
  | ASKING_FOR_ATTRIBUTES
  | ASKING_FOR_CONSEQUENCES
  | ASKING_FOR_CONSEQUENCES_OR_VALUES
  | ASKING_AGAIN_FOR_ATTRIBUTES
  | ASKING_AGAIN_FOR_ATTRIBUTES_TOO_SHORT
  | RECEIVED_ATTRIBUTES
  | RECEIVED_CONSEQUENCES
  | RECEIVED_VALUES
  | PROCESSING_NEXT_CONSEQUENCE
  | COMPLETE
  | VALUES_LIMIT_REACHED
  | NO_STIMULI
deriving DecidableEq, Repr, Fintype

/-- The `value` strings of `InterviewStage`. -/
def InterviewStage.value : InterviewStage → String
  | .INITIAL => "initial"
  | .ASKING_FOR_IDEA => "asking_for_idea"
  | .ASKING_FOR_ATTRIBUTES => "asking_for_attributes"
  | .ASKING_FOR_CONSEQUENCES => "asking_for_consequences"
  | .ASKING_FOR_CONSEQUENCES_OR_VALUES => "asking_for_consequences_or_values"
  | .ASKING_AGAIN_FOR_ATTRIBUTES => "asking_again_for_attributes"
  | .ASKING_AGAIN_FOR_ATTRIBUTES_TOO_SHORT => "asking_again_for_attributes_too_short"
  | .RECEIVED_ATTRIBUTES => "received_attributes"
  | .RECEIVED_CONSEQUENCES => "received_consequences"
  | .RECEIVED_VALUES => "received_values"
  | .PROCESSING_NEXT_CONSEQUENCE => "processing_next_consequence"
  | .COMPLETE => "complete"
  | .VALUES_LIMIT_REACHED => "values_limit_reached"
  | .NO_STIMULI => "no_stimuli"

/-- `StageTransitions.VALID_TRANSITIONS` from `stage_transition.py`: the dict
of allowed target stages per source stage (stages absent from the dict have
no entry, modelled as `none`). -/
def validTransitions : InterviewStage → Option (List InterviewStage)
  | .INITIAL => some [.ASKING_FOR_IDEA]
  | .ASKING_FOR_IDEA => some [.ASKING_FOR_ATTRIBUTES, .COMPLETE]
  | .ASKING_FOR_ATTRIBUTES =>
    some [.ASKING_FOR_CONSEQUENCES, .ASKING_AGAIN_FOR_ATTRIBUTES,
      .ASKING_AGAIN_FOR_ATTRIBUTES_TOO_SHORT, .COMPLETE, .VALUES_LIMIT_REACHED]
  | .ASKING_FOR_CONSEQUENCES =>
    some [.ASKING_FOR_CONSEQUENCES_OR_VALUES, .ASKING_AGAIN_FOR_ATTRIBUTES,
      .COMPLETE, .VALUES_LIMIT_REACHED]
  | .ASKING_FOR_CONSEQUENCES_OR_VALUES =>
    some [.ASKING_FOR_CONSEQUENCES_OR_VALUES, .ASKING_AGAIN_FOR_ATTRIBUTES,
      .COMPLETE, .VALUES_LIMIT_REACHED]
  | .ASKING_AGAIN_FOR_ATTRIBUTES =>
    some [.ASKING_FOR_ATTRIBUTES, .COMPLETE, .VALUES_LIMIT_REACHED,
      .ASKING_AGAIN_FOR_ATTRIBUTES_TOO_SHORT]
  | .ASKING_AGAIN_FOR_ATTRIBUTES_TOO_SHORT =>
    some [.COMPLETE, .VALUES_LIMIT_REACHED, .ASKING_FOR_CONSEQUENCES_OR_VALUES,
      .ASKING_AGAIN_FOR_ATTRIBUTES]
  | _ => none

/-- `StageTransitions.is_valid_transition` from `stage_transition.py`. -/
def isValidTransition (fromStage toStage : InterviewStage) : Bool :=
  match validTransitions fromStage with
  | none => false
  | some targets => toStage ∈ targets

/-- `StageTransitions.get_next_stage` from `stage_transition.py`: the
values-limit jump has priority; otherwise the next stage follows the active
node's label; otherwise stay (if the current stage is in the table) or fall
back to COMPLETE. -/
def getNextStage (currentStage : InterviewStage) (nodeLabel : Option NodeLabel)
    (valuesLimitReached : Bool) : InterviewStage :=
  if valuesLimitReached then .VALUES_LIMIT_REACHED
  else
    match nodeLabel with
    | none => .COMPLETE
    | some l =>
      match l with
      | .STIMULUS => .ASKING_FOR_IDEA
      | .IDEA => .ASKING_FOR_ATTRIBUTES
      | .ATTRIBUTE => .ASKING_FOR_CONSEQUENCES
      | .CONSEQUENCE => .ASKING_FOR_CONSEQUENCES_OR_VALUES
      | _ =>
        if (validTransitions currentStage).isSome then currentStage
        else .COMPLETE

/-- Interview state, from `chat_state_handler.py`
(`class InterviewStateManager`). -/
structure InterviewStateManager where
  stage : InterviewStage
  messageCount : Nat
  contentMessageCount : Nat
deriving DecidableEq, Repr

/-- `InterviewStateManager.init_new`. -/
def InterviewStateManager.initNew : InterviewStateManager :=
  { stage := .INITIAL, messageCount := 0, contentMessageCount := 0 }

/-- `InterviewStateManager.set_stage` from `chat_state_handler.py`: the
requested stage is logged and assigned unconditionally; no validity check
against the transition table takes place. -/
def InterviewStateManager.setStage (m : InterviewStateManager) (s : InterviewStage) :
    InterviewStateManager :=
  { m with stage := s }

/-- `StageTransitions.update_interview_stage` from `stage_transition.py`:
with no node, jump to VALUES_LIMIT_REACHED (if the gate function reports the
limit) or COMPLETE; with a node, set the stage determined by its label
(labels other than STIMULUS, IDEA, ATTRIBUTE, CONSEQUENCE leave the stage
untouched). -/
def updateInterviewStage (m : InterviewStateManager) (nodeLabel : Option NodeLabel)
    (hasReachedValuesLimit : Bool) : InterviewStateManager :=
  match nodeLabel with
  | none =>
    if hasReachedValuesLimit then m.setStage .VALUES_LIMIT_REACHED
    else m.setStage .COMPLETE
  | some l =>
    match l with
    | .STIMULUS => m.setStage .ASKING_FOR_IDEA
    | .IDEA => m.setStage .ASKING_FOR_ATTRIBUTES
    | .ATTRIBUTE => m.setStage .ASKING_FOR_CONSEQUENCES
    | .CONSEQUENCE => m.setStage .ASKING_FOR_CONSEQUENCES_OR_VALUES
    | _ => m

/-- The stage-transition table as written in section 4.6 of the
specification, transcribed from the spec text (not from the source) for the
refinement comparison of claim C4: the pair of stages is listed there. -/
def specTransitionListed (fromStage toStage : InterviewStage) : Prop :=
  (fromStage = .INITIAL ∧ toStage = .ASKING_FOR_IDEA) ∨
  (fromStage = .ASKING_FOR_IDEA ∧
    (toStage = .ASKING_FOR_ATTRIBUTES ∨ toStage = .COMPLETE)) ∨
  (fromStage = .ASKING_FOR_ATTRIBUTES ∧
    (toStage = .ASKING_FOR_CONSEQUENCES ∨ toStage = .ASKING_AGAIN_FOR_ATTRIBUTES ∨
     toStage = .ASKING_AGAIN_FOR_ATTRIBUTES_TOO_SHORT ∨ toStage = .COMPLETE ∨
     toStage = .VALUES_LIMIT_REACHED)) ∨
  (fromStage = .ASKING_FOR_CONSEQUENCES ∧
    (toStage = .ASKING_FOR_CONSEQUENCES_OR_VALUES ∨ toStage = .ASKING_AGAIN_FOR_ATTRIBUTES ∨
     toStage = .COMPLETE ∨ toStage = .VALUES_LIMIT_REACHED)) ∨
  (fromStage = .ASKING_FOR_CONSEQUENCES_OR_VALUES ∧
    (toStage = .ASKING_FOR_CONSEQUENCES_OR_VALUES ∨ toStage = .ASKING_AGAIN_FOR_ATTRIBUTES ∨
     toStage = .COMPLETE ∨ toStage = .VALUES_LIMIT_REACHED)) ∨
  (fromStage = .ASKING_AGAIN_FOR_ATTRIBUTES ∧
    (toStage = .ASKING_FOR_ATTRIBUTES ∨ toStage = .COMPLETE ∨
     toStage = .VALUES_LIMIT_REACHED ∨ toStage = .ASKING_AGAIN_FOR_ATTRIBUTES_TOO_SHORT)) ∨
  (fromStage = .ASKING_AGAIN_FOR_ATTRIBUTES_TOO_SHORT ∧
    (toStage = .COMPLETE ∨ toStage = .VALUES_LIMIT_REACHED ∨
     toStage = .ASKING_FOR_CONSEQUENCES_OR_VALUES ∨ toStage = .ASKING_AGAIN_FOR_ATTRIBUTES))

instance (f t : InterviewStage) : Decidable (specTransitionListed f t) := by
  unfold specTransitionListed; infer_instance

/-! ### Values detector (`app/interview/analysis/values_detector.py`) -/

/-- `ValuesDetector.count_values`: the number of registered VALUE nodes with
a conclusion. -/
def countValues (t : Tree) : Nat :=
  (t.getNodesByLabel NodeLabel.VALUE).length

/-- `ValuesDetector.has_reached_values_limit`: `n_values_max <= 0` (or 0,
which is falsy) means unlimited; otherwise compare the VALUE count against
the limit. -/
def hasReachedValuesLimit (t : Tree) (nValuesMax : Int) : Bool :=
  if nValuesMax ≤ 0 then false
  else nValuesMax ≤ (countValues t : Int)

/-! ### Response objects (`app/interview/questioning/llm_response_handler.py`)

The `Chains` and `Tree` payloads of a response are derived from the tree in
every branch alike and carry no claim-relevant information, so a response is
modelled by its `Next` object. -/

/-- The `Next` object of a response dictionary.  Optional fields are absent
(`none`) unless the producing branch sets them. -/
structure NextResponse where
  nextQuestion : String
  askingIntervieweeFor : String
  thoughtProcess : String
  endOfInterview : Bool
  valuesCount : Option Nat
  valuesMax : Option Int
  valuesReached : Option Bool
  completionReason : Option String
deriving DecidableEq, Repr

/-- `ResponseHandler.create_response` from `llm_response_handler.py`. -/
def createResponse (nextQuestion : String) (nextQuestionType : String)
    (thoughtProcess : String) (endOfInterview : Bool) : NextResponse :=
  { nextQuestion := nextQuestion
    askingIntervieweeFor := nextQuestionType
    thoughtProcess := thoughtProcess
    endOfInterview := endOfInterview
    valuesCount := none, valuesMax := none, valuesReached := none
    completionReason := none }

/-- Python `or` on strings: an empty (or `None`) left operand selects the
default. -/
def pyOr (s d : String) : String :=
  if s = "" then d else s

/-- Python `stimulus or 'this topic'` where `stimulus` may be `None`. -/
def stimulusOrTopic (stimulus : Option String) : String :=
  match stimulus with
  | some t => if t = "" then "this topic" else t
  | none => "this topic"

/-- The safe prompt used by `ResponseHandler.create_fallback_response`. -/
def fallbackQuestion (stimulus : Option String) : String :=
  "Could you tell me more about your experience with " ++ stimulusOrTopic stimulus ++
    "? I'm particularly interested in what features or aspects you find valuable."

/-- `ResponseHandler.create_fallback_response` from
`llm_response_handler.py`: the safe prompt, the question type (falling back
to the literal string `fallback` only when no type was supplied), and
`EndOfInterview = False`. -/
def createFallbackResponse (nextQuestionType : String) (errorReason : String)
    (stimulus : Option String) : NextResponse :=
  createResponse (fallbackQuestion stimulus) (pyOr nextQuestionType "fallback")
    ("Error handling: " ++ errorReason) false

/-- `ResponseHandler.create_error_response` from `llm_response_handler.py`,
returned by `QuestionGenerator.generate_question` on any internal error
during question generation (`question_generator.py`, the `except` branch):
an apology prompt, the question type `error_recovery`, and
`EndOfInterview = False`. -/
def createErrorResponse (errorMessage : String) (stimulus : Option String) : NextResponse :=
  createResponse
    ("I apologize, but I encountered a problem with the interview structure. Could we continue our discussion about "
      ++ stimulusOrTopic stimulus ++ "?")
    "error_recovery" ("Error recovery: " ++ errorMessage) false

/-- `ResponseHandler.create_values_limit_response` from
`llm_response_handler.py`: the fixed acknowledgment emitted when the values
limit is reached. -/
def createValuesLimitResponse (nValuesMax : Int) (currentValues : Nat)
    (stimulus : String) : NextResponse :=
  { nextQuestion := s!"Thank you for sharing your insights! You have identified {currentValues} core values, which reaches our target for this interview. Your responses have provided valuable information about what matters most to you regarding {stimulus}."
    askingIntervieweeFor := "VALUES_LIMIT_REACHED"
    thoughtProcess := s!"Interview completed due to reaching the maximum values limit of {nValuesMax}. The participant has successfully identified {currentValues} values."
    endOfInterview := true
    valuesCount := some currentValues
    valuesMax := some nValuesMax
    valuesReached := some true
    completionReason := some "VALUES_LIMIT_REACHED" }

/-! ### LLM response parsing (`ResponseHandler.parse_and_validate_response`)

The Python function first runs `clean_json_response` and `json.loads` on the
raw string; that external parsing step is abstracted as the function's input:
`none` stands for a string that failed to parse, `some j` for the parsed JSON
value. -/

/-- A parsed JSON value. -/
inductive PJson where
  | null
  | jbool (b : Bool)
  | jnum (n : Int)
  | jstr (s : String)
  | jarr (xs : List PJson)
  | jobj (fields : List (String × PJson))

/-- Key lookup in an object (`parsed_data["Next"]`); `none` on any
non-object. -/
def PJson.lookup : PJson → String → Option PJson
  | .jobj fields, k => fields.lookup k
  | _, _ => none

def PJson.isObj : PJson → Bool
  | .jobj _ => true
  | _ => false

/-- A canonical rendering of a JSON value, standing in for the raw value
Python would keep when a field has an unexpected type. -/
def PJson.asString : PJson → String
  | .jstr s => s
  | .null => "None"
  | .jbool true => "True"
  | .jbool false => "False"
  | .jnum n => toString n
  | .jarr _ => "[...]"
  | .jobj _ => "{...}"

/-- `ResponseHandler.parse_and_validate_response` from
`llm_response_handler.py` on the parse result: unparsable input, a non-dict,
or a missing/non-dict `Next` object produce the fallback response; otherwise
`NextQuestion` and `ThoughtProcess` are taken from the `Next` object (with
defaults), `AskingIntervieweeFor` is overridden with the question type
(`or "unknown"`), and `EndOfInterview` is always `False`. -/
def parseAndValidateResponse (parsed : Option PJson) (nextQuestionType : String)
    (stimulus : Option String) : NextResponse :=
  match parsed with
  | none =>
    createFallbackResponse nextQuestionType "JSON parsing error after cleaning" stimulus
  | some j =>
    if !j.isObj then
      createFallbackResponse nextQuestionType "Invalid JSON structure" stimulus
    else
      match j.lookup "Next" with
      | some nextObj =>
        if nextObj.isObj then
          { nextQuestion :=
              match nextObj.lookup "NextQuestion" with
              | some v => v.asString
              | none => "Could you tell me more about " ++ stimulusOrTopic stimulus ++ "?"
            askingIntervieweeFor := pyOr nextQuestionType "unknown"
            thoughtProcess :=
              match nextObj.lookup "ThoughtProcess" with
              | some v => v.asString
              | none => "Queue-based interview"
            endOfInterview := false
            valuesCount := none, valuesMax := none, valuesReached := none
            completionReason := none }
        else createFallbackResponse nextQuestionType "Invalid Next structure" stimulus
      | none => createFallbackResponse nextQuestionType "Invalid Next structure" stimulus

/-- The error inputs of `parse_and_validate_response`: the raw content did
not parse, parsed to a non-dict, or lacks a dict-valued `Next` field. -/
def parseErrorCase (parsed : Option PJson) : Prop :=
  match parsed with
  | none => True
  | some j =>
    match j with
    | .jobj _ =>
      match j.lookup "Next" with
      | some nextObj => nextObj.isObj = false
      | none => True
    | _ => True

/-! ### Response generation gate
(`StimulusChatHandler._generate_response`, `stimulus_chat_handler.py`) -/

/-- The slice of `StimulusChatHandler` state read by `_generate_response`:
the tree, the per-stimulus configuration `n_values_max`, the transient
`_values_limit_just_reached` flag, and the stimulus text. -/
structure HandlerState where
  tree : Tree
  nValuesMax : Int
  valuesLimitJustReached : Bool
  stimulus : String
deriving DecidableEq, Repr

/-- `StimulusChatHandler._generate_response`: if the values limit is reached
(or the transient flag is set), return the fixed values-limit response
immediately, before the LLM question-generation call; otherwise call it
(`llmNext` stands for its result), fill in default values-info fields, and
re-check the limit.  The returned boolean records whether the LLM
question-generation call was made. -/
def generateResponse (st : HandlerState) (llmNext : NextResponse) :
    NextResponse × Bool :=
  let hasLimit := hasReachedValuesLimit st.tree st.nValuesMax
  let hasFlag := st.valuesLimitJustReached
  if hasLimit || hasFlag then
    (createValuesLimitResponse st.nValuesMax (countValues st.tree) st.stimulus, false)
  else
    let maxLimit : Option Int := if 0 < st.nValuesMax then some st.nValuesMax else none
    let r :=
      { llmNext with
        valuesCount :=
          match llmNext.valuesCount with
          | some c => some c
          | none => some (countValues st.tree)
        valuesMax :=
          match llmNext.valuesMax with
          | some m => some m
          | none => maxLimit
        valuesReached :=
          match llmNext.valuesReached with
          | some b => some b
          | none => some false }
    if hasReachedValuesLimit st.tree st.nValuesMax then
      (createValuesLimitResponse st.nValuesMax (countValues st.tree) st.stimulus, true)
    else (r, true)

/-! ### Causal relationship processing
(`app/interview/analysis/causal_relationship_processor.py`) -/

/-- An analyzed element: label, summary, `is_new_element`. -/
abbrev Elem := NodeLabel × String × Bool

/-- The `(label, summary)` key of an element. -/
abbrev ElemKey := NodeLabel × String

/-- A causal relation as consumed by the processor: the
`source_element` / `target_element` tuples, with `none` standing for a
missing or too-short (`len < 2`) entry that the guards discard. -/
structure CausalRel where
  src : Option ElemKey
  tgt : Option ElemKey
deriving DecidableEq, Repr

/-- The `relationship_graph` built inside
`identify_values_in_complete_acv_chains`: an insertion-ordered map from
source key to the list of its target keys. -/
def relationshipGraph (rels : List CausalRel) : List (ElemKey × List ElemKey) :=
  rels.foldl
    (fun g r =>
      match r.src, r.tgt with
      | some sk, some tk =>
        if (g.lookup sk).isSome then
          g.map (fun e => if e.1 = sk then (e.1, e.2 ++ [tk]) else e)
        else g ++ [(sk, [tk])]
      | _, _ => g)
    []

/-- The recursive helper `is_connected_to_attribute` of
`identify_values_in_complete_acv_chains`: DFS over incoming edges with a
shared (threaded) visited set, returning true when a path from an ATTRIBUTE
source reaches the key.  The Python `for` loop over the graph entries is a
fold that short-circuits once true; the fuel bounds the recursion depth and
callers supply more fuel than there are distinct keys. -/
def connectedToAttribute (graph : List (ElemKey × List ElemKey)) :
    Nat → ElemKey → List ElemKey → Bool × List ElemKey
  | 0, _, visited => (false, visited)
  | fuel + 1, nodeKey, visited =>
    if nodeKey ∈ visited then (false, visited)
    else
      graph.foldl
        (fun acc e =>
          if acc.1 then acc
          else if nodeKey ∈ e.2 then
            if e.1.1 = NodeLabel.ATTRIBUTE then (true, acc.2)
            else connectedToAttribute graph fuel e.1 acc.2
          else acc)
        (false, nodeKey :: visited)

/-- Ample fuel for `connectedToAttribute`: more than the number of distinct
keys that can ever be visited. -/
def ctaFuel (rels : List CausalRel) : Nat :=
  2 * rels.length + 2

/-- The deduplicated VALUE-element keys (`value_elements` set). -/
def valueElementKeys (elements : List Elem) : List ElemKey :=
  (elements.filterMap (fun e =>
    if e.1 = NodeLabel.VALUE then some ((NodeLabel.VALUE, e.2.1) : ElemKey) else none)).dedup

/-- The direct-connection scan of `identify_values_in_complete_acv_chains`:
some graph entry with a CONSEQUENCE source targets the value and that source
is connected to an attribute. -/
def directChainScan (graph : List (ElemKey × List ElemKey)) (rels : List CausalRel)
    (valueKey : ElemKey) : Bool :=
  graph.any (fun e =>
    valueKey ∈ e.2 ∧ e.1.1 = NodeLabel.CONSEQUENCE ∧
      (connectedToAttribute graph (ctaFuel rels) e.1 []).1)

/-- `CausalRelationshipProcessor.identify_values_in_complete_acv_chains`:
the set (here: deduplicated list) of VALUE keys that sit at the end of a
complete A - C - ... - V chain of the extracted relations. -/
def identifyValuesInCompleteAcvChains (elements : List Elem)
    (rels : List CausalRel) : List ElemKey :=
  let graph := relationshipGraph rels
  (valueElementKeys elements).filter (fun v =>
    directChainScan graph rels v ∨ (connectedToAttribute graph (ctaFuel rels) v []).1)

/-- `CausalRelationshipProcessor.filter_acv_chains`: remove the VALUE
elements identified as part of complete ACV chains, and the C - V relations
whose target is such a value. -/
def filterAcvChains (elements : List Elem) (rels : List CausalRel) :
    List Elem × List CausalRel :=
  let chainValues := identifyValuesInCompleteAcvChains elements rels
  if chainValues = [] then (elements, rels)
  else
    let filteredElements := elements.filter (fun e =>
      !(e.1 = NodeLabel.VALUE ∧ ((e.1, e.2.1) : ElemKey) ∈ chainValues))
    let filteredRels := rels.filter (fun r =>
      match r.src, r.tgt with
      | some sk, some tk =>
        !(sk.1 = NodeLabel.CONSEQUENCE ∧ tk.1 = NodeLabel.VALUE ∧ tk ∈ chainValues)
      | _, _ => true)
    (filteredElements, filteredRels)

/-- `MessageProcessingManager._filter_acv_chains_if_needed`
(`chat_message_handler.py`): the chain filter runs only when the analyzed
message produced attribute, consequence and value elements at once. -/
def filterAcvChainsIfNeeded (elements : List Elem) (rels : List CausalRel) :
    List Elem × List CausalRel :=
  let hasAttributes := elements.any (fun e => e.1 = NodeLabel.ATTRIBUTE)
  let hasConsequences := elements.any (fun e => e.1 = NodeLabel.CONSEQUENCE)
  let hasValues := elements.any (fun e => e.1 = NodeLabel.VALUE)
  if hasAttributes ∧ hasConsequences ∧ hasValues then filterAcvChains elements rels
  else (elements, rels)

/-! ### Serialization (`app/interview/interview_tree/tree_utils.py`,
`node.py`, `chat_queue_handler.py`, `chat_state_handler.py`) -/

/-- The labels in Python dict insertion order (`NodeLabel` enum order), the
order in which `nodes_by_label` is iterated. -/
def allLabels : List NodeLabel :=
  [.TOPIC, .STIMULUS, .IDEA, .ATTRIBUTE, .CONSEQUENCE, .VALUE, .IRRELEVANT_ANSWER]

/-- A serialized node record (`Node.to_dict` in `node.py`).  A serialized
trace element has the same two fields as a live one (`node_id` holds the
referenced node's id), so `TraceElem` doubles as its record. -/
structure NodeRec where
  id : Nat
  label : NodeLabel
  conclusion : Option String
  trace : List TraceElem
  isValuePathCompleted : Bool
  parents : List Nat
  children : List Nat
  backwardsRelations : List Nat
  createdNs : Nat
deriving DecidableEq, Repr

/-- `Node.to_dict`. -/
def nodeToDict (n : Node) : NodeRec :=
  { id := n.id, label := n.label, conclusion := n.conclusion
    trace := n.trace, isValuePathCompleted := n.isValuePathCompleted
    parents := n.parents, children := n.children
    backwardsRelations := n.backwardsRelations, createdNs := n.createdNs }

/-- `Node.from_dict`: parents, children and backwards relations are left
empty (restored later by `TreeUtils.from_dict`), and every reconstructed
trace element carries no node reference
(`TraceExplanationElement.from_dict` sets `node_ref=None`). -/
def nodeFromDict (r : NodeRec) : Node :=
  { id := r.id, label := r.label, conclusion := r.conclusion
    parents := [], children := []
    trace := r.trace.map (fun t => { interactionId := t.interactionId, node := none })
    isValuePathCompleted := r.isValuePathCompleted
    backwardsRelations := [], createdNs := r.createdNs }

/-- A serialized tree (`TreeUtils.to_dict`). -/
structure TreeRec where
  rootNodeId : Nat
  activeNodeId : Option Nat
  nodes : List NodeRec
deriving DecidableEq, Repr

/-- `collect_nodes_recursively` inside `TreeUtils.to_dict`: record the node
unless seen, then descend into its children (a fold over the children list).
The state is the pair of the seen-id list and the accumulated records; the
fuel bounds the recursion depth (one unit per level). -/
def dfsNode (a : Arena) : Nat → Nat → List Nat × List NodeRec → List Nat × List NodeRec
  | 0, _, st => st
  | fuel + 1, i, st =>
    match findNode? a i with
    | none => st
    | some n =>
      if i ∈ st.1 then st
      else n.children.foldl (fun st' c => dfsNode a fuel c st') (i :: st.1, st.2 ++ [nodeToDict n])

/-- One step of `collect_all_nodes` inside `TreeUtils.to_dict`: record the
node with id `i` unless seen or absent. -/
def collectIfUnseen (a : Arena) (st : List Nat × List NodeRec) (i : Nat) :
    List Nat × List NodeRec :=
  if i ∈ st.1 then st
  else
    match findNode? a i with
    | some n => (i :: st.1, st.2 ++ [nodeToDict n])
    | none => st

/-- `TreeUtils.to_dict`: DFS from the root first, then `collect_all_nodes`
(root, active node, then every registered node in label order) to capture
nodes not reachable through children. -/
def treeToDict (t : Tree) : TreeRec :=
  let st0 := dfsNode t.arena (t.arena.length + 1) t.root ([], [])
  let st1 := collectIfUnseen t.arena st0 t.root
  let st2 :=
    match t.active with
    | some act => collectIfUnseen t.arena st1 act
    | none => st1
  let st3 := allLabels.foldl (fun st l => (t.index.get l).foldl (collectIfUnseen t.arena) st) st2
  { rootNodeId := t.root, activeNodeId := t.active, nodes := st3.2 }

/-- Step 1 of `TreeUtils.from_dict`: build `nodes_by_id`.  A repeated id
keeps its first position but is overwritten by the later record (Python
dict assignment). -/
def buildById (recs : List NodeRec) : Arena :=
  recs.foldl
    (fun a r =>
      if (findNode? a r.id).isSome then
        a.map (fun n => if n.id = r.id then nodeFromDict r else n)
      else a ++ [nodeFromDict r])
    []

/-- `Node.add_trace` from `node.py`: skip the element when it carries a
truthy interaction id already present in the trace. -/
def addTrace (n : Node) (e : TraceElem) : Node :=
  match e.interactionId with
  | some k =>
    if k ≠ 0 ∧ n.trace.any (fun x => x.interactionId = some k) then n
    else { n with trace := n.trace ++ [e] }
  | none => { n with trace := n.trace ++ [e] }

/-- The trace part of step 2 of `TreeUtils.from_dict`: resolve the
`node_id` reference against `nodes_by_id` (a falsy id resolves to `None`)
and `add_trace` the element to the current node. -/
def restoreTrace (a : Arena) (cur : Nat) (t : TraceElem) : Arena :=
  let resolved : Option Nat :=
    match t.node with
    | some nid => if nid ≠ 0 ∧ (findNode? a nid).isSome then some nid else none
    | none => none
  updateNode a cur (fun n => addTrace n { interactionId := t.interactionId, node := resolved })

/-- Step 2 of `TreeUtils.from_dict` for one record: re-link every parent in
both directions (`add_parent` then `add_child`), then restore the trace
elements. -/
def restoreLinks (a : Arena) (r : NodeRec) : Arena :=
  let a1 := r.parents.foldl
    (fun acc pid =>
      if (findNode? acc pid).isSome then addChildLink (addParentLink acc r.id pid) pid r.id
      else acc)
    a
  r.trace.foldl (fun acc t => restoreTrace acc r.id t) a1

/-- Step 2b of `TreeUtils.from_dict`: resolve the pending backwards
relations of each node (`add_backwards_relation` deduplicates). -/
def restoreBackwards (a : Arena) (r : NodeRec) : Arena :=
  r.backwardsRelations.foldl
    (fun acc rel =>
      if (findNode? acc rel).isSome then addBackwardsRelation acc r.id rel else acc)
    a

/-- `TreeUtils.from_dict`.  An empty node list yields the minimal fallback
tree (a fresh STIMULUS root, modelled with id and timestamp 0, registered
twice: once by the `Tree` constructor and once explicitly).  A missing root
id raises a `KeyError` in Python, modelled as `none`. -/
def treeFromDict (d : TreeRec) : Option Tree :=
  if d.nodes = [] then
    let stimulusNode : Node :=
      { id := 0, label := NodeLabel.STIMULUS
        conclusion := some "Voice-controlled assistants"
        parents := [], children := [], trace := []
        isValuePathCompleted := false, backwardsRelations := [], createdNs := 0 }
    let t0 := Tree.init stimulusNode
    some { t0 with index := t0.index.append NodeLabel.STIMULUS stimulusNode.id }
  else
    let a0 := buildById d.nodes
    let a1 := d.nodes.foldl restoreLinks a0
    let a2 := d.nodes.foldl restoreBackwards a1
    match findNode? a2 d.rootNodeId with
    | none => none
    | some rootNode =>
      let t0 : Tree :=
        { arena := a2, root := d.rootNodeId, active := some d.rootNodeId
          index := LabelIndex.empty.append rootNode.label d.rootNodeId }
      let t1 : Tree :=
        { t0 with index := a2.foldl (fun ix n => ix.append n.label n.id) t0.index }
      match d.activeNodeId with
      | some act =>
        if (findNode? a2 act).isSome then some (t1.setActiveNode act) else some t1
      | none => some t1

/-- `Tree.get_node_by_id` from `tree.py`: search the registered nodes. -/
def Tree.getNodeById (t : Tree) (i : Nat) : Option Nat :=
  if allLabels.any (fun l => i ∈ t.index.get l) ∧ (findNode? t.arena i).isSome then some i
  else none

/-- A serialized queue (`QueueManager.to_dict`). -/
structure QueueRec where
  queue : List NodeRec
  activeNode : Option NodeRec
  activeNodeUnchangedCount : Nat
deriving DecidableEq, Repr

/-- `QueueManager.to_dict`: full node records for the queue entries and the
active node (queue members always live in the tree's arena). -/
def queueToDict (qm : QueueManager) : QueueRec :=
  { queue := qm.queue.filterMap (fun i => (findNode? qm.tree.arena i).map nodeToDict)
    activeNode := qm.activeNode.bind (fun i => (findNode? qm.tree.arena i).map nodeToDict)
    activeNodeUnchangedCount := qm.unchangedCount }

/-- `QueueManager.from_dict`: a fresh manager (class default
`MAX_UNCHANGED_COUNT = 3`) on the given tree; queue entries and the active
node are resolved by id against the tree and dropped when unknown; the
unchanged count is restored last. -/
def queueFromDict (d : QueueRec) (t : Tree) : QueueManager :=
  let qm0 : QueueManager :=
    { tree := t, queue := [], activeNode := none, unchangedCount := 0, maxUnchanged := 3 }
  let qm1 := { qm0 with queue := d.queue.filterMap (fun r => t.getNodeById (NodeRec.id r)) }
  let qm2 :=
    match d.activeNode with
    | some r =>
      match qm1.tree.getNodeById r.id with
      | some i => qm1.setActiveNode i
      | none => qm1
    | none => qm1
  { qm2 with unchangedCount := d.activeNodeUnchangedCount }

/-- A serialized interview state (`InterviewStateManager.to_dict`). -/
structure StateRec where
  stage : String
  messageCount : Nat
  contentMessageCount : Nat
deriving DecidableEq, Repr

/-- `InterviewStateManager.to_dict`. -/
def stateToDict (m : InterviewStateManager) : StateRec :=
  { stage := m.stage.value
    messageCount := m.messageCount
    contentMessageCount := m.contentMessageCount }

/-- `InterviewStage(value)` lookup used by
`InterviewStateManager.from_dict`. -/
def parseStage (s : String) : Option InterviewStage :=
  [InterviewStage.INITIAL, .ASKING_FOR_IDEA, .ASKING_FOR_ATTRIBUTES,
    .ASKING_FOR_CONSEQUENCES, .ASKING_FOR_CONSEQUENCES_OR_VALUES,
    .ASKING_AGAIN_FOR_ATTRIBUTES, .ASKING_AGAIN_FOR_ATTRIBUTES_TOO_SHORT,
    .RECEIVED_ATTRIBUTES, .RECEIVED_CONSEQUENCES, .RECEIVED_VALUES,
    .PROCESSING_NEXT_CONSEQUENCE, .COMPLETE, .VALUES_LIMIT_REACHED,
    .NO_STIMULI].find? (fun st => st.value = s)

/-- `InterviewStateManager.from_dict`: an unknown stage string falls back to
INITIAL. -/
def stateFromDict (d : StateRec) : InterviewStateManager :=
  { stage := (parseStage d.stage).getD .INITIAL
    messageCount := d.messageCount
    contentMessageCount := d.contentMessageCount }

/-- The serialized form of a whole per-stimulus session slice: graph, queue
and interview state, as persisted by `StimulusChatHandler.to_dict`. -/
structure SessionRec where
  tree : TreeRec
  queue : QueueRec
  state : StateRec
deriving DecidableEq, Repr

/-- Serialize graph, queue and state of a session slice. -/
def sessionToDict (t : Tree) (qm : QueueManager) (m : InterviewStateManager) : SessionRec :=
  { tree := treeToDict t, queue := queueToDict qm, state := stateToDict m }

/-- Deserialize a session slice as `StimulusChatHandler.from_dict` does: the
tree first, then the queue against it, then the state.  The handler and
`QueueManager.from_dict` share one tree object, so the `_set_active_node`
mutation performed by the queue restore is visible in the session's tree:
the tree component is the queue manager's tree. -/
def sessionFromDict (d : SessionRec) : Option (Tree × QueueManager × InterviewStateManager) :=
  match treeFromDict d.tree with
  | none => none
  | some t =>
    let qm := queueFromDict d.queue t
    some (qm.tree, qm, stateFromDict d.state)

/-- Serialize after deserialize, the round trip of claim C7. -/
def sessionRoundTrip (d : SessionRec) : Option SessionRec :=
  (sessionFromDict d).map (fun s => sessionToDict s.1 s.2.1 s.2.2)

/-! ## Theorems for the claims -/

/-- C1: whenever the per-stimulus configuration has `n_values_max > 0` and
the number of VALUE nodes in the tree has reached it at response-generation
time, `_generate_response` returns the fixed values-limit acknowledgment
with `EndOfInterview = true` and `CompletionReason = VALUES_LIMIT_REACHED`,
and the LLM question-generation call is not invoked. -/
theorem valuesLimitGateShortCircuits (st : HandlerState) (llmNext : NextResponse)
    (hn : 0 < st.nValuesMax) (hc : st.nValuesMax ≤ (countValues st.tree : Int)) :
    generateResponse st llmNext =
      (createValuesLimitResponse st.nValuesMax (countValues st.tree) st.stimulus, false) ∧
    (generateResponse st llmNext).1.endOfInterview = true ∧
    (generateResponse st llmNext).1.completionReason = some "VALUES_LIMIT_REACHED" ∧
    (generateResponse st llmNext).2 = false := by
  have hlim : hasReachedValuesLimit st.tree st.nValuesMax = true := by
    simp only [hasReachedValuesLimit, if_neg (not_le.mpr hn)]
    exact decide_eq_true hc
  refine ⟨?_, ?_, ?_, ?_⟩ <;>
    simp [generateResponse, hlim, createValuesLimitResponse]

/-- A concrete tree for the C1 witness: a STIMULUS root with a single VALUE
child, so that `n_values_max = 1` trips the gate. -/
def exTreeC1 : Tree :=
  { arena :=
      [ { id := 0, label := .STIMULUS, conclusion := some "offline playback"
          parents := [], children := [1], trace := []
          isValuePathCompleted := true, backwardsRelations := [], createdNs := 0 }
      , { id := 1, label := .VALUE, conclusion := some "freedom"
          parents := [0], children := [], trace := []
          isValuePathCompleted := true, backwardsRelations := [], createdNs := 1 } ]
    root := 0
    active := some 0
    index := { LabelIndex.empty with stimuli := [0], values := [1] } }

def exHandlerStateC1 : HandlerState :=
  { tree := exTreeC1, nValuesMax := 1, valuesLimitJustReached := false
    stimulus := "offline playback" }

def exLlmNext : NextResponse :=
  createResponse "What else?" "A1.1" "probe" false

/-- C1 witness: the gate theorem applied to a concrete handler state whose
tree holds one VALUE node and whose configuration is `n_values_max = 1`. -/
theorem valuesLimitGateShortCircuitsWitness :
    (0 < exHandlerStateC1.nValuesMax ∧
      exHandlerStateC1.nValuesMax ≤ (countValues exHandlerStateC1.tree : Int)) ∧
    (generateResponse exHandlerStateC1 exLlmNext).1.endOfInterview = true ∧
    (generateResponse exHandlerStateC1 exLlmNext).1.completionReason =
      some "VALUES_LIMIT_REACHED" ∧
    (generateResponse exHandlerStateC1 exLlmNext).2 = false := by
  have h1 : (0 : Int) < exHandlerStateC1.nValuesMax := by decide
  have h2 : exHandlerStateC1.nValuesMax ≤ (countValues exHandlerStateC1.tree : Int) := by
    decide
  have h := valuesLimitGateShortCircuits exHandlerStateC1 exLlmNext h1 h2
  exact ⟨⟨h1, h2⟩, h.2.1, h.2.2.1, h.2.2.2⟩

/-- A helper for the C9 correction: the error-recovery prompt of
`create_error_response` is never the safe fallback prompt — their openings
differ. -/
theorem errorResponse_question_ne (e : String) (stimulus : Option String) :
    (createErrorResponse e stimulus).nextQuestion ≠ fallbackQuestion stimulus := by
  intro h
  have h1 : (createErrorResponse e stimulus).nextQuestion.data.head? = some 'I' := rfl
  have h2 : (fallbackQuestion stimulus).data.head? = some 'C' := rfl
  rw [h, h2] at h1
  exact absurd (Option.some.inj h1) (by decide)

/-- C9 counterexample: an unparsable LLM response during an `A1.1` question
produces a fallback whose `AskingIntervieweeFor` is `A1.1`, not `fallback`;
and an internal error during question generation returns
`create_error_response`, whose prompt is the apology message rather than
the safe `Could you tell me more ...` prompt and whose
`AskingIntervieweeFor` is `error_recovery`, not `fallback`. -/
theorem fallbackTypeCounterexample :
    ((parseAndValidateResponse none "A1.1" (some "offline playback")).askingIntervieweeFor
        = "A1.1" ∧
      (parseAndValidateResponse none "A1.1" (some "offline playback")).askingIntervieweeFor
        ≠ "fallback") ∧
    ((createErrorResponse "division by zero" (some "offline playback")).askingIntervieweeFor
        = "error_recovery" ∧
      (createErrorResponse "division by zero" (some "offline playback")).askingIntervieweeFor
        ≠ "fallback" ∧
      (createErrorResponse "division by zero" (some "offline playback")).nextQuestion
        ≠ fallbackQuestion (some "offline playback")) := by
  exact ⟨⟨by decide, by decide⟩, by decide, by decide, by decide⟩

/-- C9 amended: on every internal error of LLM-response parsing (unparsable
content, a non-dict top level, or a missing or non-dict `Next` object) the
returned response carries the populated safe prompt
`Could you tell me more about your experience with ...` (built from the
stimulus, the literal `this topic` standing in when none is set) and
`EndOfInterview = false`, and its `AskingIntervieweeFor` equals the current
question type when one is set and the literal `fallback` only when the
question type is empty; an internal error during question generation
instead returns `create_error_response`, whose prompt is the apology
message — never the safe prompt — and whose `AskingIntervieweeFor` is
`error_recovery`, never `fallback`. -/
theorem fallbackResponseOnParseError (parsed : Option PJson)
    (nextQuestionType : String) (stimulus : Option String)
    (herr : parseErrorCase parsed) :
    ((parseAndValidateResponse parsed nextQuestionType stimulus).nextQuestion =
        fallbackQuestion stimulus ∧
      (parseAndValidateResponse parsed nextQuestionType stimulus).askingIntervieweeFor =
        (if nextQuestionType = "" then "fallback" else nextQuestionType) ∧
      (parseAndValidateResponse parsed nextQuestionType stimulus).endOfInterview = false) ∧
    (∀ e, (createErrorResponse e stimulus).askingIntervieweeFor = "error_recovery" ∧
      ("error_recovery" : String) ≠ "fallback" ∧
      (createErrorResponse e stimulus).nextQuestion ≠ fallbackQuestion stimulus) := by
  constructor
  · match parsed with
    | none =>
      simp [parseAndValidateResponse, createFallbackResponse, createResponse, pyOr]
    | some j =>
      match j with
      | .null | .jbool _ | .jnum _ | .jstr _ | .jarr _ =>
        simp [parseAndValidateResponse, PJson.isObj, createFallbackResponse, createResponse,
          pyOr]
      | .jobj fields =>
        simp only [parseErrorCase] at herr
        match hlk : PJson.lookup (.jobj fields) "Next" with
        | some nextObj =>
          rw [hlk] at herr
          match nextObj with
          | .jobj f2 => exact absurd herr (by simp [PJson.isObj])
          | .null | .jbool _ | .jnum _ | .jstr _ | .jarr _ =>
            simp [parseAndValidateResponse, hlk, PJson.isObj, createFallbackResponse,
              createResponse, pyOr]
        | none =>
          simp [parseAndValidateResponse, hlk, PJson.isObj, createFallbackResponse,
            createResponse, pyOr]
  · intro e
    exact ⟨rfl, by decide, errorResponse_question_ne e stimulus⟩

/-- C9 witness: the amended theorem applied to a concrete parse failure
during an `A1.1` question. -/
theorem fallbackResponseOnParseErrorWitness :
    parseErrorCase (none : Option PJson) ∧
    (((parseAndValidateResponse none "A1.1" (some "offline playback")).nextQuestion =
        fallbackQuestion (some "offline playback") ∧
      (parseAndValidateResponse none "A1.1" (some "offline playback")).askingIntervieweeFor =
        (if ("A1.1" : String) = "" then "fallback" else "A1.1") ∧
      (parseAndValidateResponse none "A1.1" (some "offline playback")).endOfInterview
        = false) ∧
    (∀ e, (createErrorResponse e (some "offline playback")).askingIntervieweeFor =
        "error_recovery" ∧
      ("error_recovery" : String) ≠ "fallback" ∧
      (createErrorResponse e (some "offline playback")).nextQuestion ≠
        fallbackQuestion (some "offline playback"))) := by
  have herr : parseErrorCase (none : Option PJson) := trivial
  exact ⟨herr, fallbackResponseOnParseError none "A1.1" (some "offline playback") herr⟩

/-- C4 counterexample: `set_stage` applies a transition that is not in the
table.  From ASKING_AGAIN_FOR_ATTRIBUTES_TOO_SHORT the stage
ASKING_FOR_ATTRIBUTES is not a valid target, yet requesting it changes the
stage instead of preserving it. -/
theorem setStageNoDenialCounterexample :
    isValidTransition .ASKING_AGAIN_FOR_ATTRIBUTES_TOO_SHORT .ASKING_FOR_ATTRIBUTES = false ∧
    (InterviewStateManager.setStage
        { stage := .ASKING_AGAIN_FOR_ATTRIBUTES_TOO_SHORT, messageCount := 5
          contentMessageCount := 4 }
        .ASKING_FOR_ATTRIBUTES).stage = .ASKING_FOR_ATTRIBUTES := by
  constructor <;> decide

/-- C4 amended: the transition table implemented by `is_valid_transition`
is exactly the table of section 4.6 of the specification, and
`get_next_stage` jumps to VALUES_LIMIT_REACHED from any stage whenever the
gate is tripped; but the table is never enforced: `set_stage` assigns any
requested stage unconditionally, so a requested transition outside the
table is applied rather than denied. -/
theorem stageTransitionTableMatchesSpec :
    (∀ f t : InterviewStage, isValidTransition f t = true ↔ specTransitionListed f t) ∧
    (∀ (s : InterviewStage) (l : Option NodeLabel),
      getNextStage s l true = .VALUES_LIMIT_REACHED) ∧
    (∀ (m : InterviewStateManager) (s : InterviewStage),
      (m.setStage s).stage = s) := by
  refine ⟨by decide, ?_, ?_⟩
  · intro s l
    simp [getNextStage]
  · intro m s
    rfl

/-- Elements of a single analyzed message containing a complete A - C - V
chain (`a`, `c`, `v1`) together with a free-standing value `v2`. -/
def exElsC6 : List Elem :=
  [ (NodeLabel.ATTRIBUTE, "a", true), (NodeLabel.CONSEQUENCE, "c", true)
  , (NodeLabel.VALUE, "v1", true), (NodeLabel.VALUE, "v2", true) ]

def exRelsC6 : List CausalRel :=
  [ { src := some (NodeLabel.ATTRIBUTE, "a"), tgt := some (NodeLabel.CONSEQUENCE, "c") }
  , { src := some (NodeLabel.CONSEQUENCE, "c"), tgt := some (NodeLabel.VALUE, "v1") } ]

/-- C6 counterexample: on a message with a complete chain `a - c - v1` and a
free-standing value `v2`, the ACV-chain filter strips `v1`, the value that
belongs to the complete chain, keeps the free-standing `v2`, and removes the
`c - v1` relation — the opposite of the claimed behaviour (strip the
free-standing values, keep the chain values). -/
theorem filterAcvChainsCounterexample :
    (NodeLabel.VALUE, "v1", true) ∉ (filterAcvChainsIfNeeded exElsC6 exRelsC6).1 ∧
    (NodeLabel.VALUE, "v2", true) ∈ (filterAcvChainsIfNeeded exElsC6 exRelsC6).1 ∧
    (filterAcvChainsIfNeeded exElsC6 exRelsC6).2 =
      [ { src := some (NodeLabel.ATTRIBUTE, "a")
          tgt := some (NodeLabel.CONSEQUENCE, "c") } ] := by
  refine ⟨?_, ?_, ?_⟩ <;> decide

/-- C6 amended: `filter_acv_chains` strips exactly the VALUE elements that
`identify_values_in_complete_acv_chains` places in a complete A - C - ... - V
chain, together with the C - V relations targeting those values; elements of
other labels and the values outside complete chains are all kept. -/
theorem filterAcvChainsStripsChainValues (els : List Elem) (rels : List CausalRel) :
    ((filterAcvChains els rels).1 = els.filter (fun e =>
        !(e.1 = NodeLabel.VALUE ∧
          ((e.1, e.2.1) : ElemKey) ∈ identifyValuesInCompleteAcvChains els rels))) ∧
    ((filterAcvChains els rels).2 = rels.filter (fun r =>
        match r.src, r.tgt with
        | some sk, some tk =>
          !(sk.1 = NodeLabel.CONSEQUENCE ∧ tk.1 = NodeLabel.VALUE ∧
            tk ∈ identifyValuesInCompleteAcvChains els rels)
        | _, _ => true)) ∧
    (∀ e ∈ els, e.1 ≠ NodeLabel.VALUE → e ∈ (filterAcvChains els rels).1) ∧
    (∀ e ∈ els, e.1 = NodeLabel.VALUE →
      ((e.1, e.2.1) : ElemKey) ∉ identifyValuesInCompleteAcvChains els rels →
      e ∈ (filterAcvChains els rels).1) := by
  have hfil :
      (filterAcvChains els rels).1 = els.filter (fun e =>
        !(e.1 = NodeLabel.VALUE ∧
          ((e.1, e.2.1) : ElemKey) ∈ identifyValuesInCompleteAcvChains els rels)) := by
    by_cases h : identifyValuesInCompleteAcvChains els rels = []
    · simp only [filterAcvChains, h, if_pos rfl]
      refine (List.filter_eq_self.mpr ?_).symm
      intro e _
      simp [h]
    · simp [filterAcvChains, h]
  have hrel :
      (filterAcvChains els rels).2 = rels.filter (fun r =>
        match r.src, r.tgt with
        | some sk, some tk =>
          !(sk.1 = NodeLabel.CONSEQUENCE ∧ tk.1 = NodeLabel.VALUE ∧
            tk ∈ identifyValuesInCompleteAcvChains els rels)
        | _, _ => true) := by
    by_cases h : identifyValuesInCompleteAcvChains els rels = []
    · simp only [filterAcvChains, h, if_pos rfl]
      refine (List.filter_eq_self.mpr ?_).symm
      intro r _
      match r with
      | { src := some sk, tgt := some tk } => simp [h]
      | { src := some sk, tgt := none } => simp
      | { src := none, tgt := _ } => simp
    · simp [filterAcvChains, h]
  refine ⟨hfil, hrel, ?_, ?_⟩
  · intro e he hlab
    rw [hfil, List.mem_filter]
    exact ⟨he, by simp [hlab]⟩
  · intro e he hlab hnotin
    rw [hfil, List.mem_filter]
    exact ⟨he, by simp [hnotin]⟩

/-- A three-node chain STIMULUS 0 - ATTRIBUTE 1 - ATTRIBUTE 2 (labels are
irrelevant to the linking logic) with node 2 active, used to exercise
`Tree.add_existing_node_as_child` on a node that is an ancestor of the
active node. -/
def exTreeC2 : Tree :=
  { arena :=
      [ { id := 0, label := .STIMULUS, conclusion := some "s"
          parents := [], children := [1], trace := []
          isValuePathCompleted := false, backwardsRelations := [], createdNs := 0 }
      , { id := 1, label := .ATTRIBUTE, conclusion := some "a"
          parents := [0], children := [2], trace := []
          isValuePathCompleted := false, backwardsRelations := [], createdNs := 1 }
      , { id := 2, label := .CONSEQUENCE, conclusion := some "b"
          parents := [1], children := [], trace := []
          isValuePathCompleted := false, backwardsRelations := [], createdNs := 2 } ]
    root := 0
    active := some 2
    index := { LabelIndex.empty with stimuli := [0], attributes := [1], consequences := [2] } }

/-- C2: `Tree.add_existing_node_as_child` checks only whether the direct
edge already exists; sharing node 1 (an ancestor of the active node 2)
creates the edge 2 - 1 and thereby a cycle: afterwards node 1 is among its
own ancestors, although the claim (and the spec contract of
`add_existing_as_child`) promises a no-op whenever a cycle would arise. -/
theorem addExistingNodeCycleBug :
    Tree.isAncestorOf exTreeC2 1 1 = false ∧
    1 ∈ childrenOf (Tree.addExistingNodeAsChild exTreeC2 1).arena 2 ∧
    Tree.isAncestorOf (Tree.addExistingNodeAsChild exTreeC2 1) 1 1 = true := by
  refine ⟨?_, ?_, ?_⟩ <;> decide

/-- Two branches below one IDEA: 0 STIMULUS - 1 IDEA - {2 A - 3 C, 4 A - 5 C},
no VALUE yet, active at consequence 3.  Claim C3's scenario then creates a
VALUE under node 3 and shares it into the second branch under node 5. -/
def exTreeC3 : Tree :=
  { arena :=
      [ { id := 0, label := .STIMULUS, conclusion := some "s"
          parents := [], children := [1], trace := []
          isValuePathCompleted := false, backwardsRelations := [], createdNs := 0 }
      , { id := 1, label := .IDEA, conclusion := some "i"
          parents := [0], children := [2, 4], trace := []
          isValuePathCompleted := false, backwardsRelations := [], createdNs := 1 }
      , { id := 2, label := .ATTRIBUTE, conclusion := some "a1"
          parents := [1], children := [3], trace := []
          isValuePathCompleted := false, backwardsRelations := [], createdNs := 2 }
      , { id := 3, label := .CONSEQUENCE, conclusion := some "c1"
          parents := [2], children := [], trace := []
          isValuePathCompleted := false, backwardsRelations := [], createdNs := 3 }
      , { id := 4, label := .ATTRIBUTE, conclusion := some "a2"
          parents := [1], children := [5], trace := []
          isValuePathCompleted := false, backwardsRelations := [], createdNs := 4 }
      , { id := 5, label := .CONSEQUENCE, conclusion := some "c2"
          parents := [4], children := [], trace := []
          isValuePathCompleted := false, backwardsRelations := [], createdNs := 5 } ]
    root := 0
    active := some 3
    index :=
      { LabelIndex.empty with
          stimuli := [0]
          ideas := [1]
          attributes := [2, 4]
          consequences := [3, 5] } }

/-- C3: creating a VALUE node under consequence 3 marks
`value_path_completed` on the whole branch 3 - 2 - 1 - 0, but sharing the
same VALUE node as a child of consequence 5 in the other branch adds the
edge without re-marking: afterwards node 5 is a parent (hence ancestor) of
the VALUE node while its `value_path_completed` is still false, violating
the invariant the claim states. -/
theorem valuePathNotMarkedOnShare :
    completedOf ((exTreeC3.addChild 6 6 .VALUE [] (some "freedom")).arena) 3 = true ∧
    completedOf ((exTreeC3.addChild 6 6 .VALUE [] (some "freedom")).arena) 2 = true ∧
    completedOf ((exTreeC3.addChild 6 6 .VALUE [] (some "freedom")).arena) 1 = true ∧
    5 ∈ parentsOf
      ((((exTreeC3.addChild 6 6 .VALUE [] (some "freedom")).setActiveNode 5).addExistingNodeAsChild 6).arena) 6 ∧
    completedOf
      ((((exTreeC3.addChild 6 6 .VALUE [] (some "freedom")).setActiveNode 5).addExistingNodeAsChild 6).arena) 5 = false ∧
    completedOf
      ((((exTreeC3.addChild 6 6 .VALUE [] (some "freedom")).setActiveNode 5).addExistingNodeAsChild 6).arena) 4 = false := by
  refine ⟨?_, ?_, ?_, ?_, ?_, ?_⟩ <;> decide

/-! ### Claim C8: queue insertion policy -/

theorem lastLabelPosAux_none (a : Arena) (l : NodeLabel) (q : List Nat)
    (h : ∀ j ∈ q, labelOf? a j ≠ some l) : ∀ k, lastLabelPosAux a l q k = none := by
  induction q with
  | nil => intro k; rfl
  | cons x rest ih =>
    intro k
    have hx : labelOf? a x ≠ some l := h x (List.mem_cons_self x rest)
    have hrest : ∀ j ∈ rest, labelOf? a j ≠ some l := fun j hj => h j (List.mem_cons_of_mem x hj)
    simp [lastLabelPosAux, ih hrest, hx]

theorem lastLabelPosAux_last (a : Arena) (l : NodeLabel) (xs ys : List Nat) (x : Nat)
    (hx : labelOf? a x = some l) (hys : ∀ j ∈ ys, labelOf? a j ≠ some l) :
    ∀ k, lastLabelPosAux a l (xs ++ x :: ys) k = some (k + xs.length) := by
  induction xs with
  | nil =>
    intro k
    simp [lastLabelPosAux, lastLabelPosAux_none a l ys hys, hx]
  | cons y rest ih =>
    intro k
    simp only [List.cons_append, lastLabelPosAux, List.append_eq, ih (k + 1), List.length_cons]
    exact congrArg some (by omega)

theorem insertIdx_after_prefix (i x : Nat) (xs ys : List Nat) :
    (xs ++ x :: ys).insertIdx (xs.length + 1) i = xs ++ x :: i :: ys := by
  induction xs with
  | nil => simp [List.insertIdx_succ_cons, List.insertIdx_zero]
  | cons y rest ih => simp [List.insertIdx_succ_cons, ih]

/-- C8: `add_to_queue` inserts every new CONSEQUENCE node at queue position
0; a new ATTRIBUTE node goes immediately after the last ATTRIBUTE in the
queue when one exists, otherwise immediately after the last CONSEQUENCE,
otherwise at the end of the queue. -/
theorem addToQueueInsertPositionPolicy (qm : QueueManager) (i : Nat) :
    (labelOf? qm.tree.arena i = some .CONSEQUENCE → i ∉ qm.queue →
      (qm.addToQueue i).queue = i :: qm.queue) ∧
    (labelOf? qm.tree.arena i = some .ATTRIBUTE → i ∉ qm.queue →
      (∀ xs x ys, qm.queue = xs ++ x :: ys →
        labelOf? qm.tree.arena x = some .ATTRIBUTE →
        (∀ j ∈ ys, labelOf? qm.tree.arena j ≠ some .ATTRIBUTE) →
        (qm.addToQueue i).queue = xs ++ x :: i :: ys) ∧
      ((∀ j ∈ qm.queue, labelOf? qm.tree.arena j ≠ some .ATTRIBUTE) →
        ∀ xs x ys, qm.queue = xs ++ x :: ys →
        labelOf? qm.tree.arena x = some .CONSEQUENCE →
        (∀ j ∈ ys, labelOf? qm.tree.arena j ≠ some .CONSEQUENCE) →
        (qm.addToQueue i).queue = xs ++ x :: i :: ys) ∧
      ((∀ j ∈ qm.queue, labelOf? qm.tree.arena j ≠ some .ATTRIBUTE) →
        (∀ j ∈ qm.queue, labelOf? qm.tree.arena j ≠ some .CONSEQUENCE) →
        (qm.addToQueue i).queue = qm.queue ++ [i])) := by
  constructor
  · intro hlab hnot
    have hpos : qm.getInsertPosition .CONSEQUENCE = 0 := by
      unfold QueueManager.getInsertPosition
      by_cases hq : qm.queue = [] <;> simp [hq]
    simp [QueueManager.addToQueue, hlab, hnot, hpos, List.insertIdx_zero]
  · intro hlab hnot
    refine ⟨?_, ?_, ?_⟩
    · intro xs x ys hq hx hys
      have hqne : qm.queue ≠ [] := by
        rw [hq]; exact List.append_ne_nil_of_right_ne_nil xs (by simp)
      have hlp : lastLabelPos qm.tree.arena qm.queue .ATTRIBUTE = some xs.length := by
        unfold lastLabelPos
        rw [hq, lastLabelPosAux_last qm.tree.arena .ATTRIBUTE xs ys x hx hys 0]
        simp
      have hpos : qm.getInsertPosition .ATTRIBUTE = xs.length + 1 := by
        unfold QueueManager.getInsertPosition
        simp [hqne, hlp]
      simp only [QueueManager.addToQueue, hlab]
      rw [if_neg (by decide), if_neg (by decide), if_neg (by decide), if_neg hnot, hpos]
      simp only [hq]
      exact insertIdx_after_prefix i x xs ys
    · intro hnoA xs x ys hq hx hys
      have hqne : qm.queue ≠ [] := by
        rw [hq]; exact List.append_ne_nil_of_right_ne_nil xs (by simp)
      have hlpA : lastLabelPos qm.tree.arena qm.queue .ATTRIBUTE = none := by
        unfold lastLabelPos
        exact lastLabelPosAux_none qm.tree.arena .ATTRIBUTE qm.queue hnoA 0
      have hlpC : lastLabelPos qm.tree.arena qm.queue .CONSEQUENCE = some xs.length := by
        unfold lastLabelPos
        rw [hq, lastLabelPosAux_last qm.tree.arena .CONSEQUENCE xs ys x hx hys 0]
        simp
      have hpos : qm.getInsertPosition .ATTRIBUTE = xs.length + 1 := by
        unfold QueueManager.getInsertPosition
        simp [hqne, hlpA, hlpC]
      simp only [QueueManager.addToQueue, hlab]
      rw [if_neg (by decide), if_neg (by decide), if_neg (by decide), if_neg hnot, hpos]
      simp only [hq]
      exact insertIdx_after_prefix i x xs ys
    · intro hnoA hnoC
      by_cases hq : qm.queue = []
      · have hpos : qm.getInsertPosition .ATTRIBUTE = 0 := by
          unfold QueueManager.getInsertPosition
          simp [hq]
        simp [QueueManager.addToQueue, hlab, hq, hpos, List.insertIdx_zero]
      · have hlpA : lastLabelPos qm.tree.arena qm.queue .ATTRIBUTE = none :=
          lastLabelPosAux_none qm.tree.arena .ATTRIBUTE qm.queue hnoA 0
        have hlpC : lastLabelPos qm.tree.arena qm.queue .CONSEQUENCE = none :=
          lastLabelPosAux_none qm.tree.arena .CONSEQUENCE qm.queue hnoC 0
        have hnot : i ∉ qm.queue := fun hmem => hnoA i hmem hlab
        have hpos : qm.getInsertPosition .ATTRIBUTE = qm.queue.length := by
          unfold QueueManager.getInsertPosition
          simp [hq, hlpA, hlpC]
        simp only [QueueManager.addToQueue, hlab]
        rw [if_neg (by decide), if_neg (by decide), if_neg (by decide), if_neg hnot, hpos]
        exact List.insertIdx_length_self qm.queue i

/-- A queue manager for the C8 witness: consequence 10 and attribute 11
queued, nodes 12 (attribute) and 13 (consequence) available to insert. -/
def exQmC8 : QueueManager :=
  { tree :=
      { arena :=
          [ { id := 10, label := .CONSEQUENCE, conclusion := some "c0"
              parents := [], children := [], trace := []
              isValuePathCompleted := false, backwardsRelations := [], createdNs := 0 }
          , { id := 11, label := .ATTRIBUTE, conclusion := some "a0"
              parents := [], children := [], trace := []
              isValuePathCompleted := false, backwardsRelations := [], createdNs := 1 }
          , { id := 12, label := .ATTRIBUTE, conclusion := some "a1"
              parents := [], children := [], trace := []
              isValuePathCompleted := false, backwardsRelations := [], createdNs := 2 }
          , { id := 13, label := .CONSEQUENCE, conclusion := some "c1"
              parents := [], children := [], trace := []
              isValuePathCompleted := false, backwardsRelations := [], createdNs := 3 } ]
        root := 10
        active := some 10
        index := { LabelIndex.empty with attributes := [11, 12], consequences := [10, 13] } }
    queue := [10, 11]
    activeNode := some 10
    unchangedCount := 0
    maxUnchanged := 3 }

/-- C8 witness: inserting attribute 12 into the queue `[10 (C), 11 (A)]`
places it right after the last attribute, and inserting consequence 13
places it at the front, by the policy theorem applied at this state. -/
theorem addToQueueInsertPositionPolicyWitness :
    labelOf? exQmC8.tree.arena 12 = some .ATTRIBUTE ∧ 12 ∉ exQmC8.queue ∧
    (exQmC8.addToQueue 12).queue = [10, 11, 12] ∧
    labelOf? exQmC8.tree.arena 13 = some .CONSEQUENCE ∧ 13 ∉ exQmC8.queue ∧
    (exQmC8.addToQueue 13).queue = [13, 10, 11] := by
  have hlabA : labelOf? exQmC8.tree.arena 12 = some .ATTRIBUTE := by decide
  have hnotA : 12 ∉ exQmC8.queue := by decide
  have hlabC : labelOf? exQmC8.tree.arena 13 = some .CONSEQUENCE := by decide
  have hnotC : 13 ∉ exQmC8.queue := by decide
  have hA := ((addToQueueInsertPositionPolicy exQmC8 12).2 hlabA hnotA).1
    [10] 11 [] (by decide) (by decide) (by decide)
  have hC := (addToQueueInsertPositionPolicy exQmC8 13).1 hlabC hnotC
  exact ⟨hlabA, hnotA, hA, hlabC, hnotC, hC⟩

/-! ### Claim C5: queue content invariant -/

/-- Functions used with `updateNode` by the tree operations never change a
node's id or label; under that condition `labelOf?` is untouched. -/
theorem labelOf?_updateNode (a : Arena) (i : Nat) (f : Node → Node)
    (hf : ∀ n, (f n).id = n.id ∧ (f n).label = n.label) (j : Nat) :
    labelOf? (updateNode a i f) j = labelOf? a j := by
  induction a with
  | nil => rfl
  | cons n rest ih =>
    simp only [updateNode, List.map_cons, labelOf?, findNode?]
    have hup : (if n.id = i then f n else n).id = n.id := by
      by_cases hn : n.id = i <;> simp [hn, (hf n).1]
    by_cases hj : n.id = j
    · rw [List.find?_cons_of_pos _ (by rw [hup]; simp [hj]),
        List.find?_cons_of_pos _ (by simp [hj])]
      by_cases hn : n.id = i <;> simp [hn, (hf n).2]
    · rw [List.find?_cons_of_neg _ (by rw [hup]; simp [hj]),
        List.find?_cons_of_neg _ (by simp [hj])]
      simpa [updateNode, labelOf?, findNode?] using ih

theorem labelOf?_removeChildLink (a : Arena) (p c j : Nat) :
    labelOf? (removeChildLink a p c) j = labelOf? a j :=
  labelOf?_updateNode a p _ (by intro n; by_cases h : c ∈ n.children <;> simp [h]) j

theorem labelOf?_removeIrrelevant (t : Tree) (j : Nat) :
    labelOf? t.removeIrrelevantNode.arena j = labelOf? t.arena j := by
  unfold Tree.removeIrrelevantNode
  match t.active with
  | none => rfl
  | some act =>
    simp only
    match findNode? t.arena act with
    | none => rfl
    | some n =>
      simp only
      by_cases hl : n.label ≠ NodeLabel.IRRELEVANT_ANSWER
      · simp [hl]
      · simp only [hl, if_neg, ite_false]
        have : ∀ (ps : List Nat) (a : Arena),
            labelOf? (ps.foldl (fun acc p => removeChildLink acc p act) a) j = labelOf? a j := by
          intro ps
          induction ps with
          | nil => intro a; rfl
          | cons p rest ih =>
            intro a
            simp only [List.foldl_cons]
            rw [ih, labelOf?_removeChildLink]
        simp [this]

theorem labelOf?_addChildLink (a : Arena) (p c j : Nat) :
    labelOf? (addChildLink a p c) j = labelOf? a j := by
  unfold addChildLink
  rw [labelOf?_updateNode _ _ _ (by intro n; by_cases h : p ∈ n.parents <;> simp [h]),
    labelOf?_updateNode _ _ _ (by intro n; by_cases h : c ∈ n.children <;> simp [h])]

theorem labelOf?_markLoop (a : Arena) (stack visited : List Nat) (fuel : Nat) (j : Nat) :
    labelOf? (markLoop a stack visited fuel) j = labelOf? a j := by
  induction fuel generalizing a stack visited with
  | zero => rfl
  | succ fuel ih =>
    unfold markLoop
    match stack with
    | [] => rfl
    | c :: rest =>
      by_cases hc : c ∈ visited
      · simp only [hc, if_pos]
        exact ih a rest visited
      · simp only [hc, ite_false]
        rw [ih, labelOf?_updateNode _ _ _ (by intro n; simp)]

/-- Appending a fresh node does not change the label of an id that already
resolves. -/
theorem labelOf?_append (a : Arena) (m : Node) (j : Nat) (l : NodeLabel)
    (h : labelOf? a j = some l) : labelOf? (a ++ [m]) j = some l := by
  induction a with
  | nil => simp [labelOf?, findNode?] at h
  | cons n rest ih =>
    simp only [labelOf?, findNode?, List.find?, List.cons_append] at h ⊢
    by_cases hn : (n.id = j)
    · simpa [hn] using h
    · rw [show (decide (n.id = j)) = false by simp [hn]] at h ⊢
      exact ih h

/-- `Tree.add_child` preserves the labels of all existing nodes. -/
theorem labelOf?_treeAddChild (t : Tree) (newId ts : Nat) (label : NodeLabel)
    (trace : List TraceElem) (conclusion : Option String) (j : Nat) (l : NodeLabel)
    (h : labelOf? t.arena j = some l) :
    labelOf? (t.addChild newId ts label trace conclusion).arena j = some l := by
  unfold Tree.addChild
  match t.active with
  | none => exact h
  | some act =>
    simp only [Tree.markValuePathCompleted]
    set a1 := addChildLink (t.arena ++ [_]) act newId with ha1
    have h1 : labelOf? a1 j = some l := by
      rw [ha1, labelOf?_addChildLink]
      exact labelOf?_append _ _ _ _ h
    match labelOf? a1 newId with
    | some .VALUE => simpa [labelOf?_markLoop] using h1
    | some .TOPIC | some .STIMULUS | some .IDEA | some .ATTRIBUTE
    | some .CONSEQUENCE | some .IRRELEVANT_ANSWER | none => exact h1

/-- Reachable queue-manager states: initialization with a non-empty,
duplicate-free list of STIMULUS nodes (the handler passes the single root
stimulus), `add_to_queue` with nodes of the labels the message pipeline
produces (analyzed elements are IDEA, ATTRIBUTE, CONSEQUENCE, VALUE or
IRRELEVANT_ANSWER; the flow controller re-adds the IDEA), queue advancement,
retry counting, and any tree evolution that preserves the labels of
resolvable ids (all tree operations do). -/
inductive QueueReach : QueueManager → Prop where
  | init (qm : QueueManager) (stimuli : List Nat) (hne : stimuli ≠ [])
      (hlab : ∀ i ∈ stimuli, labelOf? qm.tree.arena i = some .STIMULUS)
      (hnd : stimuli.Nodup) :
      QueueReach (qm.initializeStimuliQueue stimuli)
  | add (qm : QueueManager) (i : Nat) (l : NodeLabel) (h : QueueReach qm)
      (hl : labelOf? qm.tree.arena i = some l)
      (hmem : l = .IDEA ∨ l = .ATTRIBUTE ∨ l = .CONSEQUENCE ∨ l = .VALUE ∨
        l = .IRRELEVANT_ANSWER) :
      QueueReach (qm.addToQueue i)
  | next (qm : QueueManager) (h : QueueReach qm) : QueueReach qm.getNextActiveNode.1
  | count (qm : QueueManager) (b : Bool) (h : QueueReach qm) :
      QueueReach (qm.updateUnchangedCount b)
  | evolve (qm : QueueManager) (t' : Tree) (h : QueueReach qm)
      (hstable : ∀ i l, labelOf? qm.tree.arena i = some l → labelOf? t'.arena i = some l) :
      QueueReach { qm with tree := t' }

theorem mem_insertIdx_sub {x a : Nat} : ∀ {n : Nat} {l : List Nat},
    a ∈ l.insertIdx n x → a = x ∨ a ∈ l := by
  intro n
  induction n with
  | zero =>
    intro l h
    rw [List.insertIdx_zero] at h
    rcases List.mem_cons.mp h with h | h
    · exact Or.inl h
    · exact Or.inr h
  | succ n ih =>
    intro l h
    match l with
    | [] =>
      rw [List.insertIdx_succ_nil] at h
      exact absurd h (List.not_mem_nil a)
    | y :: rest =>
      rw [List.insertIdx_succ_cons] at h
      rcases List.mem_cons.mp h with h | h
      · exact Or.inr (by simp [h])
      · rcases ih h with h | h
        · exact Or.inl h
        · exact Or.inr (List.mem_cons_of_mem y h)

theorem nodup_insertIdx {x : Nat} : ∀ {n : Nat} {l : List Nat},
    l.Nodup → x ∉ l → (l.insertIdx n x).Nodup := by
  intro n
  induction n with
  | zero =>
    intro l hnd hx
    rw [List.insertIdx_zero]
    exact List.nodup_cons.mpr ⟨hx, hnd⟩
  | succ n ih =>
    intro l hnd hx
    match l with
    | [] => rw [List.insertIdx_succ_nil]; exact hnd
    | y :: rest =>
      rw [List.insertIdx_succ_cons]
      have hy : y ∉ rest := (List.nodup_cons.mp hnd).1
      have hrest : rest.Nodup := (List.nodup_cons.mp hnd).2
      have hxr : x ∉ rest := fun hmem => hx (List.mem_cons_of_mem y hmem)
      refine List.nodup_cons.mpr ⟨?_, ih hrest hxr⟩
      intro hmem
      rcases mem_insertIdx_sub hmem with h | h
      · exact hx (by simp [h])
      · exact hy h

theorem addToQueue_idea (qm : QueueManager) (i : Nat)
    (hl : labelOf? qm.tree.arena i = some .IDEA) :
    (qm.addToQueue i).queue = qm.queue ∧ (qm.addToQueue i).activeNode = some i := by
  unfold QueueManager.addToQueue
  rw [hl]
  simp only
  constructor <;>
    (repeat' split) <;>
    first
      | rfl
      | (exfalso; simp_all)
      | (simp [QueueManager.setActiveNode]; done)

theorem addToQueue_value (qm : QueueManager) (i : Nat)
    (hl : labelOf? qm.tree.arena i = some .VALUE) :
    (qm.addToQueue i).queue = qm.queue := by
  unfold QueueManager.addToQueue
  rw [hl]
  simp only
  (repeat' split) <;>
    first
      | rfl
      | (exfalso; simp_all)
      | (simp [QueueManager.setActiveNode]; done)

theorem addToQueue_irrelevant (qm : QueueManager) (i : Nat)
    (hl : labelOf? qm.tree.arena i = some .IRRELEVANT_ANSWER) :
    (qm.addToQueue i).queue = qm.queue := by
  unfold QueueManager.addToQueue
  rw [hl]
  simp only
  (repeat' split) <;>
    first
      | rfl
      | (exfalso; simp_all)
      | (simp [QueueManager.setActiveNode]; done)

theorem addToQueue_arena (qm : QueueManager) (i : Nat) (j : Nat) :
    labelOf? (qm.addToQueue i).tree.arena j = labelOf? qm.tree.arena j := by
  unfold QueueManager.addToQueue
  match labelOf? qm.tree.arena i with
  | none => rfl
  | some label =>
    simp only
    (repeat' split) <;>
      first
        | rfl
        | (simp [QueueManager.setActiveNode, Tree.setActiveNode,
            labelOf?_removeIrrelevant]; done)

theorem addToQueue_other (qm : QueueManager) (i : Nat) (l : NodeLabel)
    (hl : labelOf? qm.tree.arena i = some l)
    (hno : l ≠ .IDEA ∧ l ≠ .VALUE ∧ l ≠ .IRRELEVANT_ANSWER) :
    (i ∈ qm.queue ∧ (qm.addToQueue i).queue = qm.queue) ∨
    (i ∉ qm.queue ∧
      (qm.addToQueue i).queue = qm.queue.insertIdx (qm.getInsertPosition l) i) := by
  unfold QueueManager.addToQueue
  rw [hl]
  simp only [if_neg hno.1, if_neg hno.2.1, if_neg hno.2.2]
  by_cases hmem : i ∈ qm.queue
  · exact Or.inl ⟨hmem, by simp [hmem]⟩
  · exact Or.inr ⟨hmem, by simp [hmem]⟩

theorem getNext_arena (qm : QueueManager) (j : Nat) :
    labelOf? qm.getNextActiveNode.1.tree.arena j = labelOf? qm.tree.arena j := by
  unfold QueueManager.getNextActiveNode
  by_cases hq : qm.queue = []
  · simp [hq]
  · rw [if_neg hq]
    simp only
    (repeat' split) <;>
      first
        | rfl
        | (simp [QueueManager.setActiveNode, Tree.setActiveNode,
            labelOf?_removeIrrelevant]; done)

theorem getNext_queue (qm : QueueManager) :
    qm.getNextActiveNode.1.queue = qm.queue ∨ qm.getNextActiveNode.1.queue = qm.queue.tail := by
  unfold QueueManager.getNextActiveNode
  by_cases hq : qm.queue = []
  · left; simp [hq]
  · rw [if_neg hq]
    simp only
    (repeat' split) <;>
      first
        | (left; rfl)
        | (left; simp [QueueManager.setActiveNode]; done)
        | (right; simp_all [QueueManager.setActiveNode]; done)

/-- C5: in every reachable queue state the queue holds only STIMULUS,
ATTRIBUTE and CONSEQUENCE nodes and no node id appears in it twice;
moreover `add_to_queue` of an IDEA node leaves the queue unchanged and sets
the node active, and `add_to_queue` of a VALUE or IRRELEVANT_ANSWER node
never enqueues it. -/
theorem queueReachableInvariant (qm : QueueManager) (h : QueueReach qm) :
    (∀ i ∈ qm.queue,
      labelOf? qm.tree.arena i = some .STIMULUS ∨
      labelOf? qm.tree.arena i = some .ATTRIBUTE ∨
      labelOf? qm.tree.arena i = some .CONSEQUENCE) ∧
    qm.queue.Nodup ∧
    (∀ i, labelOf? qm.tree.arena i = some .IDEA →
      (qm.addToQueue i).queue = qm.queue ∧ (qm.addToQueue i).activeNode = some i) ∧
    (∀ i, labelOf? qm.tree.arena i = some .VALUE ∨
        labelOf? qm.tree.arena i = some .IRRELEVANT_ANSWER →
      (qm.addToQueue i).queue = qm.queue) := by
  have behav : ∀ qm' : QueueManager,
      (∀ i, labelOf? qm'.tree.arena i = some .IDEA →
        (qm'.addToQueue i).queue = qm'.queue ∧ (qm'.addToQueue i).activeNode = some i) ∧
      (∀ i, labelOf? qm'.tree.arena i = some .VALUE ∨
          labelOf? qm'.tree.arena i = some .IRRELEVANT_ANSWER →
        (qm'.addToQueue i).queue = qm'.queue) := by
    intro qm'
    refine ⟨fun i hl => addToQueue_idea qm' i hl, fun i hl => ?_⟩
    rcases hl with hl | hl
    · exact addToQueue_value qm' i hl
    · exact addToQueue_irrelevant qm' i hl
  refine ⟨?_, ?_, (behav qm).1, (behav qm).2⟩ <;>
  · induction h with
    | init qm0 stimuli hne hlab hnd =>
      unfold QueueManager.initializeStimuliQueue
      match stimuli, hne with
      | first :: rest, _ =>
        first
        | exact fun i hi =>
            Or.inl (hlab i (List.mem_cons_of_mem first hi))
        | exact (List.nodup_cons.mp hnd).2
    | add qm0 i l hr hl hmem ih =>
      rcases hmem with h1 | h2 | h3 | h4 | h5
      · subst h1
        rcases addToQueue_idea qm0 i hl with ⟨hq, _⟩
        first
        | exact fun j hj => by
            rw [addToQueue_arena]
            exact ih j (hq ▸ hj)
        | exact hq ▸ ih
      · subst h2
        rcases addToQueue_other qm0 i .ATTRIBUTE hl (by decide) with ⟨_, hq⟩ | ⟨hni, hq⟩
        · first
          | exact fun j hj => by rw [addToQueue_arena]; exact ih j (hq ▸ hj)
          | exact hq ▸ ih
        · first
          | exact fun j hj => by
              rw [addToQueue_arena]
              rcases mem_insertIdx_sub (hq ▸ hj) with rfl | hj'
              · exact Or.inr (Or.inl hl)
              · exact ih j hj'
          | exact hq ▸ nodup_insertIdx ih hni
      · subst h3
        rcases addToQueue_other qm0 i .CONSEQUENCE hl (by decide) with ⟨_, hq⟩ | ⟨hni, hq⟩
        · first
          | exact fun j hj => by rw [addToQueue_arena]; exact ih j (hq ▸ hj)
          | exact hq ▸ ih
        · first
          | exact fun j hj => by
              rw [addToQueue_arena]
              rcases mem_insertIdx_sub (hq ▸ hj) with rfl | hj'
              · exact Or.inr (Or.inr hl)
              · exact ih j hj'
          | exact hq ▸ nodup_insertIdx ih hni
      · subst h4
        have hq := addToQueue_value qm0 i hl
        first
        | exact fun j hj => by rw [addToQueue_arena]; exact ih j (hq ▸ hj)
        | exact hq ▸ ih
      · subst h5
        have hq := addToQueue_irrelevant qm0 i hl
        first
        | exact fun j hj => by rw [addToQueue_arena]; exact ih j (hq ▸ hj)
        | exact hq ▸ ih
    | next qm0 hr ih =>
      rcases getNext_queue qm0 with hq | hq
      · first
        | exact fun j hj => by rw [getNext_arena]; exact ih j (hq ▸ hj)
        | exact hq ▸ ih
      · first
        | exact fun j hj => by
            rw [getNext_arena]
            exact ih j (List.mem_of_mem_tail (hq ▸ hj))
        | exact hq ▸ ih.tail
    | count qm0 b hr ih =>
      have hcq : (qm0.updateUnchangedCount b).queue = qm0.queue ∧
          (qm0.updateUnchangedCount b).tree = qm0.tree := by
        unfold QueueManager.updateUnchangedCount
        split <;> exact ⟨rfl, rfl⟩
      first
      | exact fun j hj => by rw [hcq.2]; exact ih j (hcq.1 ▸ hj)
      | exact hcq.1 ▸ ih
    | evolve qm0 t' hr hstable ih =>
      first
      | exact fun j hj => by
          rcases ih j hj with hl | hl | hl
          · exact Or.inl (hstable j _ hl)
          · exact Or.inr (Or.inl (hstable j _ hl))
          · exact Or.inr (Or.inr (hstable j _ hl))
      | exact ih

/-- A base manager on the three-node tree, used to build a concrete
reachable queue state for the C5 witness. -/
def exQmC5 : QueueManager :=
  { tree := exTreeC2, queue := [], activeNode := none, unchangedCount := 0, maxUnchanged := 3 }

/-- C5 witness: the invariant theorem applied to the concrete reachable
state obtained by initializing with stimulus 0 and adding attribute 1. -/
theorem queueReachableInvariantWitness :
    QueueReach ((exQmC5.initializeStimuliQueue [0]).addToQueue 1) ∧
    (∀ i ∈ ((exQmC5.initializeStimuliQueue [0]).addToQueue 1).queue,
      labelOf? ((exQmC5.initializeStimuliQueue [0]).addToQueue 1).tree.arena i =
        some .STIMULUS ∨
      labelOf? ((exQmC5.initializeStimuliQueue [0]).addToQueue 1).tree.arena i =
        some .ATTRIBUTE ∨
      labelOf? ((exQmC5.initializeStimuliQueue [0]).addToQueue 1).tree.arena i =
        some .CONSEQUENCE) ∧
    ((exQmC5.initializeStimuliQueue [0]).addToQueue 1).queue.Nodup := by
  have h0 : QueueReach (exQmC5.initializeStimuliQueue [0]) :=
    QueueReach.init exQmC5 [0] (by decide) (by decide) (by decide)
  have h1 : QueueReach ((exQmC5.initializeStimuliQueue [0]).addToQueue 1) :=
    QueueReach.add _ 1 .ATTRIBUTE h0 (by decide) (by decide)
  have h := queueReachableInvariant _ h1
  exact ⟨h1, h.1, h.2.1⟩

/-! ### Claim C10: bidirectional link consistency -/

theorem findNode?_id {a : Arena} {j : Nat} {n : Node} (h : findNode? a j = some n) :
    n.id = j := by
  have := List.find?_some h
  simpa using this

theorem findNode?_updateNode (a : Arena) (i : Nat) (f : Node → Node)
    (hf : ∀ n, (f n).id = n.id) (j : Nat) :
    findNode? (updateNode a i f) j =
      (findNode? a j).map (fun n => if n.id = i then f n else n) := by
  induction a with
  | nil => rfl
  | cons n rest ih =>
    simp only [updateNode, List.map_cons, findNode?]
    have hup : (if n.id = i then f n else n).id = n.id := by
      by_cases hn : n.id = i <;> simp [hn, hf n]
    by_cases hj : n.id = j
    · rw [List.find?_cons_of_pos _ (by rw [hup]; simp [hj]),
        List.find?_cons_of_pos _ (by simp [hj])]
      rfl
    · rw [List.find?_cons_of_neg _ (by rw [hup]; simp [hj]),
        List.find?_cons_of_neg _ (by simp [hj])]
      simpa [updateNode, findNode?] using ih

theorem updateNode_eq_self (a : Arena) (i : Nat) (f : Node → Node)
    (h : ∀ n ∈ a, n.id = i → f n = n) : updateNode a i f = a := by
  induction a with
  | nil => rfl
  | cons n rest ih =>
    simp only [updateNode, List.map_cons]
    have h1 : (if n.id = i then f n else n) = n := by
      by_cases hn : n.id = i
      · rw [if_pos hn]
        exact h n (List.mem_cons_self n rest) hn
      · simp [hn]
    rw [h1]
    have h2 : updateNode rest i f = rest :=
      ih (fun m hm => h m (List.mem_cons_of_mem n hm))
    simpa [updateNode] using congrArg (n :: ·) h2

theorem mem_updateNode {a : Arena} {i : Nat} {f : Node → Node} {m : Node} :
    m ∈ updateNode a i f ↔ ∃ n ∈ a, m = if n.id = i then f n else n := by
  simp only [updateNode, List.mem_map]
  constructor
  · rintro ⟨n, hn, rfl⟩; exact ⟨n, hn, rfl⟩
  · rintro ⟨n, hn, rfl⟩; exact ⟨n, hn, rfl⟩

/-- All registered ids of the tree (the contents of `nodes_by_label`). -/
def LabelIndex.allIds (ix : LabelIndex) : List Nat :=
  ix.topics ++ ix.stimuli ++ ix.ideas ++ ix.attributes ++ ix.consequences ++
    ix.values ++ ix.irrelevants

/-- The consistency property claim C10 states for every reachable graph:
node ids are unique; every node's child and parent lists are duplicate-free
and reference only live nodes; a child edge always has its parent
back-reference (arena-wide); and between registered nodes (an id listed in
`nodes_by_label`) the parent/child relation is fully bidirectional.  The
last two bookkeeping components (registered ids resolve; the
IRRELEVANT_ANSWER registry is duplicate-free) make the invariant inductive
across `remove_irrelevant_node`, which deregisters a node while its own
parent references stay behind. -/
def ConsistentTree (t : Tree) : Prop :=
  (t.arena.map Node.id).Nodup ∧
  (∀ j n, findNode? t.arena j = some n →
    n.children.Nodup ∧ n.parents.Nodup ∧
    (∀ x ∈ n.children, (findNode? t.arena x).isSome) ∧
    (∀ x ∈ n.parents, (findNode? t.arena x).isSome)) ∧
  (∀ i j ni nj, findNode? t.arena i = some ni → findNode? t.arena j = some nj →
    j ∈ ni.children → i ∈ nj.parents) ∧
  (∀ i j ni nj, i ∈ t.index.allIds → j ∈ t.index.allIds →
    findNode? t.arena i = some ni → findNode? t.arena j = some nj →
    (j ∈ ni.children ↔ i ∈ nj.parents)) ∧
  (∀ i ∈ t.index.allIds, (findNode? t.arena i).isSome) ∧
  (t.index.get .IRRELEVANT_ANSWER).Nodup ∧
  (∀ l, ∀ i ∈ t.index.get l, ∀ n, findNode? t.arena i = some n → n.label = l)

theorem ids_updateNode (a : Arena) (i : Nat) (f : Node → Node)
    (hf : ∀ n, (f n).id = n.id) : (updateNode a i f).map Node.id = a.map Node.id := by
  unfold updateNode
  rw [List.map_map]
  refine List.map_congr_left ?_
  intro n _
  by_cases hn : n.id = i <;> simp [hn, hf n]

theorem findNode?_addChildLink (a : Arena) (p c : Nat) (j : Nat) :
    findNode? (addChildLink a p c) j = (findNode? a j).map (fun n =>
      let n1 := if n.id = p then
        (if c ∈ n.children then n else { n with children := n.children ++ [c] }) else n
      if n1.id = c then
        (if p ∈ n1.parents then n1 else { n1 with parents := n1.parents ++ [p] }) else n1) := by
  unfold addChildLink
  rw [findNode?_updateNode _ _ _ (fun n => by by_cases h : p ∈ n.parents <;> simp [h]),
    findNode?_updateNode _ _ _ (fun n => by by_cases h : c ∈ n.children <;> simp [h]),
    Option.map_map]
  rfl

theorem findNode?_addParentLink (a : Arena) (c p : Nat) (j : Nat) :
    findNode? (addParentLink a c p) j = (findNode? a j).map (fun n =>
      let n1 := if n.id = c then
        (if p ∈ n.parents then n else { n with parents := n.parents ++ [p] }) else n
      if n1.id = p then
        (if c ∈ n1.children then n1 else { n1 with children := n1.children ++ [c] }) else n1) := by
  unfold addParentLink
  rw [findNode?_updateNode _ _ _ (fun n => by by_cases h : c ∈ n.children <;> simp [h]),
    findNode?_updateNode _ _ _ (fun n => by by_cases h : p ∈ n.parents <;> simp [h]),
    Option.map_map]
  rfl

/-- The node produced by the link-step of `addChildLink` or
`addParentLink`: id and label unchanged, `c` joined to the children when the
node is `p`, `p` joined to the parents when the node is `c`. -/
theorem linkStage1_spec (p c : Nat) : ∀ m : Node, ∀ m', (m' =
      (if m.id = p then
        (if c ∈ m.children then m else { m with children := m.children ++ [c] }) else m)) →
      m'.id = m.id ∧ m'.label = m.label ∧ m'.trace = m.trace ∧
      m'.backwardsRelations = m.backwardsRelations ∧
      m'.isValuePathCompleted = m.isValuePathCompleted ∧
      m'.conclusion = m.conclusion ∧ m'.createdNs = m.createdNs ∧
      m'.parents = m.parents ∧
      (∀ x, x ∈ m'.children ↔ x ∈ m.children ∨ (m.id = p ∧ x = c)) ∧
      (m.children.Nodup → m'.children.Nodup) := by
  intro m m' hm'
  subst hm'
  by_cases hp : m.id = p
  · by_cases hcm : c ∈ m.children
    · rw [if_pos hp, if_pos hcm]
      refine ⟨rfl, rfl, rfl, rfl, rfl, rfl, rfl, rfl, ?_, fun h => h⟩
      intro x
      constructor
      · exact Or.inl
      · rintro (hx | ⟨-, rfl⟩)
        · exact hx
        · exact hcm
    · rw [if_pos hp, if_neg hcm]
      refine ⟨rfl, rfl, rfl, rfl, rfl, rfl, rfl, rfl, ?_, ?_⟩
      · intro x
        simp only [List.mem_append, List.mem_singleton]
        constructor
        · rintro (hx | rfl)
          · exact Or.inl hx
          · exact Or.inr ⟨hp, rfl⟩
        · rintro (hx | ⟨-, rfl⟩)
          · exact Or.inl hx
          · exact Or.inr rfl
      · intro hnd
        simp [List.nodup_append, hnd, hcm]
  · rw [if_neg hp]
    refine ⟨rfl, rfl, rfl, rfl, rfl, rfl, rfl, rfl, ?_, fun h => h⟩
    intro x
    constructor
    · exact Or.inl
    · rintro (hx | ⟨hmp, rfl⟩)
      · exact hx
      · exact absurd hmp hp

theorem linkStage2_spec (p c : Nat) : ∀ m : Node, ∀ m', (m' =
      (if m.id = c then
        (if p ∈ m.parents then m else { m with parents := m.parents ++ [p] }) else m)) →
      m'.id = m.id ∧ m'.label = m.label ∧ m'.trace = m.trace ∧
      m'.backwardsRelations = m.backwardsRelations ∧
      m'.isValuePathCompleted = m.isValuePathCompleted ∧
      m'.conclusion = m.conclusion ∧ m'.createdNs = m.createdNs ∧
      m'.children = m.children ∧
      (∀ x, x ∈ m'.parents ↔ x ∈ m.parents ∨ (m.id = c ∧ x = p)) ∧
      (m.parents.Nodup → m'.parents.Nodup) := by
  intro m m' hm'
  subst hm'
  by_cases hc : m.id = c
  · by_cases hpm : p ∈ m.parents
    · rw [if_pos hc, if_pos hpm]
      refine ⟨rfl, rfl, rfl, rfl, rfl, rfl, rfl, rfl, ?_, fun h => h⟩
      intro x
      constructor
      · exact Or.inl
      · rintro (hx | ⟨-, rfl⟩)
        · exact hx
        · exact hpm
    · rw [if_pos hc, if_neg hpm]
      refine ⟨rfl, rfl, rfl, rfl, rfl, rfl, rfl, rfl, ?_, ?_⟩
      · intro x
        simp only [List.mem_append, List.mem_singleton]
        constructor
        · rintro (hx | rfl)
          · exact Or.inl hx
          · exact Or.inr ⟨hc, rfl⟩
        · rintro (hx | ⟨-, rfl⟩)
          · exact Or.inl hx
          · exact Or.inr rfl
      · intro hnd
        simp [List.nodup_append, hnd, hpm]
  · rw [if_neg hc]
    refine ⟨rfl, rfl, rfl, rfl, rfl, rfl, rfl, rfl, ?_, fun h => h⟩
    intro x
    constructor
    · exact Or.inl
    · rintro (hx | ⟨hmc, rfl⟩)
      · exact hx
      · exact absurd hmc hc

/-- The node produced by the map underlying `addChildLink`: id and label
unchanged, `c` joined to the children when the node is `p`, `p` joined to
the parents when the node is `c`. -/
theorem linkResult_spec (p c : Nat) (n : Node) :
    ∀ n', (n' =
      (let n1 := if n.id = p then
        (if c ∈ n.children then n else { n with children := n.children ++ [c] }) else n
      if n1.id = c then
        (if p ∈ n1.parents then n1 else { n1 with parents := n1.parents ++ [p] }) else n1)) →
      n'.id = n.id ∧ n'.label = n.label ∧ n'.trace = n.trace ∧
      n'.backwardsRelations = n.backwardsRelations ∧
      n'.isValuePathCompleted = n.isValuePathCompleted ∧
      n'.conclusion = n.conclusion ∧ n'.createdNs = n.createdNs ∧
      (∀ x, x ∈ n'.children ↔ x ∈ n.children ∨ (n.id = p ∧ x = c)) ∧
      (∀ x, x ∈ n'.parents ↔ x ∈ n.parents ∨ (n.id = c ∧ x = p)) ∧
      (n.children.Nodup → n'.children.Nodup) ∧
      (n.parents.Nodup → n'.parents.Nodup) := by
  intro n' hn'
  obtain ⟨h1id, h1lab, h1tr, h1bw, h1fl, h1co, h1cr, h1par, h1ch, h1nd⟩ :=
    linkStage1_spec p c n _ rfl
  set n1 := (if n.id = p then
    (if c ∈ n.children then n else { n with children := n.children ++ [c] }) else n) with hn1
  obtain ⟨h2id, h2lab, h2tr, h2bw, h2fl, h2co, h2cr, h2ch, h2par, h2nd⟩ :=
    linkStage2_spec p c n1 n' (by rw [hn'])
  refine ⟨h2id.trans h1id, h2lab.trans h1lab, h2tr.trans h1tr, h2bw.trans h1bw,
    h2fl.trans h1fl, h2co.trans h1co, h2cr.trans h1cr, ?_, ?_, ?_, ?_⟩
  · intro x
    rw [h2ch]
    exact h1ch x
  · intro x
    rw [h2par x, h1par, h1id]
  · intro hnd
    rw [h2ch]
    exact h1nd hnd
  · intro hnd
    exact h2nd (h1par ▸ hnd)

/-- The node produced by the map underlying `addParentLink`: the same net
effect as `addChildLink` (the two update orders commute on the
characterization level). -/
theorem linkResultP_spec (c p : Nat) (n : Node) :
    ∀ n', (n' =
      (let n1 := if n.id = c then
        (if p ∈ n.parents then n else { n with parents := n.parents ++ [p] }) else n
      if n1.id = p then
        (if c ∈ n1.children then n1 else { n1 with children := n1.children ++ [c] }) else n1)) →
      n'.id = n.id ∧ n'.label = n.label ∧ n'.trace = n.trace ∧
      n'.backwardsRelations = n.backwardsRelations ∧
      n'.isValuePathCompleted = n.isValuePathCompleted ∧
      n'.conclusion = n.conclusion ∧ n'.createdNs = n.createdNs ∧
      (∀ x, x ∈ n'.children ↔ x ∈ n.children ∨ (n.id = p ∧ x = c)) ∧
      (∀ x, x ∈ n'.parents ↔ x ∈ n.parents ∨ (n.id = c ∧ x = p)) ∧
      (n.children.Nodup → n'.children.Nodup) ∧
      (n.parents.Nodup → n'.parents.Nodup) := by
  intro n' hn'
  obtain ⟨h1id, h1lab, h1tr, h1bw, h1fl, h1co, h1cr, h1ch, h1par, h1nd⟩ :=
    linkStage2_spec p c n _ rfl
  set n1 := (if n.id = c then
    (if p ∈ n.parents then n else { n with parents := n.parents ++ [p] }) else n) with hn1
  obtain ⟨h2id, h2lab, h2tr, h2bw, h2fl, h2co, h2cr, h2par, h2ch, h2nd⟩ :=
    linkStage1_spec p c n1 n' (by rw [hn'])
  refine ⟨h2id.trans h1id, h2lab.trans h1lab, h2tr.trans h1tr, h2bw.trans h1bw,
    h2fl.trans h1fl, h2co.trans h1co, h2cr.trans h1cr, ?_, ?_, ?_, ?_⟩
  · intro x
    rw [h2ch x, h1ch, h2id.symm]
    rw [h2id, h1id]
  · intro x
    rw [h2par]
    exact h1par x
  · intro hnd
    exact h2nd (h1ch ▸ hnd)
  · intro hnd
    rw [h2par]
    exact h1nd hnd

/-- Consistency is preserved by any arena transformation with the edge-add
characterization of `Node.add_child` / `Node.add_parent` between two live
nodes `p` and `c` (the registry is untouched). -/
theorem consistent_link_general (t : Tree) (a' : Arena) (p c : Nat)
    (hp : (findNode? t.arena p).isSome) (hc : (findNode? t.arena c).isSome)
    (hids : a'.map Node.id = t.arena.map Node.id)
    (hchar : ∀ j n n', findNode? t.arena j = some n → findNode? a' j = some n' →
      n'.id = n.id ∧ n'.label = n.label ∧
      (∀ x, x ∈ n'.children ↔ x ∈ n.children ∨ (n.id = p ∧ x = c)) ∧
      (∀ x, x ∈ n'.parents ↔ x ∈ n.parents ∨ (n.id = c ∧ x = p)) ∧
      (n.children.Nodup → n'.children.Nodup) ∧ (n.parents.Nodup → n'.parents.Nodup))
    (hsome : ∀ j, (findNode? a' j).isSome ↔ (findNode? t.arena j).isSome)
    (h : ConsistentTree t) : ConsistentTree { t with arena := a' } := by
  obtain ⟨h1, h2, h3, h4, h5, h6, h7⟩ := h
  have hget : ∀ {j : Nat} {n' : Node}, findNode? a' j = some n' →
      ∃ n, findNode? t.arena j = some n ∧
        n'.id = n.id ∧ n'.label = n.label ∧
        (∀ x, x ∈ n'.children ↔ x ∈ n.children ∨ (n.id = p ∧ x = c)) ∧
        (∀ x, x ∈ n'.parents ↔ x ∈ n.parents ∨ (n.id = c ∧ x = p)) ∧
        (n.children.Nodup → n'.children.Nodup) ∧ (n.parents.Nodup → n'.parents.Nodup) := by
    intro j n' hf'
    have hs : (findNode? t.arena j).isSome := (hsome j).mp (by simp [hf'])
    obtain ⟨n, hn⟩ := Option.isSome_iff_exists.mp hs
    exact ⟨n, hn, hchar j n n' hn hf'⟩
  refine ⟨by simpa [hids] using h1, ?_, ?_, ?_, ?_, h6, ?_⟩
  · intro j n' hf'
    obtain ⟨n, hn, hid, hlab, hch, hpar, hndc, hndp⟩ := hget hf'
    obtain ⟨hc1, hc2, hc3, hc4⟩ := h2 j n hn
    refine ⟨hndc hc1, hndp hc2, ?_, ?_⟩
    · intro x hx
      rcases (hch x).mp hx with hx' | ⟨-, rfl⟩
      · rw [hsome]; exact hc3 x hx'
      · rw [hsome]; exact hc
    · intro x hx
      rcases (hpar x).mp hx with hx' | ⟨-, rfl⟩
      · rw [hsome]; exact hc4 x hx'
      · rw [hsome]; exact hp
  · intro i j ni' nj' hfi' hfj' hmem
    obtain ⟨ni, hni, hidi, -, hchi, hpari, -, -⟩ := hget hfi'
    obtain ⟨nj, hnj, hidj, -, hchj, hparj, -, -⟩ := hget hfj'
    have hii : ni.id = i := findNode?_id hni
    have hjj : nj.id = j := findNode?_id hnj
    rcases (hchi j).mp hmem with hx | ⟨hip, rfl⟩
    · exact (hparj i).mpr (Or.inl (h3 i j ni nj hni hnj hx))
    · exact (hparj i).mpr (Or.inr ⟨hjj, (hii.symm.trans hip)⟩)
  · intro i j ni' nj' hi hj hfi' hfj'
    obtain ⟨ni, hni, hidi, -, hchi, hpari, -, -⟩ := hget hfi'
    obtain ⟨nj, hnj, hidj, -, hchj, hparj, -, -⟩ := hget hfj'
    have hii : ni.id = i := findNode?_id hni
    have hjj : nj.id = j := findNode?_id hnj
    rw [hchi j, hparj i, h4 i j ni nj hi hj hni hnj, hii, hjj]
    tauto
  · intro i hi
    rw [hsome]
    exact h5 i hi
  · intro l i hi n' hf'
    obtain ⟨n, hn, -, hlab, -⟩ := hget hf'
    rw [hlab]
    exact h7 l i hi n hn

theorem consistent_linkChild (t : Tree) (p c : Nat)
    (hp : (findNode? t.arena p).isSome) (hc : (findNode? t.arena c).isSome)
    (h : ConsistentTree t) : ConsistentTree { t with arena := addChildLink t.arena p c } := by
  refine consistent_link_general t _ p c hp hc ?_ ?_ ?_ h
  · unfold addChildLink
    rw [ids_updateNode _ _ _ (fun n => by by_cases hx : p ∈ n.parents <;> simp [hx]),
      ids_updateNode _ _ _ (fun n => by by_cases hx : c ∈ n.children <;> simp [hx])]
  · intro j n n' hn hn'
    rw [findNode?_addChildLink, hn, Option.map_some'] at hn'
    obtain ⟨hid, hlab, -, -, -, -, -, hch, hpar, hndc, hndp⟩ :=
      linkResult_spec p c n n' (Option.some.inj hn').symm
    exact ⟨hid, hlab, hch, hpar, hndc, hndp⟩
  · intro j
    rw [findNode?_addChildLink]
    simp

theorem consistent_linkParent (t : Tree) (c p : Nat)
    (hp : (findNode? t.arena p).isSome) (hc : (findNode? t.arena c).isSome)
    (h : ConsistentTree t) : ConsistentTree { t with arena := addParentLink t.arena c p } := by
  refine consistent_link_general t _ p c hp hc ?_ ?_ ?_ h
  · unfold addParentLink
    rw [ids_updateNode _ _ _ (fun n => by by_cases hx : c ∈ n.children <;> simp [hx]),
      ids_updateNode _ _ _ (fun n => by by_cases hx : p ∈ n.parents <;> simp [hx])]
  · intro j n n' hn hn'
    rw [findNode?_addParentLink, hn, Option.map_some'] at hn'
    obtain ⟨hid, hlab, -, -, -, -, -, hch, hpar, hndc, hndp⟩ :=
      linkResultP_spec c p n n' (Option.some.inj hn').symm
    exact ⟨hid, hlab, hch, hpar, hndc, hndp⟩
  · intro j
    rw [findNode?_addParentLink]
    simp


theorem findNode?_isSome_iff (a : Arena) (j : Nat) :
    (findNode? a j).isSome ↔ j ∈ a.map Node.id := by
  induction a with
  | nil => simp [findNode?]
  | cons n rest ih =>
    by_cases h : n.id = j
    · simp only [List.map_cons, List.mem_cons]
      unfold findNode?
      rw [List.find?_cons_of_pos _ (by simp [h])]
      simp [h.symm]
    · simp only [List.map_cons, List.mem_cons]
      unfold findNode?
      rw [List.find?_cons_of_neg _ (by simp [h])]
      unfold findNode? at ih
      rw [ih]
      constructor
      · exact Or.inr
      · rintro (rfl | hm)
        · exact absurd rfl h
        · exact hm

theorem markLoop_ids : ∀ (fuel : Nat) (a : Arena) (stack visited : List Nat),
    (markLoop a stack visited fuel).map Node.id = a.map Node.id := by
  intro fuel
  induction fuel with
  | zero => intro a stack visited; rfl
  | succ fuel ih =>
    intro a stack visited
    cases stack with
    | nil => rfl
    | cons c rest =>
      simp only [markLoop]
      by_cases h : c ∈ visited
      · rw [if_pos h]; exact ih a rest visited
      · rw [if_neg h]
        exact (ih _ _ _).trans (ids_updateNode a c _ (fun n => rfl))

theorem markLoop_structure : ∀ (fuel : Nat) (a : Arena) (stack visited : List Nat)
    (j : Nat) (nj : Node), findNode? (markLoop a stack visited fuel) j = some nj →
    ∃ n, findNode? a j = some n ∧ nj.id = n.id ∧ nj.label = n.label ∧
      nj.children = n.children ∧ nj.parents = n.parents := by
  intro fuel
  induction fuel with
  | zero =>
    intro a stack visited j nj hf
    exact ⟨nj, hf, rfl, rfl, rfl, rfl⟩
  | succ fuel ih =>
    intro a stack visited j nj hf
    cases stack with
    | nil => exact ⟨nj, hf, rfl, rfl, rfl, rfl⟩
    | cons c rest =>
      simp only [markLoop] at hf
      by_cases h : c ∈ visited
      · rw [if_pos h] at hf
        exact ih a rest visited j nj hf
      · rw [if_neg h] at hf
        obtain ⟨n1, hn1, hid, hlab, hch, hpar⟩ := ih _ _ _ j nj hf
        rw [findNode?_updateNode a c (fun n => { n with isValuePathCompleted := true })
          (fun n => rfl) j] at hn1
        cases ho : findNode? a j with
        | none => rw [ho] at hn1; simp at hn1
        | some n =>
          rw [ho, Option.map_some'] at hn1
          have hn1' := Option.some.inj hn1
          have hfields : n1.id = n.id ∧ n1.label = n.label ∧
              n1.children = n.children ∧ n1.parents = n.parents := by
            rw [← hn1']
            by_cases hc : n.id = c <;> simp [hc]
          exact ⟨n, rfl, hid.trans hfields.1, hlab.trans hfields.2.1,
            hch.trans hfields.2.2.1, hpar.trans hfields.2.2.2⟩

/-- Consistency is preserved by any arena transformation that keeps the
ids, labels, children and parents of every node (only other fields such as
the completion flag may change); the registry is untouched. -/
theorem consistent_of_preserved (t : Tree) (a' : Arena)
    (hids : a'.map Node.id = t.arena.map Node.id)
    (hchar : ∀ j n', findNode? a' j = some n' → ∃ n, findNode? t.arena j = some n ∧
      n'.id = n.id ∧ n'.label = n.label ∧ n'.children = n.children ∧ n'.parents = n.parents)
    (h : ConsistentTree t) : ConsistentTree { t with arena := a' } := by
  obtain ⟨h1, h2, h3, h4, h5, h6, h7⟩ := h
  have hsome : ∀ j, (findNode? a' j).isSome ↔ (findNode? t.arena j).isSome := by
    intro j; rw [findNode?_isSome_iff, findNode?_isSome_iff, hids]
  refine ⟨by simpa [hids] using h1, ?_, ?_, ?_, ?_, h6, ?_⟩
  · intro j n' hf'
    obtain ⟨n, hn, -, -, hch, hpar⟩ := hchar j n' hf'
    obtain ⟨hc1, hc2, hc3, hc4⟩ := h2 j n hn
    rw [hch, hpar]
    refine ⟨hc1, hc2, ?_, ?_⟩
    · intro x hx; rw [hsome]; exact hc3 x hx
    · intro x hx; rw [hsome]; exact hc4 x hx
  · intro i j ni' nj' hfi' hfj' hmem
    obtain ⟨ni, hni, -, -, hchi, -⟩ := hchar i ni' hfi'
    obtain ⟨nj, hnj, -, -, -, hparj⟩ := hchar j nj' hfj'
    rw [hparj]
    exact h3 i j ni nj hni hnj (hchi ▸ hmem)
  · intro i j ni' nj' hi hj hfi' hfj'
    obtain ⟨ni, hni, -, -, hchi, -⟩ := hchar i ni' hfi'
    obtain ⟨nj, hnj, -, -, -, hparj⟩ := hchar j nj' hfj'
    rw [hchi, hparj]
    exact h4 i j ni nj hi hj hni hnj
  · intro i hi; rw [hsome]; exact h5 i hi
  · intro l i hi n' hf'
    obtain ⟨n, hn, -, hlab, -, -⟩ := hchar i n' hf'
    rw [hlab]; exact h7 l i hi n hn

theorem consistent_mark (t : Tree) (i : Nat) (h : ConsistentTree t) :
    ConsistentTree (t.markValuePathCompleted i) := by
  cases hl : labelOf? t.arena i with
  | none => simpa [Tree.markValuePathCompleted, hl] using h
  | some l =>
    cases l
    case VALUE =>
      have hres := consistent_of_preserved t (markLoop t.arena [i] [] (loopFuel t.arena))
        (markLoop_ids _ _ _ _) (fun j n' hf' => markLoop_structure _ _ _ _ j n' hf') h
      simpa [Tree.markValuePathCompleted, hl] using hres
    all_goals simpa [Tree.markValuePathCompleted, hl] using h

theorem findNode?_removeChildLink (a : Arena) (p c : Nat) (j : Nat) :
    findNode? (removeChildLink a p c) j = (findNode? a j).map (fun n =>
      if n.id = p then
        (if c ∈ n.children then { n with children := n.children.erase c } else n)
      else n) := by
  unfold removeChildLink
  exact findNode?_updateNode a p _ (fun n => by by_cases h : c ∈ n.children <;> simp [h]) j

theorem ids_removeChildLink (a : Arena) (p c : Nat) :
    (removeChildLink a p c).map Node.id = a.map Node.id :=
  ids_updateNode a p _ (fun n => by by_cases h : c ∈ n.children <;> simp [h])

theorem ids_foldRemove (c : Nat) : ∀ (ps : List Nat) (a : Arena),
    (ps.foldl (fun acc p => removeChildLink acc p c) a).map Node.id = a.map Node.id := by
  intro ps
  induction ps with
  | nil => intro a; rfl
  | cons p rest ih =>
    intro a
    rw [List.foldl_cons, ih, ids_removeChildLink]

/-- Effect of the detach fold of `Tree.remove_irrelevant_node` on a single
node: everything except the children is unchanged, the children list only
loses occurrences of `c`, and a processed parent with duplicate-free
children no longer lists `c`. -/
theorem foldRemove_spec (c : Nat) : ∀ (ps : List Nat) (a : Arena) (j : Nat) (nj : Node),
    findNode? (ps.foldl (fun acc p => removeChildLink acc p c) a) j = some nj →
    ∃ n, findNode? a j = some n ∧ nj.id = n.id ∧ nj.label = n.label ∧
      nj.parents = n.parents ∧ nj.children.Sublist n.children ∧
      (∀ x, x ≠ c → (x ∈ nj.children ↔ x ∈ n.children)) ∧
      (j ∉ ps → nj = n) ∧
      (j ∈ ps → n.children.Nodup → c ∉ nj.children) := by
  intro ps
  induction ps with
  | nil =>
    intro a j nj hf
    exact ⟨nj, hf, rfl, rfl, rfl, List.Sublist.refl _, fun x _ => Iff.rfl, fun _ => rfl,
      fun hj _ => absurd hj (List.not_mem_nil j)⟩
  | cons p rest ih =>
    intro a j nj hf
    rw [List.foldl_cons] at hf
    obtain ⟨n1, hn1, hid, hlab, hpar, hsub, hmemx, hout, hin⟩ := ih (removeChildLink a p c) j nj hf
    rw [findNode?_removeChildLink] at hn1
    cases ho : findNode? a j with
    | none => rw [ho] at hn1; simp at hn1
    | some n =>
      rw [ho, Option.map_some'] at hn1
      have hn1' := Option.some.inj hn1
      have hkey : n1.id = n.id ∧ n1.label = n.label ∧ n1.parents = n.parents ∧
          n1.children.Sublist n.children ∧
          (∀ x, x ≠ c → (x ∈ n1.children ↔ x ∈ n.children)) ∧
          (n.id = p → n.children.Nodup → c ∉ n1.children) ∧ (n.id ≠ p → n1 = n) := by
        rw [← hn1']
        by_cases hjp : n.id = p
        · by_cases hcm : c ∈ n.children
          · rw [if_pos hjp, if_pos hcm]
            refine ⟨rfl, rfl, rfl, List.erase_sublist c n.children, ?_, ?_, ?_⟩
            · intro x hx
              exact List.mem_erase_of_ne hx
            · intro _ hnd
              exact hnd.not_mem_erase
            · intro hne
              exact absurd hjp hne
          · rw [if_pos hjp, if_neg hcm]
            exact ⟨rfl, rfl, rfl, List.Sublist.refl _, fun x _ => Iff.rfl,
              fun _ _ => hcm, fun hne => absurd hjp hne⟩
        · rw [if_neg hjp]
          exact ⟨rfl, rfl, rfl, List.Sublist.refl _, fun x _ => Iff.rfl,
            fun hp _ => absurd hp hjp, fun _ => rfl⟩
      obtain ⟨k1, k2, k3, k4, k5, k6, k7⟩ := hkey
      have hnid : n.id = j := findNode?_id ho
      refine ⟨n, rfl, hid.trans k1, hlab.trans k2, hpar.trans k3, hsub.trans k4,
        ?_, ?_, ?_⟩
      · intro x hx
        exact (hmemx x hx).trans (k5 x hx)
      · intro hout2
        have hjp2 : j ≠ p := fun e => hout2 (e ▸ List.mem_cons_self p rest)
        have hrest : j ∉ rest := fun e => hout2 (List.mem_cons_of_mem p e)
        rw [hout hrest, k7 (by rw [hnid]; exact hjp2)]
      · intro hmem hnd
        by_cases hr : j ∈ rest
        · exact hin hr (List.Nodup.sublist k4 hnd)
        · have hjp2 : j = p := by
            rcases List.mem_cons.mp hmem with h | h
            · exact h
            · exact absurd h hr
          rw [hout hr]
          exact k6 (hnid.trans hjp2) hnd

theorem mem_allIds (ix : LabelIndex) (j : Nat) :
    j ∈ ix.allIds ↔ j ∈ ix.get .TOPIC ∨ j ∈ ix.get .STIMULUS ∨ j ∈ ix.get .IDEA ∨
      j ∈ ix.get .ATTRIBUTE ∨ j ∈ ix.get .CONSEQUENCE ∨ j ∈ ix.get .VALUE ∨
      j ∈ ix.get .IRRELEVANT_ANSWER := by
  simp [LabelIndex.allIds, LabelIndex.get, List.mem_append, or_assoc]

theorem mem_allIds_exists (ix : LabelIndex) (j : Nat) :
    j ∈ ix.allIds ↔ ∃ l, j ∈ ix.get l := by
  rw [mem_allIds]
  constructor
  · rintro (h | h | h | h | h | h | h)
    exacts [⟨_, h⟩, ⟨_, h⟩, ⟨_, h⟩, ⟨_, h⟩, ⟨_, h⟩, ⟨_, h⟩, ⟨_, h⟩]
  · rintro ⟨l, hl⟩
    cases l <;> tauto

theorem get_set (ix : LabelIndex) (l l' : NodeLabel) (xs : List Nat) :
    (ix.set l xs).get l' = if l' = l then xs else ix.get l' := by
  cases l <;> cases l' <;> simp [LabelIndex.set, LabelIndex.get]

/-- Consistency is preserved when the arena keeps ids, labels and parents,
children lists only lose occurrences of a single id `c` that is no longer
registered afterwards, the registry shrinks pointwise, and the active node
is cleared. -/
theorem consistent_shrink (t : Tree) (a' : Arena) (ix' : LabelIndex) (c : Nat)
    (hids : a'.map Node.id = t.arena.map Node.id)
    (hchar : ∀ j n', findNode? a' j = some n' → ∃ n, findNode? t.arena j = some n ∧
      n'.id = n.id ∧ n'.label = n.label ∧ n'.parents = n.parents ∧
      n'.children.Sublist n.children ∧
      (∀ x, x ≠ c → (x ∈ n'.children ↔ x ∈ n.children)))
    (hsub : ∀ l, ix'.get l ⊆ t.index.get l)
    (hnc : c ∉ ix'.allIds)
    (hirr : (ix'.get .IRRELEVANT_ANSWER).Nodup)
    (h : ConsistentTree t) :
    ConsistentTree { t with active := none, arena := a', index := ix' } := by
  obtain ⟨h1, h2, h3, h4, h5, h6, h7⟩ := h
  have hsome : ∀ j, (findNode? a' j).isSome ↔ (findNode? t.arena j).isSome := by
    intro j; rw [findNode?_isSome_iff, findNode?_isSome_iff, hids]
  have hreg : ∀ j, j ∈ ix'.allIds → j ∈ t.index.allIds ∧ j ≠ c := by
    intro j hj
    refine ⟨?_, fun e => hnc (e ▸ hj)⟩
    obtain ⟨l, hl⟩ := (mem_allIds_exists ix' j).mp hj
    exact (mem_allIds_exists t.index j).mpr ⟨l, hsub l hl⟩
  refine ⟨by simpa [hids] using h1, ?_, ?_, ?_, ?_, hirr, ?_⟩
  · intro j n' hf'
    obtain ⟨n, hn, -, -, hpar, hsubl, -⟩ := hchar j n' hf'
    obtain ⟨hc1, hc2, hc3, hc4⟩ := h2 j n hn
    refine ⟨List.Nodup.sublist hsubl hc1, ?_, ?_, ?_⟩
    · rw [hpar]; exact hc2
    · intro x hx; rw [hsome]; exact hc3 x (hsubl.subset hx)
    · intro x hx
      rw [hpar] at hx
      rw [hsome]; exact hc4 x hx
  · intro i j ni' nj' hfi' hfj' hmem
    obtain ⟨ni, hni, -, -, -, hsubi, -⟩ := hchar i ni' hfi'
    obtain ⟨nj, hnj, -, -, hparj, -, -⟩ := hchar j nj' hfj'
    rw [hparj]
    exact h3 i j ni nj hni hnj (hsubi.subset hmem)
  · intro i j ni' nj' hi hj hfi' hfj'
    obtain ⟨hi', -⟩ := hreg i hi
    obtain ⟨hj', hjc⟩ := hreg j hj
    obtain ⟨ni, hni, -, -, -, -, hmi⟩ := hchar i ni' hfi'
    obtain ⟨nj, hnj, -, -, hparj, -, -⟩ := hchar j nj' hfj'
    rw [hparj, hmi j hjc]
    exact h4 i j ni nj hi' hj' hni hnj
  · intro i hi
    rw [hsome]
    exact h5 i (hreg i hi).1
  · intro l i hi n' hf'
    obtain ⟨n, hn, -, hlabn, -⟩ := hchar i n' hf'
    rw [hlabn]
    exact h7 l i (hsub l hi) n hn

theorem consistent_remove (t : Tree) (h : ConsistentTree t) :
    ConsistentTree t.removeIrrelevantNode := by
  unfold Tree.removeIrrelevantNode
  cases hA : t.active with
  | none => exact h
  | some act =>
    show ConsistentTree (match findNode? t.arena act with
      | none => t
      | some n =>
        if n.label ≠ NodeLabel.IRRELEVANT_ANSWER then t else
          let t1 : Tree := { t with active := none }
          let a2 := n.parents.foldl (fun acc p => removeChildLink acc p act) t1.arena
          let ix2 :=
            if act ∈ t1.index.get NodeLabel.IRRELEVANT_ANSWER then
              t1.index.set NodeLabel.IRRELEVANT_ANSWER
                ((t1.index.get NodeLabel.IRRELEVANT_ANSWER).erase act)
            else t1.index
          { t1 with arena := a2, index := ix2 })
    cases hN : findNode? t.arena act with
    | none => exact h
    | some n =>
      show ConsistentTree (if n.label ≠ NodeLabel.IRRELEVANT_ANSWER then t else
        let t1 : Tree := { t with active := none }
        let a2 := n.parents.foldl (fun acc p => removeChildLink acc p act) t1.arena
        let ix2 :=
          if act ∈ t1.index.get NodeLabel.IRRELEVANT_ANSWER then
            t1.index.set NodeLabel.IRRELEVANT_ANSWER
              ((t1.index.get NodeLabel.IRRELEVANT_ANSWER).erase act)
          else t1.index
        { t1 with arena := a2, index := ix2 })
      by_cases hlab : n.label = NodeLabel.IRRELEVANT_ANSWER
      · rw [if_neg (not_not_intro hlab)]
        show ConsistentTree
          { t with
            active := none
            arena := n.parents.foldl (fun acc p => removeChildLink acc p act) t.arena
            index :=
              if act ∈ t.index.get NodeLabel.IRRELEVANT_ANSWER then
                t.index.set NodeLabel.IRRELEVANT_ANSWER
                  ((t.index.get NodeLabel.IRRELEVANT_ANSWER).erase act)
              else t.index }
        have hregact : ∀ l, act ∈ t.index.get l → l = NodeLabel.IRRELEVANT_ANSWER := by
          intro l hmem
          exact (h.2.2.2.2.2.2 l act hmem n hN).symm.trans hlab
        have hchar : ∀ j n',
            findNode? (n.parents.foldl (fun acc p => removeChildLink acc p act) t.arena) j =
              some n' →
            ∃ m, findNode? t.arena j = some m ∧ n'.id = m.id ∧ n'.label = m.label ∧
              n'.parents = m.parents ∧ n'.children.Sublist m.children ∧
              (∀ x, x ≠ act → (x ∈ n'.children ↔ x ∈ m.children)) := by
          intro j n' hf'
          obtain ⟨m, hm, k1, k2, k3, k4, k5, -, -⟩ :=
            foldRemove_spec act n.parents t.arena j n' hf'
          exact ⟨m, hm, k1, k2, k3, k4, k5⟩
        by_cases hcase : act ∈ t.index.get NodeLabel.IRRELEVANT_ANSWER
        · rw [if_pos hcase]
          refine consistent_shrink t _ _ act (ids_foldRemove act n.parents t.arena)
            hchar ?_ ?_ ?_ h
          · intro l'
            rw [get_set]
            by_cases hl' : l' = NodeLabel.IRRELEVANT_ANSWER
            · rw [if_pos hl', hl']
              exact fun x hx => List.mem_of_mem_erase hx
            · rw [if_neg hl']
              exact fun x hx => hx
          · intro hmem
            obtain ⟨l, hl⟩ := (mem_allIds_exists _ act).mp hmem
            rw [get_set] at hl
            by_cases hl' : l = NodeLabel.IRRELEVANT_ANSWER
            · rw [if_pos hl'] at hl
              exact absurd hl (h.2.2.2.2.2.1).not_mem_erase
            · rw [if_neg hl'] at hl
              exact hl' (hregact l hl)
          · rw [get_set, if_pos rfl]
            exact (h.2.2.2.2.2.1).erase act
        · rw [if_neg hcase]
          refine consistent_shrink t _ _ act (ids_foldRemove act n.parents t.arena)
            hchar ?_ ?_ ?_ h
          · exact fun l x hx => hx
          · intro hmem
            obtain ⟨l, hl⟩ := (mem_allIds_exists _ act).mp hmem
            by_cases hl' : l = NodeLabel.IRRELEVANT_ANSWER
            · rw [hl'] at hl; exact hcase hl
            · exact hl' (hregact l hl)
          · exact h.2.2.2.2.2.1
      · rw [if_pos hlab]
        exact h

/-- After `remove_irrelevant_node` fires on an active IRRELEVANT_ANSWER
node, none of its parents still lists it as a child. -/
theorem remove_detaches (t : Tree) (act : Nat) (n : Node)
    (hA : t.active = some act) (hN : findNode? t.arena act = some n)
    (hlab : n.label = NodeLabel.IRRELEVANT_ANSWER) (h : ConsistentTree t) :
    ∀ p ∈ n.parents, ∀ np, findNode? t.removeIrrelevantNode.arena p = some np →
      act ∉ np.children := by
  intro p hp np hnp
  have harena : t.removeIrrelevantNode.arena =
      n.parents.foldl (fun acc q => removeChildLink acc q act) t.arena := by
    simp [Tree.removeIrrelevantNode, hA, hN, hlab]
  rw [harena] at hnp
  obtain ⟨m, hm, -, -, -, -, -, -, hinp⟩ := foldRemove_spec act n.parents t.arena p np hnp
  exact hinp hp (h.2.1 p m hm).1

theorem findNode?_append_of_some (a : Arena) (m : Node) (j : Nat) (n : Node)
    (h : findNode? a j = some n) : findNode? (a ++ [m]) j = some n := by
  induction a with
  | nil => simp [findNode?] at h
  | cons x rest ih =>
    by_cases hx : x.id = j
    · unfold findNode? at h ⊢
      rw [List.find?_cons_of_pos _ (by simp [hx])] at h
      rw [List.cons_append, List.find?_cons_of_pos _ (by simp [hx])]
      exact h
    · unfold findNode? at h ⊢
      rw [List.find?_cons_of_neg _ (by simp [hx])] at h
      rw [List.cons_append, List.find?_cons_of_neg _ (by simp [hx])]
      exact ih h

theorem findNode?_append_of_none (a : Arena) (m : Node) (j : Nat)
    (h : findNode? a j = none) :
    findNode? (a ++ [m]) j = if m.id = j then some m else none := by
  induction a with
  | nil =>
    show findNode? [m] j = _
    unfold findNode?
    by_cases hm : m.id = j
    · rw [List.find?_cons_of_pos _ (by simp [hm]), if_pos hm]
    · rw [List.find?_cons_of_neg _ (by simp [hm]), if_neg hm]
      rfl
  | cons x rest ih =>
    by_cases hx : x.id = j
    · unfold findNode? at h
      rw [List.find?_cons_of_pos _ (by simp [hx])] at h
      simp at h
    · unfold findNode? at h ⊢
      rw [List.find?_cons_of_neg _ (by simp [hx])] at h
      rw [List.cons_append, List.find?_cons_of_neg _ (by simp [hx])]
      exact ih h

/-- Appending a fresh, childless node whose parents are duplicate-free and
live preserves the consistency invariant (the registry is untouched). -/
theorem consistent_append (t : Tree) (m : Node)
    (hfresh : findNode? t.arena m.id = none)
    (hch : m.children = []) (hpnd : m.parents.Nodup)
    (hpres : ∀ x ∈ m.parents, (findNode? t.arena x).isSome)
    (h : ConsistentTree t) : ConsistentTree { t with arena := t.arena ++ [m] } := by
  obtain ⟨h1, h2, h3, h4, h5, h6, h7⟩ := h
  have hmid : m.id ∉ t.arena.map Node.id := by
    rw [← findNode?_isSome_iff, hfresh]
    simp
  have hkeep : ∀ {j : Nat} {nj : Node}, findNode? t.arena j = some nj →
      findNode? (t.arena ++ [m]) j = some nj :=
    fun {j nj} hj => findNode?_append_of_some t.arena m j nj hj
  have hsplit : ∀ {j : Nat} {nj : Node}, findNode? (t.arena ++ [m]) j = some nj →
      findNode? t.arena j = some nj ∨ (j = m.id ∧ nj = m) := by
    intro j nj hj
    cases ho : findNode? t.arena j with
    | some n =>
      have he := (hkeep ho).symm.trans hj
      exact Or.inl he
    | none =>
      rw [findNode?_append_of_none t.arena m j ho] at hj
      by_cases hm : m.id = j
      · rw [if_pos hm] at hj
        exact Or.inr ⟨hm.symm, (Option.some.inj hj).symm⟩
      · rw [if_neg hm] at hj
        exact absurd hj (by simp)
  have hsome2 : ∀ j, (findNode? (t.arena ++ [m]) j).isSome ↔
      (findNode? t.arena j).isSome ∨ j = m.id := by
    intro j
    rw [findNode?_isSome_iff, findNode?_isSome_iff, List.map_append, List.mem_append]
    simp
  have hregold : ∀ i, i ∈ t.index.allIds → i ≠ m.id := by
    intro i hi he
    have hres := h5 i hi
    rw [he, hfresh] at hres
    simp at hres
  refine ⟨?_, ?_, ?_, ?_, ?_, h6, ?_⟩
  · rw [List.map_append]
    simp [List.nodup_append, h1, hmid]
  · intro j nj hj
    rcases hsplit hj with ho | ⟨rfl, rfl⟩
    · obtain ⟨hc1, hc2, hc3, hc4⟩ := h2 j nj ho
      refine ⟨hc1, hc2, ?_, ?_⟩
      · intro x hx
        rw [hsome2]
        exact Or.inl (hc3 x hx)
      · intro x hx
        rw [hsome2]
        exact Or.inl (hc4 x hx)
    · refine ⟨by rw [hch]; exact List.nodup_nil, hpnd, ?_, ?_⟩
      · intro x hx
        rw [hch] at hx
        exact absurd hx (List.not_mem_nil x)
      · intro x hx
        rw [hsome2]
        exact Or.inl (hpres x hx)
  · intro i j ni nj hfi hfj hmem
    rcases hsplit hfi with hio | ⟨rfl, rfl⟩
    · have hjres : (findNode? t.arena j).isSome := (h2 i ni hio).2.2.1 j hmem
      obtain ⟨njo, hjo⟩ := Option.isSome_iff_exists.mp hjres
      have hkj := hkeep hjo
      rw [hkj] at hfj
      rw [← Option.some.inj hfj]
      exact h3 i j ni njo hio hjo hmem
    · rw [hch] at hmem
      exact absurd hmem (List.not_mem_nil j)
  · intro i j ni nj hi hj hfi hfj
    rcases hsplit hfi with hio | ⟨hieq, -⟩
    · rcases hsplit hfj with hjo | ⟨hjeq, -⟩
      · exact h4 i j ni nj hi hj hio hjo
      · exact absurd hjeq (hregold j hj)
    · exact absurd hieq (hregold i hi)
  · intro i hi
    rw [hsome2]
    exact Or.inl (h5 i hi)
  · intro l i hi n' hf'
    rcases hsplit hf' with hio | ⟨hieq, -⟩
    · exact h7 l i hi n' hio
    · exact absurd hieq (hregold i ((mem_allIds_exists t.index i).mpr ⟨l, hi⟩))

theorem get_append (ix : LabelIndex) (l l' : NodeLabel) (i : Nat) :
    (ix.append l i).get l' = if l' = l then ix.get l' ++ [i] else ix.get l' := by
  unfold LabelIndex.append
  rw [get_set]
  by_cases h : l' = l
  · rw [if_pos h, if_pos h, h]
  · rw [if_neg h, if_neg h]

theorem mem_allIds_append (ix : LabelIndex) (l : NodeLabel) (i j : Nat) :
    j ∈ (ix.append l i).allIds ↔ j ∈ ix.allIds ∨ j = i := by
  rw [mem_allIds_exists, mem_allIds_exists]
  constructor
  · rintro ⟨l', hl'⟩
    rw [get_append] at hl'
    by_cases h : l' = l
    · rw [if_pos h] at hl'
      rcases List.mem_append.mp hl' with hx | hx
      · exact Or.inl ⟨l', hx⟩
      · exact Or.inr (List.mem_singleton.mp hx)
    · rw [if_neg h] at hl'
      exact Or.inl ⟨l', hl'⟩
  · rintro (⟨l', hl'⟩ | rfl)
    · refine ⟨l', ?_⟩
      rw [get_append]
      by_cases h : l' = l
      · rw [if_pos h]
        exact List.mem_append.mpr (Or.inl hl')
      · rw [if_neg h]
        exact hl'
    · refine ⟨l, ?_⟩
      rw [get_append, if_pos rfl]
      exact List.mem_append.mpr (Or.inr (List.mem_singleton.mpr rfl))

/-- Registering a live, not-yet-registered node preserves the consistency
invariant, provided its edges to the already-registered nodes (and to
itself) are bidirectional. -/
theorem consistent_register (t : Tree) (newId : Nat) (label : NodeLabel) (nNew : Node)
    (hfind : findNode? t.arena newId = some nNew)
    (hlab : nNew.label = label)
    (hni : newId ∉ t.index.allIds)
    (hiff : ∀ j nj, j ∈ t.index.allIds → findNode? t.arena j = some nj →
        (j ∈ nNew.children ↔ newId ∈ nj.parents) ∧ (newId ∈ nj.children ↔ j ∈ nNew.parents))
    (hself : newId ∈ nNew.children ↔ newId ∈ nNew.parents)
    (h : ConsistentTree t) :
    ConsistentTree { t with index := t.index.append label newId } := by
  obtain ⟨h1, h2, h3, h4, h5, h6, h7⟩ := h
  refine ⟨h1, h2, h3, ?_, ?_, ?_, ?_⟩
  · intro i j ni nj hi hj hfi hfj
    rw [mem_allIds_append] at hi hj
    rcases hi with hi | rfl
    · rcases hj with hj | rfl
      · exact h4 i j ni nj hi hj hfi hfj
      · have he : nj = nNew := Option.some.inj (hfj.symm.trans hfind)
        rw [he]
        exact (hiff i ni hi hfi).2
    · rcases hj with hj | rfl
      · have he : ni = nNew := Option.some.inj (hfi.symm.trans hfind)
        rw [he]
        exact (hiff j nj hj hfj).1
      · have hei : ni = nNew := Option.some.inj (hfi.symm.trans hfind)
        have hej : nj = nNew := Option.some.inj (hfj.symm.trans hfind)
        rw [hei, hej]
        exact hself
  · intro i hi
    rw [mem_allIds_append] at hi
    rcases hi with hi | rfl
    · exact h5 i hi
    · rw [hfind]
      simp
  · rw [get_append]
    by_cases hl : NodeLabel.IRRELEVANT_ANSWER = label
    · rw [if_pos hl]
      refine List.Nodup.append h6 (List.nodup_singleton newId) ?_
      intro x hx hx2
      rw [List.mem_singleton] at hx2
      subst hx2
      exact hni ((mem_allIds_exists _ _).mpr ⟨_, hx⟩)
    · rw [if_neg hl]
      exact h6
  · intro l' i hi n' hf'
    rw [get_append] at hi
    by_cases hl : l' = label
    · rw [if_pos hl] at hi
      rcases List.mem_append.mp hi with hx | hx
      · exact h7 l' i hx n' hf'
      · rw [List.mem_singleton] at hx
        subst hx
        have he : n' = nNew := Option.some.inj (hf'.symm.trans hfind)
        rw [he, hlab, hl]
    · rw [if_neg hl] at hi
      exact h7 l' i hi n' hf'

/-- The node record built inside `Tree.add_child` (same literal as in
`Tree.addChild`, factored out for reuse in proofs). -/
def freshChildNode (newId ts : Nat) (label : NodeLabel) (trace : List TraceElem)
    (conclusion : Option String) (act : Nat) : Node :=
  { id := newId, label := label, conclusion := conclusion
    parents := [act], children := [], trace := trace
    isValuePathCompleted := label = NodeLabel.VALUE
    backwardsRelations := [], createdNs := ts }

theorem consistent_treeAddChild (t : Tree) (newId ts : Nat) (label : NodeLabel)
    (trace : List TraceElem) (concl : Option String)
    (hfresh : findNode? t.arena newId = none)
    (hact : ∀ a, t.active = some a → (findNode? t.arena a).isSome)
    (h : ConsistentTree t) :
    ConsistentTree (t.addChild newId ts label trace concl) := by
  unfold Tree.addChild
  cases hA : t.active with
  | none => exact h
  | some act =>
    have hactS : (findNode? t.arena act).isSome := hact act hA
    have hne : act ≠ newId := by
      intro e
      rw [e, hfresh] at hactS
      simp at hactS
    show ConsistentTree
      (Tree.markValuePathCompleted
        { t with
          active := some act
          arena := addChildLink (t.arena ++ [freshChildNode newId ts label trace concl act])
            act newId
          index := t.index.append label newId }
        newId)
    apply consistent_mark
    set N := freshChildNode newId ts label trace concl act with hN
    have hNid : N.id = newId := rfl
    have hNlab : N.label = label := rfl
    have hNch : N.children = [] := rfl
    have hNpar : N.parents = [act] := rfl
    have happ : ConsistentTree { t with arena := t.arena ++ [N] } :=
      consistent_append t N (by rw [hNid]; exact hfresh) hNch
        (by rw [hNpar]; exact List.nodup_singleton act)
        (by intro x hx
            rw [hNpar, List.mem_singleton] at hx
            subst hx
            exact hactS) h
    have hactA : (findNode? (t.arena ++ [N]) act).isSome := by
      obtain ⟨na, hna⟩ := Option.isSome_iff_exists.mp hactS
      rw [findNode?_append_of_some t.arena N act na hna]
      rfl
    have hnewA : findNode? (t.arena ++ [N]) newId = some N := by
      rw [findNode?_append_of_none t.arena N newId hfresh, if_pos hNid]
    have hnewAS : (findNode? (t.arena ++ [N]) newId).isSome := by
      rw [hnewA]; rfl
    have hlink : ConsistentTree { t with arena := addChildLink (t.arena ++ [N]) act newId } :=
      consistent_linkChild { t with arena := t.arena ++ [N] } act newId hactA hnewAS happ
    have hnewL : findNode? (addChildLink (t.arena ++ [N]) act newId) newId = some N := by
      rw [findNode?_addChildLink, hnewA, Option.map_some']
      simp [hN, freshChildNode, Ne.symm hne]
    have hni2 : newId ∉ t.index.allIds := by
      intro hmem
      have hres := h.2.2.2.2.1 newId hmem
      rw [hfresh] at hres
      simp at hres
    have hiff2 : ∀ j nj, j ∈ t.index.allIds →
        findNode? (addChildLink (t.arena ++ [N]) act newId) j = some nj →
        (j ∈ N.children ↔ newId ∈ nj.parents) ∧ (newId ∈ nj.children ↔ j ∈ N.parents) := by
      intro j nj hjreg hfj
      have hjne : j ≠ newId := by
        intro e
        exact hni2 (e ▸ hjreg)
      have hjold : (findNode? t.arena j).isSome := h.2.2.2.2.1 j hjreg
      obtain ⟨njo, hjo⟩ := Option.isSome_iff_exists.mp hjold
      have hjA : findNode? (t.arena ++ [N]) j = some njo :=
        findNode?_append_of_some _ _ _ _ hjo
      rw [findNode?_addChildLink, hjA, Option.map_some'] at hfj
      obtain ⟨kid, klab, -, -, -, -, -, kch, kpar, -, -⟩ :=
        linkResult_spec act newId njo nj (Option.some.inj hfj).symm
      have hjid : njo.id = j := findNode?_id hjo
      have hcomp2 := h.2.1 j njo hjo
      have hnc : newId ∉ njo.children := by
        intro hmem
        have hres := hcomp2.2.2.1 newId hmem
        rw [hfresh] at hres
        simp at hres
      have hnp : newId ∉ njo.parents := by
        intro hmem
        have hres := hcomp2.2.2.2 newId hmem
        rw [hfresh] at hres
        simp at hres
      constructor
      · rw [hNch]
        constructor
        · intro hx
          exact absurd hx (List.not_mem_nil j)
        · intro hmem
          exfalso
          rcases (kpar newId).mp hmem with hx | ⟨he, -⟩
          · exact hnp hx
          · rw [hjid] at he
            exact hjne he
      · rw [hNpar, List.mem_singleton]
        constructor
        · intro hmem
          rcases (kch newId).mp hmem with hx | ⟨he, -⟩
          · exact absurd hx hnc
          · rw [hjid] at he
            exact he
        · intro he
          exact (kch newId).mpr (Or.inr ⟨hjid.trans he, rfl⟩)
    have hself2 : newId ∈ N.children ↔ newId ∈ N.parents := by
      rw [hNch, hNpar]
      simp [Ne.symm hne]
    exact consistent_register { t with arena := addChildLink (t.arena ++ [N]) act newId }
      newId label N hnewL hNlab hni2 hiff2 hself2 hlink

theorem ids_addChildLink (a : Arena) (p c : Nat) :
    (addChildLink a p c).map Node.id = a.map Node.id := by
  unfold addChildLink
  rw [ids_updateNode _ _ _ (fun n => by by_cases h : p ∈ n.parents <;> simp [h]),
    ids_updateNode _ _ _ (fun n => by by_cases h : c ∈ n.children <;> simp [h])]

theorem ids_addParentLink (a : Arena) (c p : Nat) :
    (addParentLink a c p).map Node.id = a.map Node.id := by
  unfold addParentLink
  rw [ids_updateNode _ _ _ (fun n => by by_cases h : c ∈ n.children <;> simp [h]),
    ids_updateNode _ _ _ (fun n => by by_cases h : p ∈ n.parents <;> simp [h])]

theorem mem_children_addChildLink (a : Arena) (p c : Nat) :
    ∀ n ∈ addChildLink a p c, (n.id = p → c ∈ n.children) ∧ (n.id = c → p ∈ n.parents) := by
  intro n hn
  simp only [addChildLink] at hn
  rw [mem_updateNode] at hn
  obtain ⟨n1, hn1, hdef⟩ := hn
  rw [mem_updateNode] at hn1
  obtain ⟨n0, hn0, hdef1⟩ := hn1
  obtain ⟨hid, -, -, -, -, -, -, hch, hpar, -, -⟩ :=
    linkResult_spec p c n0 n (by rw [hdef, hdef1])
  constructor
  · intro hp
    exact (hch c).mpr (Or.inr ⟨hid ▸ hp, rfl⟩)
  · intro hc
    exact (hpar p).mpr (Or.inr ⟨hid ▸ hc, rfl⟩)

theorem mem_links_addParentLink (a : Arena) (c p : Nat) :
    ∀ n ∈ addParentLink a c p, (n.id = p → c ∈ n.children) ∧ (n.id = c → p ∈ n.parents) := by
  intro n hn
  simp only [addParentLink] at hn
  rw [mem_updateNode] at hn
  obtain ⟨n1, hn1, hdef⟩ := hn
  rw [mem_updateNode] at hn1
  obtain ⟨n0, hn0, hdef1⟩ := hn1
  obtain ⟨hid, -, -, -, -, -, -, hch, hpar, -, -⟩ :=
    linkResultP_spec c p n0 n (by rw [hdef, hdef1])
  constructor
  · intro hp
    exact (hch c).mpr (Or.inr ⟨hid ▸ hp, rfl⟩)
  · intro hc
    exact (hpar p).mpr (Or.inr ⟨hid ▸ hc, rfl⟩)

/-- `Node.add_child` is idempotent: a second identical call finds the edge
present in both directions and changes nothing. -/
theorem addChildLink_idem (a : Arena) (p c : Nat) :
    addChildLink (addChildLink a p c) p c = addChildLink a p c := by
  have hmem := mem_children_addChildLink a p c
  have h1 : updateNode (addChildLink a p c) p
      (fun n => if c ∈ n.children then n else { n with children := n.children ++ [c] }) =
      addChildLink a p c := by
    apply updateNode_eq_self
    intro n hn hid
    rw [if_pos ((hmem n hn).1 hid)]
  show updateNode (updateNode (addChildLink a p c) p
      (fun n => if c ∈ n.children then n else { n with children := n.children ++ [c] })) c
      (fun n => if p ∈ n.parents then n else { n with parents := n.parents ++ [p] }) =
    addChildLink a p c
  rw [h1]
  apply updateNode_eq_self
  intro n hn hid
  rw [if_pos ((hmem n hn).2 hid)]

/-- `Node.add_parent` is idempotent. -/
theorem addParentLink_idem (a : Arena) (c p : Nat) :
    addParentLink (addParentLink a c p) c p = addParentLink a c p := by
  have hmem := mem_links_addParentLink a c p
  have h1 : updateNode (addParentLink a c p) c
      (fun n => if p ∈ n.parents then n else { n with parents := n.parents ++ [p] }) =
      addParentLink a c p := by
    apply updateNode_eq_self
    intro n hn hid
    rw [if_pos ((hmem n hn).2 hid)]
  show updateNode (updateNode (addParentLink a c p) c
      (fun n => if p ∈ n.parents then n else { n with parents := n.parents ++ [p] })) p
      (fun n => if c ∈ n.children then n else { n with children := n.children ++ [c] }) =
    addParentLink a c p
  rw [h1]
  apply updateNode_eq_self
  intro n hn hid
  rw [if_pos ((hmem n hn).1 hid)]

theorem consistent_share (t : Tree) (i : Nat)
    (hi : (findNode? t.arena i).isSome)
    (hact : ∀ a, t.active = some a → (findNode? t.arena a).isSome)
    (h : ConsistentTree t) : ConsistentTree (t.addExistingNodeAsChild i) := by
  unfold Tree.addExistingNodeAsChild
  cases hA : t.active with
  | none => exact h
  | some act =>
    have hactS : (findNode? t.arena act).isSome := hact act hA
    show ConsistentTree
      (if i ∈ childrenOf t.arena act ∨ act ∈ parentsOf t.arena i then t
       else { t with
         active := some act
         arena := addChildLink (addParentLink t.arena i act) act i })
    by_cases hcond : i ∈ childrenOf t.arena act ∨ act ∈ parentsOf t.arena i
    · rw [if_pos hcond]
      exact h
    · rw [if_neg hcond]
      have h1 : ConsistentTree { t with arena := addParentLink t.arena i act } :=
        consistent_linkParent t i act hactS hi h
      have hiP : (findNode? (addParentLink t.arena i act) i).isSome := by
        rw [findNode?_isSome_iff, ids_addParentLink, ← findNode?_isSome_iff]
        exact hi
      have hactP : (findNode? (addParentLink t.arena i act) act).isSome := by
        rw [findNode?_isSome_iff, ids_addParentLink, ← findNode?_isSome_iff]
        exact hactS
      exact consistent_linkChild { t with arena := addParentLink t.arena i act } act i
        hactP hiP h1

theorem get_empty (l : NodeLabel) : LabelIndex.empty.get l = [] := by
  cases l <;> rfl

theorem findNode?_singleton (n : Node) (j : Nat) :
    findNode? [n] j = if n.id = j then some n else none := by
  unfold findNode?
  by_cases h : n.id = j
  · rw [List.find?_cons_of_pos _ (by simp [h]), if_pos h]
  · rw [List.find?_cons_of_neg _ (by simp [h]), if_neg h]
    rfl

/-- The caller guarantee of `tree.py`: `self.active` is only ever a node of
the tree (it is dereferenced without checks). -/
def ActiveOk (t : Tree) : Prop :=
  ∀ a, t.active = some a → (findNode? t.arena a).isSome

/-- `Tree.__init__` establishes the consistency invariant. -/
theorem consistent_init (n : Node) (hch : n.children = []) (hpar : n.parents = []) :
    ConsistentTree (Tree.init n) := by
  have hfind : ∀ j m, findNode? [n] j = some m → m = n ∧ n.id = j := by
    intro j m hm
    rw [findNode?_singleton] at hm
    by_cases h : n.id = j
    · rw [if_pos h] at hm
      exact ⟨(Option.some.inj hm).symm, h⟩
    · rw [if_neg h] at hm
      exact absurd hm (by simp)
  have hallIds : ∀ j, j ∈ (LabelIndex.empty.append n.label n.id).allIds ↔ j = n.id := by
    intro j
    rw [mem_allIds_append]
    constructor
    · rintro (hj | rfl)
      · exact absurd hj (by simp [LabelIndex.allIds, LabelIndex.empty])
      · rfl
    · intro he
      exact Or.inr he
  have hroot : findNode? [n] n.id = some n := by
    rw [findNode?_singleton, if_pos rfl]
  refine ⟨by simp [Tree.init], ?_, ?_, ?_, ?_, ?_, ?_⟩
  · intro j m hm
    obtain ⟨rfl, -⟩ := hfind j m hm
    refine ⟨by rw [hch]; exact List.nodup_nil, by rw [hpar]; exact List.nodup_nil, ?_, ?_⟩
    · intro x hx
      rw [hch] at hx
      exact absurd hx (List.not_mem_nil x)
    · intro x hx
      rw [hpar] at hx
      exact absurd hx (List.not_mem_nil x)
  · intro i j ni nj hfi hfj hmem
    obtain ⟨rfl, -⟩ := hfind i ni hfi
    rw [hch] at hmem
    exact absurd hmem (List.not_mem_nil j)
  · intro i j ni nj hi hj hfi hfj
    obtain ⟨rfl, -⟩ := hfind i ni hfi
    obtain ⟨rfl, -⟩ := hfind j nj hfj
    rw [hch, hpar]
    simp
  · intro i hi
    have hi2 : i = n.id := (hallIds i).mp hi
    subst hi2
    show (findNode? [n] n.id).isSome
    rw [hroot]
    rfl
  · show ((LabelIndex.empty.append n.label n.id).get NodeLabel.IRRELEVANT_ANSWER).Nodup
    rw [get_append]
    by_cases hl : NodeLabel.IRRELEVANT_ANSWER = n.label
    · rw [if_pos hl, get_empty]
      exact List.nodup_singleton n.id
    · rw [if_neg hl, get_empty]
      exact List.nodup_nil
  · intro l i hi m hm
    have hi2 : i ∈ (LabelIndex.empty.append n.label n.id).get l := hi
    rw [get_append] at hi2
    by_cases hl : l = n.label
    · rw [if_pos hl, get_empty] at hi2
      rw [List.nil_append, List.mem_singleton] at hi2
      subst hi2
      obtain ⟨rfl, -⟩ := hfind _ m hm
      exact hl.symm
    · rw [if_neg hl, get_empty] at hi2
      exact absurd hi2 (List.not_mem_nil i)

theorem activeOk_init (n : Node) : ActiveOk (Tree.init n) := by
  intro a ha
  have ha2 : some n.id = some a := ha
  rw [← Option.some.inj ha2]
  show (findNode? [n] n.id).isSome
  rw [findNode?_singleton, if_pos rfl]
  rfl

theorem mark_active (t : Tree) (i : Nat) :
    (t.markValuePathCompleted i).active = t.active := by
  unfold Tree.markValuePathCompleted
  cases hl : labelOf? t.arena i with
  | none => rfl
  | some l => cases l <;> rfl

theorem mark_ids (t : Tree) (i : Nat) :
    (t.markValuePathCompleted i).arena.map Node.id = t.arena.map Node.id := by
  unfold Tree.markValuePathCompleted
  cases hl : labelOf? t.arena i with
  | none => rfl
  | some l =>
    cases l
    case VALUE => exact markLoop_ids _ _ _ _
    all_goals rfl

theorem activeOk_mark (t : Tree) (i : Nat) (hao : ActiveOk t) :
    ActiveOk (t.markValuePathCompleted i) := by
  intro x hx
  rw [mark_active] at hx
  have hold := hao x hx
  rw [findNode?_isSome_iff, mark_ids, ← findNode?_isSome_iff]
  exact hold

theorem addChild_active (t : Tree) (newId ts : Nat) (label : NodeLabel)
    (trace : List TraceElem) (concl : Option String) :
    (t.addChild newId ts label trace concl).active = t.active := by
  unfold Tree.addChild
  cases hA : t.active with
  | none => exact hA
  | some act =>
    show (Tree.markValuePathCompleted
      { t with
        active := some act
        arena := addChildLink (t.arena ++ [freshChildNode newId ts label trace concl act])
          act newId
        index := t.index.append label newId } newId).active = some act
    rw [mark_active]

theorem addChild_ids (t : Tree) (newId ts : Nat) (label : NodeLabel)
    (trace : List TraceElem) (concl : Option String) (act : Nat) (hA : t.active = some act) :
    (t.addChild newId ts label trace concl).arena.map Node.id =
      t.arena.map Node.id ++ [newId] := by
  unfold Tree.addChild
  rw [hA]
  show (Tree.markValuePathCompleted
    { t with
      active := some act
      arena := addChildLink (t.arena ++ [freshChildNode newId ts label trace concl act])
        act newId
      index := t.index.append label newId } newId).arena.map Node.id =
    t.arena.map Node.id ++ [newId]
  rw [mark_ids]
  show (addChildLink (t.arena ++ [freshChildNode newId ts label trace concl act])
    act newId).map Node.id = t.arena.map Node.id ++ [newId]
  rw [ids_addChildLink, List.map_append]
  rfl

theorem activeOk_addChild (t : Tree) (newId ts : Nat) (label : NodeLabel)
    (trace : List TraceElem) (concl : Option String) (hao : ActiveOk t) :
    ActiveOk (t.addChild newId ts label trace concl) := by
  intro x hx
  rw [addChild_active] at hx
  have hold := hao x hx
  rw [findNode?_isSome_iff] at hold
  rw [findNode?_isSome_iff, addChild_ids t newId ts label trace concl x hx, List.mem_append]
  exact Or.inl hold

theorem share_active (t : Tree) (i : Nat) :
    (t.addExistingNodeAsChild i).active = t.active := by
  unfold Tree.addExistingNodeAsChild
  cases hA : t.active with
  | none => exact hA
  | some act =>
    show (if i ∈ childrenOf t.arena act ∨ act ∈ parentsOf t.arena i then t
      else { t with
        active := some act
        arena := addChildLink (addParentLink t.arena i act) act i }).active = some act
    by_cases hcond : i ∈ childrenOf t.arena act ∨ act ∈ parentsOf t.arena i
    · rw [if_pos hcond]
      exact hA
    · rw [if_neg hcond]

theorem share_ids (t : Tree) (i : Nat) :
    (t.addExistingNodeAsChild i).arena.map Node.id = t.arena.map Node.id := by
  unfold Tree.addExistingNodeAsChild
  cases hA : t.active with
  | none => rfl
  | some act =>
    show (if i ∈ childrenOf t.arena act ∨ act ∈ parentsOf t.arena i then t
      else { t with
        active := some act
        arena := addChildLink (addParentLink t.arena i act) act i }).arena.map Node.id =
      t.arena.map Node.id
    by_cases hcond : i ∈ childrenOf t.arena act ∨ act ∈ parentsOf t.arena i
    · rw [if_pos hcond]
    · rw [if_neg hcond]
      show (addChildLink (addParentLink t.arena i act) act i).map Node.id =
        t.arena.map Node.id
      rw [ids_addChildLink, ids_addParentLink]

theorem activeOk_share (t : Tree) (i : Nat) (hao : ActiveOk t) :
    ActiveOk (t.addExistingNodeAsChild i) := by
  intro x hx
  rw [share_active] at hx
  have hold := hao x hx
  rw [findNode?_isSome_iff] at hold
  rw [findNode?_isSome_iff, share_ids, ← findNode?_isSome_iff, findNode?_isSome_iff]
  exact hold

theorem activeOk_remove (t : Tree) (hao : ActiveOk t) :
    ActiveOk t.removeIrrelevantNode := by
  unfold Tree.removeIrrelevantNode
  cases hA : t.active with
  | none => exact hao
  | some act =>
    show ActiveOk (match findNode? t.arena act with
      | none => t
      | some n =>
        if n.label ≠ NodeLabel.IRRELEVANT_ANSWER then t
        else
          let t1 : Tree := { t with active := none }
          let a2 := n.parents.foldl (fun acc p => removeChildLink acc p act) t1.arena
          let ix2 :=
            if act ∈ t1.index.get NodeLabel.IRRELEVANT_ANSWER then
              t1.index.set NodeLabel.IRRELEVANT_ANSWER
                ((t1.index.get NodeLabel.IRRELEVANT_ANSWER).erase act)
            else t1.index
          { t1 with arena := a2, index := ix2 })
    cases hN : findNode? t.arena act with
    | none => exact hao
    | some n =>
      show ActiveOk (if n.label ≠ NodeLabel.IRRELEVANT_ANSWER then t else
        let t1 : Tree := { t with active := none }
        let a2 := n.parents.foldl (fun acc p => removeChildLink acc p act) t1.arena
        let ix2 :=
          if act ∈ t1.index.get NodeLabel.IRRELEVANT_ANSWER then
            t1.index.set NodeLabel.IRRELEVANT_ANSWER
              ((t1.index.get NodeLabel.IRRELEVANT_ANSWER).erase act)
          else t1.index
        { t1 with arena := a2, index := ix2 })
      by_cases hlab : n.label = NodeLabel.IRRELEVANT_ANSWER
      · rw [if_neg (not_not_intro hlab)]
        intro x hx
        simp at hx
      · rw [if_pos hlab]
        exact hao

theorem activeOk_setActive (t : Tree) (i : Nat) (hi : (findNode? t.arena i).isSome) :
    ActiveOk (t.setActiveNode i) := by
  intro x hx
  have hx2 : some i = some x := hx
  rw [← Option.some.inj hx2]
  exact hi

theorem consistent_setActive (t : Tree) (i : Nat) (h : ConsistentTree t) :
    ConsistentTree (t.setActiveNode i) := h

/-- Graph states reachable through the graph-store operations of `tree.py`
as the tree-update handlers invoke them.  The hypotheses record the caller
guarantees: the generated UUID of a new child is fresh, and node arguments
are `Node` objects taken from the tree (live ids). -/
inductive GraphReach : Tree → Prop where
  | init (rootNode : Node) (hch : rootNode.children = []) (hpar : rootNode.parents = []) :
      GraphReach (Tree.init rootNode)
  | addChild (t : Tree) (newId ts : Nat) (label : NodeLabel) (trace : List TraceElem)
      (concl : Option String) (hfresh : findNode? t.arena newId = none)
      (ht : GraphReach t) : GraphReach (t.addChild newId ts label trace concl)
  | share (t : Tree) (i : Nat) (hi : (findNode? t.arena i).isSome) (ht : GraphReach t) :
      GraphReach (t.addExistingNodeAsChild i)
  | removeIrrelevant (t : Tree) (ht : GraphReach t) : GraphReach t.removeIrrelevantNode
  | mark (t : Tree) (i : Nat) (ht : GraphReach t) : GraphReach (t.markValuePathCompleted i)
  | setActive (t : Tree) (i : Nat) (hi : (findNode? t.arena i).isSome) (ht : GraphReach t) :
      GraphReach (t.setActiveNode i)

theorem graphReach_inv (t : Tree) (h : GraphReach t) : ConsistentTree t ∧ ActiveOk t := by
  induction h with
  | init rootNode hch hpar =>
    exact ⟨consistent_init rootNode hch hpar, activeOk_init rootNode⟩
  | addChild t newId ts label trace concl hfresh ht ih =>
    exact ⟨consistent_treeAddChild t newId ts label trace concl hfresh ih.2 ih.1,
      activeOk_addChild t newId ts label trace concl ih.2⟩
  | share t i hi ht ih =>
    exact ⟨consistent_share t i hi ih.2 ih.1, activeOk_share t i ih.2⟩
  | removeIrrelevant t ht ih =>
    exact ⟨consistent_remove t ih.1, activeOk_remove t ih.2⟩
  | mark t i ht ih =>
    exact ⟨consistent_mark t i ih.1, activeOk_mark t i ih.2⟩
  | setActive t i hi ht ih =>
    exact ⟨consistent_setActive t i ih.1, activeOk_setActive t i hi⟩

/-- C10: in every reachable graph state, parent/child links between
registered nodes are bidirectionally consistent and duplicate-free (the
components of `ConsistentTree`: a node occurs at most once in a children or
parents list, and between registered nodes `b` is a child of `a` iff `a` is
a parent of `b`); `Node.add_child` and `Node.add_parent` are idempotent;
and `remove_irrelevant_node` detaches the removed node from the children
lists of all of its parents. -/
theorem linkInvariantAndIdempotence (t : Tree) (h : GraphReach t) :
    ConsistentTree t ∧
    (∀ p c, addChildLink (addChildLink t.arena p c) p c = addChildLink t.arena p c) ∧
    (∀ c p, addParentLink (addParentLink t.arena c p) c p = addParentLink t.arena c p) ∧
    (∀ act n, t.active = some act → findNode? t.arena act = some n →
      n.label = NodeLabel.IRRELEVANT_ANSWER →
      ∀ p ∈ n.parents, ∀ np, findNode? t.removeIrrelevantNode.arena p = some np →
        act ∉ np.children) := by
  obtain ⟨hc, -⟩ := graphReach_inv t h
  refine ⟨hc, fun p c => addChildLink_idem t.arena p c,
    fun c p => addParentLink_idem t.arena c p, ?_⟩
  intro act n hA hN hlab
  exact remove_detaches t act n hA hN hlab hc

/-- A concrete reachable graph for the C10 witness: a STIMULUS root with an
IDEA child added by `Tree.add_child`. -/
def exRootC10 : Node :=
  { id := 0, label := NodeLabel.STIMULUS, conclusion := some "stim"
    parents := [], children := [], trace := [], isValuePathCompleted := false
    backwardsRelations := [], createdNs := 0 }

def exTreeC10 : Tree :=
  (Tree.init exRootC10).addChild 1 5 NodeLabel.IDEA [] (some "idea")

theorem linkInvariantAndIdempotenceWitness :
    ConsistentTree exTreeC10 ∧
    (∀ p c, addChildLink (addChildLink exTreeC10.arena p c) p c =
      addChildLink exTreeC10.arena p c) ∧
    (∀ c p, addParentLink (addParentLink exTreeC10.arena c p) c p =
      addParentLink exTreeC10.arena c p) ∧
    (∀ act n, exTreeC10.active = some act → findNode? exTreeC10.arena act = some n →
      n.label = NodeLabel.IRRELEVANT_ANSWER →
      ∀ p ∈ n.parents, ∀ np, findNode? exTreeC10.removeIrrelevantNode.arena p = some np →
        act ∉ np.children) :=
  linkInvariantAndIdempotence exTreeC10
    (GraphReach.addChild (Tree.init exRootC10) 1 5 NodeLabel.IDEA [] (some "idea")
      (by decide) (GraphReach.init exRootC10 rfl rfl))

/-! ### C7: the serialization round trip -/

/-- Null the node reference of a trace element, as
`TraceExplanationElement.from_dict` does (`node_ref=None`). -/
def eraseElem (e : TraceElem) : TraceElem :=
  { interactionId := e.interactionId, node := none }

def eraseNode (n : Node) : Node :=
  { n with trace := n.trace.map eraseElem }

def eraseRec (r : NodeRec) : NodeRec :=
  { r with trace := r.trace.map eraseElem }

def eraseTree (d : TreeRec) : TreeRec :=
  { d with nodes := d.nodes.map eraseRec }

def eraseQueue (q : QueueRec) : QueueRec :=
  { q with
    queue := q.queue.map eraseRec
    activeNode := q.activeNode.map eraseRec }

/-- The serialized session with every trace node reference nulled; the
round trip realises exactly this erasure. -/
def eraseSession (d : SessionRec) : SessionRec :=
  { tree := eraseTree d.tree, queue := eraseQueue d.queue, state := d.state }

/-- A session whose IDEA node carries a trace element referencing the
STIMULUS root, as the message handlers record; its `node_id` does not
survive the round trip. -/
def exRootC7 : Node :=
  { id := 1, label := NodeLabel.STIMULUS, conclusion := some "stim"
    parents := [], children := [2], trace := [], isValuePathCompleted := false
    backwardsRelations := [], createdNs := 0 }

def exChildC7 : Node :=
  { id := 2, label := NodeLabel.IDEA, conclusion := some "idea"
    parents := [1], children := [], trace := [⟨some 7, some 1⟩]
    isValuePathCompleted := false, backwardsRelations := [], createdNs := 3 }

def exTreeC7 : Tree :=
  { arena := [exRootC7, exChildC7], root := 1, active := some 2
    index := ⟨[], [1], [2], [], [], [], []⟩ }

def exQmC7 : QueueManager :=
  { tree := exTreeC7, queue := [], activeNode := some 2, unchangedCount := 0, maxUnchanged := 3 }

def exStateC7 : InterviewStateManager := InterviewStateManager.initNew

/-- C7 counterexample: serialize → deserialize → serialize is not the
identity on the serialized session; the deserializer rebuilds every trace
element with a null node reference (`node_ref=None` in
`TraceExplanationElement.from_dict`) and `add_trace` skips re-adding the
resolved element because its interaction id is already present, so the
second serialization nulls `node_id` where the first kept it. -/
theorem sessionRoundTripCounterexample :
    sessionRoundTrip (sessionToDict exTreeC7 exQmC7 exStateC7) ≠
      some (sessionToDict exTreeC7 exQmC7 exStateC7) := by decide

/-- The round trip on the counterexample is exactly the trace-reference
erasure. -/
theorem sessionRoundTripCounterexampleValue :
    sessionRoundTrip (sessionToDict exTreeC7 exQmC7 exStateC7) =
      some (eraseSession (sessionToDict exTreeC7 exQmC7 exStateC7)) := by decide

/-- Lookup of a serialized record by id (`nodes_by_id` access). -/
def findRec? (recs : List NodeRec) (j : Nat) : Option NodeRec :=
  recs.find? (fun r => NodeRec.id r = j)

/-- The state of a node of `nodes_by_id` after `TreeUtils.from_dict` has
re-linked the records in `done`: its own parents are restored once its own
record was processed, its children list the processed records naming it as
a parent (in processing order), its trace is the null-reference rebuild,
and its backwards relations are still pending. -/
def relinkNode (done : List NodeRec) (r : NodeRec) : Node :=
  { id := r.id, label := r.label, conclusion := r.conclusion
    parents := if NodeRec.id r ∈ done.map NodeRec.id then r.parents else []
    children := (done.filter (fun s => NodeRec.id r ∈ NodeRec.parents s)).map NodeRec.id
    trace := r.trace.map eraseElem
    isValuePathCompleted := r.isValuePathCompleted
    backwardsRelations := []
    createdNs := r.createdNs }

/-- Mid-step of re-linking record `r`: the parents in `ps1` are already
linked. -/
def linkStepNode (done : List NodeRec) (r : NodeRec) (ps1 : List Nat) (s : NodeRec) : Node :=
  if NodeRec.id s = NodeRec.id r then
    { relinkNode done s with parents := ps1 }
  else if NodeRec.id s ∈ ps1 then
    { relinkNode done s with
      children := (relinkNode done s).children ++ [NodeRec.id r] }
  else relinkNode done s

/-- The state after the backwards-relation pass restored the records in
`done`. -/
def bwNode (recs done : List NodeRec) (r : NodeRec) : Node :=
  { relinkNode recs r with
    backwardsRelations :=
      if NodeRec.id r ∈ done.map NodeRec.id then r.backwardsRelations else [] }

/-- Mid-step of the backwards pass on record `r`: the relations in `bs1`
are already restored. -/
def bwStepNode (recs done : List NodeRec) (r : NodeRec) (bs1 : List Nat) (s : NodeRec) :
    Node :=
  if NodeRec.id s = NodeRec.id r then
    { bwNode recs done s with backwardsRelations := bs1 }
  else bwNode recs done s

theorem relinkNode_nil (r : NodeRec) : relinkNode [] r = nodeFromDict r := by
  simp [relinkNode, nodeFromDict, eraseElem]

theorem relinkNode_id (done : List NodeRec) (r : NodeRec) :
    (relinkNode done r).id = NodeRec.id r := rfl

theorem linkStepNode_id (done : List NodeRec) (r : NodeRec) (ps1 : List Nat) (s : NodeRec) :
    (linkStepNode done r ps1 s).id = NodeRec.id s := by
  unfold linkStepNode
  split
  · rfl
  · split <;> rfl

theorem bwStepNode_id (recs done : List NodeRec) (r : NodeRec) (bs1 : List Nat)
    (s : NodeRec) : (bwStepNode recs done r bs1 s).id = NodeRec.id s := by
  unfold bwStepNode
  split <;> rfl

theorem findNode?_map_recF (recs : List NodeRec) (F : NodeRec → Node)
    (hF : ∀ r, (F r).id = NodeRec.id r) (j : Nat) :
    findNode? (recs.map F) j = (findRec? recs j).map F := by
  induction recs with
  | nil => rfl
  | cons r rest ih =>
    by_cases h : NodeRec.id r = j
    · unfold findNode? findRec?
      rw [List.map_cons, List.find?_cons_of_pos _ (by simp [hF r, h]),
        List.find?_cons_of_pos _ (by simp [h])]
      rfl
    · unfold findNode? findRec?
      rw [List.map_cons, List.find?_cons_of_neg _ (by simp [hF r, h]),
        List.find?_cons_of_neg _ (by simp [h])]
      exact ih

theorem findRec?_id {recs : List NodeRec} {j : Nat} {r : NodeRec}
    (h : findRec? recs j = some r) : NodeRec.id r = j := by
  have := List.find?_some h
  simpa using this

theorem findRec?_mem {recs : List NodeRec} {j : Nat} {r : NodeRec}
    (h : findRec? recs j = some r) : r ∈ recs :=
  List.mem_of_find?_eq_some h

theorem updateNode_map (recs : List NodeRec) (F : NodeRec → Node) (i : Nat)
    (g : Node → Node) :
    updateNode (recs.map F) i g =
      recs.map (fun s => if (F s).id = i then g (F s) else F s) := by
  unfold updateNode
  rw [List.map_map]
  rfl

/-- Net effect on one node of `add_parent(child, pid)` followed by
`add_child(pid, child)` as `TreeUtils.from_dict` re-links one parent:
the child node gains `pid` in its parents, the parent node gains the child
in its children, all other nodes are untouched. -/
theorem linkPair_node (rid pid : Nat) (hne : rid ≠ pid) (n : Node) :
    ∀ m, (m =
      (let n1 := if n.id = rid then
          (if pid ∈ n.parents then n else { n with parents := n.parents ++ [pid] }) else n
       let n2 := if n1.id = pid then
          (if rid ∈ n1.children then n1 else { n1 with children := n1.children ++ [rid] })
        else n1
       let n3 := if n2.id = pid then
          (if rid ∈ n2.children then n2 else { n2 with children := n2.children ++ [rid] })
        else n2
       if n3.id = rid then
          (if pid ∈ n3.parents then n3 else { n3 with parents := n3.parents ++ [pid] })
       else n3)) →
    (n.id = rid → pid ∉ n.parents → m = { n with parents := n.parents ++ [pid] }) ∧
    (n.id = pid → rid ∉ n.children → m = { n with children := n.children ++ [rid] }) ∧
    (n.id ≠ rid → n.id ≠ pid → m = n) := by
  intro m hm
  refine ⟨?_, ?_, ?_⟩
  · intro hid hpar
    rw [hm]
    dsimp only
    rw [if_pos hid, if_neg hpar]
    have hrp : ¬(({ n with parents := n.parents ++ [pid] } : Node).id = pid) :=
      fun e => absurd (hid.symm.trans e) hne
    repeat rw [if_neg hrp]
    rw [if_pos (show ({ n with parents := n.parents ++ [pid] } : Node).id = rid from hid),
      if_pos (show pid ∈ ({ n with parents := n.parents ++ [pid] } : Node).parents from
        List.mem_append.mpr (Or.inr (List.mem_singleton.mpr rfl)))]
  · intro hid hch
    rw [hm]
    dsimp only
    have hnr : ¬(n.id = rid) := fun e => absurd (e.symm.trans hid) hne
    rw [if_neg hnr]
    rw [if_pos hid, if_neg hch]
    have h3 : ({ n with children := n.children ++ [rid] } : Node).id = pid := hid
    rw [if_pos h3]
    rw [if_pos (show rid ∈ ({ n with children := n.children ++ [rid] } : Node).children from
      List.mem_append.mpr (Or.inr (List.mem_singleton.mpr rfl)))]
    rw [if_neg (show ¬(({ n with children := n.children ++ [rid] } : Node).id = rid) from
      fun e => absurd (e.symm.trans hid) hne)]
  · intro hid1 hid2
    rw [hm]
    dsimp only
    rw [if_neg hid1]
    repeat rw [if_neg hid2]
    rw [if_neg hid1]


/-- One iteration of the parent re-linking loop of `TreeUtils.from_dict`
on an arena in mid-step form. -/
theorem linkOnePid (recs done : List NodeRec) (r : NodeRec) (ps1 : List Nat) (pid : Nat)
    (hrdone : NodeRec.id r ∉ done.map NodeRec.id)
    (hpid_r : pid ≠ NodeRec.id r)
    (hpid_ps1 : pid ∉ ps1) :
    addChildLink (addParentLink (recs.map (linkStepNode done r ps1)) (NodeRec.id r) pid)
      pid (NodeRec.id r) =
    recs.map (linkStepNode done r (ps1 ++ [pid])) := by
  show updateNode (updateNode (updateNode (updateNode (recs.map (linkStepNode done r ps1))
      (NodeRec.id r)
      (fun n => if pid ∈ n.parents then n else { n with parents := n.parents ++ [pid] }))
      pid (fun n => if NodeRec.id r ∈ n.children then n
        else { n with children := n.children ++ [NodeRec.id r] }))
      pid (fun n => if NodeRec.id r ∈ n.children then n
        else { n with children := n.children ++ [NodeRec.id r] }))
      (NodeRec.id r)
      (fun n => if pid ∈ n.parents then n else { n with parents := n.parents ++ [pid] }) =
    recs.map (linkStepNode done r (ps1 ++ [pid]))
  rw [updateNode_map, updateNode_map, updateNode_map, updateNode_map]
  refine List.map_congr_left fun s _ => ?_
  obtain ⟨k1, k2, k3⟩ :=
    linkPair_node (NodeRec.id r) pid (Ne.symm hpid_r) (linkStepNode done r ps1 s) _ rfl
  by_cases h1 : NodeRec.id s = NodeRec.id r
  · have hn : linkStepNode done r ps1 s = { relinkNode done s with parents := ps1 } := by
      unfold linkStepNode
      rw [if_pos h1]
    rw [k1 ((linkStepNode_id done r ps1 s).trans h1) (by rw [hn]; exact hpid_ps1)]
    rw [hn]
    unfold linkStepNode
    rw [if_pos h1]
  · by_cases h2 : NodeRec.id s = pid
    · have hn : linkStepNode done r ps1 s = relinkNode done s := by
        unfold linkStepNode
        rw [if_neg h1, if_neg (by rw [h2]; exact hpid_ps1)]
      have hch : NodeRec.id r ∉ (linkStepNode done r ps1 s).children := by
        rw [hn]
        intro hmem
        have hmem2 : NodeRec.id r ∈
            (done.filter (fun x => NodeRec.id s ∈ NodeRec.parents x)).map NodeRec.id := hmem
        apply hrdone
        obtain ⟨x, hx, he⟩ := List.mem_map.mp hmem2
        exact List.mem_map.mpr ⟨x, List.mem_of_mem_filter hx, he⟩
      rw [k2 ((linkStepNode_id done r ps1 s).trans h2) hch]
      rw [hn]
      unfold linkStepNode
      rw [if_neg h1, if_pos (List.mem_append.mpr (Or.inr (List.mem_singleton.mpr h2)))]
    · rw [k3 (fun e => h1 ((linkStepNode_id done r ps1 s).symm.trans e))
        (fun e => h2 ((linkStepNode_id done r ps1 s).symm.trans e))]
      unfold linkStepNode
      rw [if_neg h1, if_neg h1]
      by_cases h3 : NodeRec.id s ∈ ps1
      · rw [if_pos h3, if_pos (List.mem_append.mpr (Or.inl h3))]
      · rw [if_neg h3, if_neg (fun hmem => ?_)]
        rcases List.mem_append.mp hmem with hx | hx
        · exact h3 hx
        · exact h2 (List.mem_singleton.mp hx)

theorem recs_id_inj {recs : List NodeRec} (hnd : (recs.map NodeRec.id).Nodup)
    {s r : NodeRec} (hs : s ∈ recs) (hr : r ∈ recs) (h : NodeRec.id s = NodeRec.id r) :
    s = r := by
  induction recs with
  | nil => exact absurd hs (List.not_mem_nil s)
  | cons x rest ih =>
    rw [List.map_cons] at hnd
    have hnd2 := List.Nodup.of_cons hnd
    have hx : NodeRec.id x ∉ rest.map NodeRec.id := by
      intro hmem
      exact (List.nodup_cons.mp hnd).1 hmem
    rcases List.mem_cons.mp hs with rfl | hs2
    · rcases List.mem_cons.mp hr with rfl | hr2
      · rfl
      · exact absurd (List.mem_map.mpr ⟨r, hr2, h.symm⟩) hx
    · rcases List.mem_cons.mp hr with rfl | hr2
      · exact absurd (List.mem_map.mpr ⟨s, hs2, h⟩) hx
      · exact ih hnd2 hs2 hr2

/-- `Node.add_trace` skips an element whose truthy interaction id is
already present. -/
theorem addTrace_skip (n : Node) (e : TraceElem) (k : Nat) (hk : e.interactionId = some k)
    (hk0 : k ≠ 0) (hany : n.trace.any (fun x => x.interactionId = some k) = true) :
    addTrace n e = n := by
  cases e with
  | mk ii nd =>
    simp only at hk
    subst hk
    show (if k ≠ 0 ∧ n.trace.any (fun x => x.interactionId = some k) = true then n
      else { n with trace := n.trace ++ [⟨some k, nd⟩] }) = n
    rw [if_pos ⟨hk0, hany⟩]

/-- One `restoreTrace` call of `TreeUtils.from_dict` is a no-op when every
node carrying the target id already lists the element's truthy interaction
id. -/
theorem restoreTrace_noop (recs : List NodeRec) (F : NodeRec → Node)
    (hFid : ∀ s, (F s).id = NodeRec.id s) (rid : Nat) (e : TraceElem)
    (he : ∀ s ∈ recs, NodeRec.id s = rid →
      ∃ k, e.interactionId = some k ∧ k ≠ 0 ∧
        (F s).trace.any (fun x => x.interactionId = some k) = true) :
    restoreTrace (recs.map F) rid e = recs.map F := by
  unfold restoreTrace
  rw [updateNode_map]
  refine List.map_congr_left fun s hs => ?_
  by_cases h1 : (F s).id = rid
  · rw [if_pos h1]
    obtain ⟨k, hk, hk0, hany⟩ := he s hs ((hFid s).symm.trans h1)
    exact addTrace_skip (F s) _ k hk hk0 hany
  · rw [if_neg h1]

/-- The whole trace-restoring fold of one record is a no-op. -/
theorem restoreTrace_fold_noop (recs : List NodeRec) (F : NodeRec → Node)
    (hFid : ∀ s, (F s).id = NodeRec.id s) (rid : Nat) :
    ∀ (es : List TraceElem),
    (∀ e ∈ es, ∀ s ∈ recs, NodeRec.id s = rid →
      ∃ k, e.interactionId = some k ∧ k ≠ 0 ∧
        (F s).trace.any (fun x => x.interactionId = some k) = true) →
    es.foldl (fun acc t => restoreTrace acc rid t) (recs.map F) = recs.map F := by
  intro es
  induction es with
  | nil => intro _; rfl
  | cons e rest ih =>
    intro he
    rw [List.foldl_cons,
      restoreTrace_noop recs F hFid rid e (he e (List.mem_cons_self e rest))]
    exact ih (fun e2 he2 => he e2 (List.mem_cons_of_mem e he2))

/-- The parent re-linking loop of one record, in mid-step form. -/
theorem linkParents_fold (recs done : List NodeRec) (r : NodeRec)
    (hrdone : NodeRec.id r ∉ done.map NodeRec.id)
    (hself : NodeRec.id r ∉ NodeRec.parents r)
    (hlive : ∀ p ∈ NodeRec.parents r, (findRec? recs p).isSome)
    (hnd : (NodeRec.parents r).Nodup) :
    ∀ (ps2 ps1 : List Nat), NodeRec.parents r = ps1 ++ ps2 →
    ps2.foldl (fun acc pid =>
        if (findNode? acc pid).isSome then
          addChildLink (addParentLink acc (NodeRec.id r) pid) pid (NodeRec.id r)
        else acc)
      (recs.map (linkStepNode done r ps1)) =
    recs.map (linkStepNode done r (NodeRec.parents r)) := by
  intro ps2
  induction ps2 with
  | nil =>
    intro ps1 hsplit
    rw [List.foldl_nil, hsplit, List.append_nil]
  | cons pid rest ih =>
    intro ps1 hsplit
    rw [List.foldl_cons]
    have hpidmem : pid ∈ NodeRec.parents r := by
      rw [hsplit]
      exact List.mem_append.mpr (Or.inr (List.mem_cons_self pid rest))
    have hlive1 : (findNode? (recs.map (linkStepNode done r ps1)) pid).isSome = true := by
      rw [findNode?_map_recF recs _ (linkStepNode_id done r ps1) pid]
      have hl := hlive pid hpidmem
      cases hfr : findRec? recs pid with
      | none => rw [hfr] at hl; simp at hl
      | some x => rfl
    rw [if_pos hlive1]
    have hpr : pid ≠ NodeRec.id r := fun e => hself (e ▸ hpidmem)
    have hnd2 : (ps1 ++ pid :: rest).Nodup := hsplit ▸ hnd
    have hpp : pid ∉ ps1 := fun hmem =>
      (List.nodup_append.mp hnd2).2.2 hmem (List.mem_cons_self pid rest)
    rw [linkOnePid recs done r ps1 pid hrdone hpr hpp]
    exact ih (ps1 ++ [pid]) (by rw [hsplit, List.append_assoc]; rfl)

/-- The full effect of `restoreLinks` for one record on an arena where the
records in `done` are already re-linked. -/
theorem restoreLinks_step (recs done : List NodeRec) (r : NodeRec)
    (hrdone : NodeRec.id r ∉ done.map NodeRec.id)
    (hself : NodeRec.id r ∉ NodeRec.parents r)
    (hlive : ∀ p ∈ NodeRec.parents r, (findRec? recs p).isSome)
    (hnd : (NodeRec.parents r).Nodup)
    (hnds : (recs.map NodeRec.id).Nodup) (hr : r ∈ recs)
    (htr : ∀ e ∈ NodeRec.trace r, ∃ k, e.interactionId = some k ∧ k ≠ 0) :
    restoreLinks (recs.map (relinkNode done)) r = recs.map (relinkNode (done ++ [r])) := by
  have hbase : recs.map (relinkNode done) = recs.map (linkStepNode done r []) := by
    refine List.map_congr_left fun s _ => ?_
    unfold linkStepNode
    by_cases h1 : NodeRec.id s = NodeRec.id r
    · rw [if_pos h1]
      unfold relinkNode
      rw [if_neg (by rw [h1]; exact hrdone)]
    · rw [if_neg h1, if_neg (List.not_mem_nil _)]
  have hfin : recs.map (linkStepNode done r (NodeRec.parents r)) =
      recs.map (relinkNode (done ++ [r])) := by
    refine List.map_congr_left fun s hs => ?_
    by_cases h1 : NodeRec.id s = NodeRec.id r
    · have hsr : s = r := recs_id_inj hnds hs hr h1
      subst hsr
      simp [linkStepNode, relinkNode, List.filter_append, hself, hrdone]
    · by_cases h3 : NodeRec.id s ∈ NodeRec.parents r
      · by_cases h4 : NodeRec.id s ∈ done.map NodeRec.id
        · simp [linkStepNode, relinkNode, List.filter_append, h1, h3, h4]
        · simp [linkStepNode, relinkNode, List.filter_append, h1, h3, h4]
      · by_cases h4 : NodeRec.id s ∈ done.map NodeRec.id
        · simp [linkStepNode, relinkNode, List.filter_append, h1, h3, h4]
        · simp [linkStepNode, relinkNode, List.filter_append, h1, h3, h4]
  unfold restoreLinks
  rw [hbase]
  rw [linkParents_fold recs done r hrdone hself hlive hnd (NodeRec.parents r) [] rfl]
  rw [restoreTrace_fold_noop recs _ (linkStepNode_id done r (NodeRec.parents r))
    (NodeRec.id r) (NodeRec.trace r) ?helem]
  · exact hfin
  case helem =>
    intro e he s hs hsid
    obtain ⟨k, hk, hk0⟩ := htr e he
    refine ⟨k, hk, hk0, ?_⟩
    have hsr : s = r := recs_id_inj hnds hs hr (by rw [hsid])
    subst hsr
    have htrace : (linkStepNode done s (NodeRec.parents s) s).trace =
        (NodeRec.trace s).map eraseElem := by
      simp [linkStepNode, relinkNode]
    rw [htrace]
    rw [List.any_eq_true]
    exact ⟨eraseElem e, List.mem_map.mpr ⟨e, he, rfl⟩, by simp [eraseElem, hk]⟩

theorem buildById_go (recs : List NodeRec) : ∀ (a : Arena),
    (∀ r ∈ recs, findNode? a (NodeRec.id r) = none) →
    (recs.map NodeRec.id).Nodup →
    recs.foldl (fun a r =>
      if (findNode? a (NodeRec.id r)).isSome then
        a.map (fun n => if n.id = NodeRec.id r then nodeFromDict r else n)
      else a ++ [nodeFromDict r]) a = a ++ recs.map nodeFromDict := by
  induction recs with
  | nil => intro a _ _; simp
  | cons r rest ih =>
    intro a hfresh hnd
    rw [List.foldl_cons]
    have h1 : findNode? a (NodeRec.id r) = none := hfresh r (List.mem_cons_self r rest)
    rw [if_neg (by rw [h1]; simp)]
    rw [ih (a ++ [nodeFromDict r]) ?hf ?hn]
    · rw [List.map_cons, List.append_assoc]
      rfl
    case hf =>
      intro r2 hr2
      have ho : findNode? a (NodeRec.id r2) = none := hfresh r2 (List.mem_cons_of_mem r hr2)
      rw [findNode?_append_of_none a (nodeFromDict r) _ ho]
      rw [if_neg ?_]
      intro he
      have he2 : NodeRec.id r = NodeRec.id r2 := he
      rw [List.map_cons] at hnd
      exact (List.nodup_cons.mp hnd).1 (he2 ▸ List.mem_map.mpr ⟨r2, hr2, rfl⟩)
    case hn =>
      rw [List.map_cons] at hnd
      exact List.Nodup.of_cons hnd

theorem buildById_eq (recs : List NodeRec) (hnd : (recs.map NodeRec.id).Nodup) :
    buildById recs = recs.map nodeFromDict := by
  have hgo := buildById_go recs [] (fun r _ => rfl) hnd
  simpa [buildById] using hgo

/-- The full parent-relinking pass of `TreeUtils.from_dict`. -/
theorem restoreLinks_all (recs : List NodeRec)
    (hnds : (recs.map NodeRec.id).Nodup)
    (hall : ∀ r ∈ recs, NodeRec.id r ∉ NodeRec.parents r ∧ (NodeRec.parents r).Nodup ∧
      (∀ p ∈ NodeRec.parents r, (findRec? recs p).isSome) ∧
      (∀ e ∈ NodeRec.trace r, ∃ k, e.interactionId = some k ∧ k ≠ 0)) :
    ∀ (todo done : List NodeRec), recs = done ++ todo →
    todo.foldl restoreLinks (recs.map (relinkNode done)) = recs.map (relinkNode recs) := by
  intro todo
  induction todo with
  | nil =>
    intro done hsplit
    have hde : recs = done := by rw [hsplit, List.append_nil]
    rw [List.foldl_nil, ← hde]
  | cons r rest ih =>
    intro done hsplit
    rw [List.foldl_cons]
    have hr : r ∈ recs := by
      rw [hsplit]
      exact List.mem_append.mpr (Or.inr (List.mem_cons_self r rest))
    obtain ⟨hself, hnd, hlive, htr⟩ := hall r hr
    have hrdone : NodeRec.id r ∉ done.map NodeRec.id := by
      have hnd2 : (done.map NodeRec.id ++ NodeRec.id r :: rest.map NodeRec.id).Nodup := by
        rw [← List.map_cons, ← List.map_append, ← hsplit]
        exact hnds
      intro hmem
      exact (List.nodup_append.mp hnd2).2.2 hmem (List.mem_cons_self _ _)
    rw [restoreLinks_step recs done r hrdone hself hlive hnd hnds hr htr]
    exact ih (done ++ [r]) (by rw [hsplit, List.append_assoc]; rfl)

/-- One iteration of the backwards-relation loop. -/
theorem bwOneRel (recs done : List NodeRec) (r : NodeRec) (bs1 : List Nat) (rel : Nat)
    (hrel : rel ∉ bs1) :
    addBackwardsRelation (recs.map (bwStepNode recs done r bs1)) (NodeRec.id r) rel =
    recs.map (bwStepNode recs done r (bs1 ++ [rel])) := by
  unfold addBackwardsRelation
  rw [updateNode_map]
  refine List.map_congr_left fun s hs => ?_
  by_cases h1 : NodeRec.id s = NodeRec.id r
  · rw [if_pos ((bwStepNode_id recs done r bs1 s).trans h1)]
    have hn : bwStepNode recs done r bs1 s =
        { bwNode recs done s with backwardsRelations := bs1 } := by
      unfold bwStepNode
      rw [if_pos h1]
    rw [hn]
    rw [if_neg (show rel ∉
      ({ bwNode recs done s with backwardsRelations := bs1 } : Node).backwardsRelations from
      hrel)]
    unfold bwStepNode
    rw [if_pos h1]
  · rw [if_neg (fun e => h1 ((bwStepNode_id recs done r bs1 s).symm.trans e))]
    unfold bwStepNode
    rw [if_neg h1, if_neg h1]

/-- The backwards-relation loop of one record, in mid-step form. -/
theorem bwRels_fold (recs done : List NodeRec) (r : NodeRec)
    (hnd : (NodeRec.backwardsRelations r).Nodup)
    (hlive : ∀ x ∈ NodeRec.backwardsRelations r, (findRec? recs x).isSome) :
    ∀ (bs2 bs1 : List Nat), NodeRec.backwardsRelations r = bs1 ++ bs2 →
    bs2.foldl (fun acc rel =>
        if (findNode? acc rel).isSome then addBackwardsRelation acc (NodeRec.id r) rel
        else acc)
      (recs.map (bwStepNode recs done r bs1)) =
    recs.map (bwStepNode recs done r (NodeRec.backwardsRelations r)) := by
  intro bs2
  induction bs2 with
  | nil =>
    intro bs1 hsplit
    rw [List.foldl_nil, hsplit, List.append_nil]
  | cons rel rest ih =>
    intro bs1 hsplit
    rw [List.foldl_cons]
    have hrelmem : rel ∈ NodeRec.backwardsRelations r := by
      rw [hsplit]
      exact List.mem_append.mpr (Or.inr (List.mem_cons_self rel rest))
    have hlive1 : (findNode? (recs.map (bwStepNode recs done r bs1)) rel).isSome = true := by
      rw [findNode?_map_recF recs _ (bwStepNode_id recs done r bs1) rel]
      have hl := hlive rel hrelmem
      cases hfr : findRec? recs rel with
      | none => rw [hfr] at hl; simp at hl
      | some x => rfl
    rw [if_pos hlive1]
    have hnd2 : (bs1 ++ rel :: rest).Nodup := hsplit ▸ hnd
    have hrp : rel ∉ bs1 := fun hmem =>
      (List.nodup_append.mp hnd2).2.2 hmem (List.mem_cons_self rel rest)
    rw [bwOneRel recs done r bs1 rel hrp]
    exact ih (bs1 ++ [rel]) (by rw [hsplit, List.append_assoc]; rfl)

/-- The full effect of `restoreBackwards` for one record. -/
theorem restoreBackwards_step (recs done : List NodeRec) (r : NodeRec)
    (hrdone : NodeRec.id r ∉ done.map NodeRec.id)
    (hnds : (recs.map NodeRec.id).Nodup) (hr : r ∈ recs)
    (hnd : (NodeRec.backwardsRelations r).Nodup)
    (hlive : ∀ x ∈ NodeRec.backwardsRelations r, (findRec? recs x).isSome) :
    restoreBackwards (recs.map (bwNode recs done)) r =
      recs.map (bwNode recs (done ++ [r])) := by
  have hbase : recs.map (bwNode recs done) = recs.map (bwStepNode recs done r []) := by
    refine List.map_congr_left fun s _ => ?_
    by_cases h1 : NodeRec.id s = NodeRec.id r
    · simp [bwStepNode, bwNode, h1, hrdone]
    · simp [bwStepNode, h1]
  have hfin : recs.map (bwStepNode recs done r (NodeRec.backwardsRelations r)) =
      recs.map (bwNode recs (done ++ [r])) := by
    refine List.map_congr_left fun s hs => ?_
    by_cases h1 : NodeRec.id s = NodeRec.id r
    · have hsr : s = r := recs_id_inj hnds hs hr h1
      subst hsr
      simp [bwStepNode, bwNode]
    · by_cases h4 : NodeRec.id s ∈ done.map NodeRec.id
      · simp [bwStepNode, bwNode, h1, h4]
      · simp [bwStepNode, bwNode, h1, h4]
  unfold restoreBackwards
  rw [hbase, bwRels_fold recs done r hnd hlive (NodeRec.backwardsRelations r) [] rfl, hfin]

/-- The full backwards-relation pass of `TreeUtils.from_dict`. -/
theorem restoreBackwards_all (recs : List NodeRec)
    (hnds : (recs.map NodeRec.id).Nodup)
    (hall : ∀ r ∈ recs, (NodeRec.backwardsRelations r).Nodup ∧
      ∀ x ∈ NodeRec.backwardsRelations r, (findRec? recs x).isSome) :
    ∀ (todo done : List NodeRec), recs = done ++ todo →
    todo.foldl restoreBackwards (recs.map (bwNode recs done)) = recs.map (bwNode recs recs) := by
  intro todo
  induction todo with
  | nil =>
    intro done hsplit
    have hde : recs = done := by rw [hsplit, List.append_nil]
    rw [List.foldl_nil, ← hde]
  | cons r rest ih =>
    intro done hsplit
    rw [List.foldl_cons]
    have hr : r ∈ recs := by
      rw [hsplit]
      exact List.mem_append.mpr (Or.inr (List.mem_cons_self r rest))
    obtain ⟨hnd, hlive⟩ := hall r hr
    have hrdone : NodeRec.id r ∉ done.map NodeRec.id := by
      have hnd2 : (done.map NodeRec.id ++ NodeRec.id r :: rest.map NodeRec.id).Nodup := by
        rw [← List.map_cons, ← List.map_append, ← hsplit]
        exact hnds
      intro hmem
      exact (List.nodup_append.mp hnd2).2.2 hmem (List.mem_cons_self _ _)
    rw [restoreBackwards_step recs done r hrdone hnds hr hnd hlive]
    exact ih (done ++ [r]) (by rw [hsplit, List.append_assoc]; rfl)

/-- The node `TreeUtils.from_dict` rebuilds for the record `r`: parents
restored from the record, children derived from the other records naming it
as a parent (in record order), trace references nulled, backwards relations
restored from the record. -/
def restoredNode (recs : List NodeRec) (r : NodeRec) : Node :=
  { id := r.id, label := r.label, conclusion := r.conclusion
    parents := r.parents
    children := (recs.filter (fun s => NodeRec.id r ∈ NodeRec.parents s)).map NodeRec.id
    trace := r.trace.map eraseElem
    isValuePathCompleted := r.isValuePathCompleted
    backwardsRelations := r.backwardsRelations
    createdNs := r.createdNs }

theorem bwNode_full (recs : List NodeRec) (r : NodeRec) (hr : r ∈ recs) :
    bwNode recs recs r = restoredNode recs r := by
  have hmem : NodeRec.id r ∈ recs.map NodeRec.id := List.mem_map.mpr ⟨r, hr, rfl⟩
  simp [bwNode, relinkNode, restoredNode, hmem]

/-- The node-rebuilding part of `TreeUtils.from_dict` in one equation. -/
theorem fromDict_arena (recs : List NodeRec)
    (hnds : (recs.map NodeRec.id).Nodup)
    (hall : ∀ r ∈ recs, NodeRec.id r ∉ NodeRec.parents r ∧ (NodeRec.parents r).Nodup ∧
      (∀ p ∈ NodeRec.parents r, (findRec? recs p).isSome) ∧
      (∀ e ∈ NodeRec.trace r, ∃ k, e.interactionId = some k ∧ k ≠ 0) ∧
      (NodeRec.backwardsRelations r).Nodup ∧
      (∀ x ∈ NodeRec.backwardsRelations r, (findRec? recs x).isSome)) :
    recs.foldl restoreBackwards (recs.foldl restoreLinks (buildById recs)) =
      recs.map (restoredNode recs) := by
  rw [buildById_eq recs hnds]
  have h0 : recs.map nodeFromDict = recs.map (relinkNode []) :=
    List.map_congr_left fun r _ => (relinkNode_nil r).symm
  rw [h0, restoreLinks_all recs hnds
    (fun r hr => ⟨(hall r hr).1, (hall r hr).2.1, (hall r hr).2.2.1, (hall r hr).2.2.2.1⟩)
    recs [] rfl]
  have h1 : recs.map (relinkNode recs) = recs.map (bwNode recs []) := by
    refine List.map_congr_left fun r _ => ?_
    simp [bwNode, relinkNode]
  rw [h1, restoreBackwards_all recs hnds
    (fun r hr => ⟨(hall r hr).2.2.2.2.1, (hall r hr).2.2.2.2.2⟩) recs [] rfl]
  exact List.map_congr_left fun r hr => bwNode_full recs r hr

theorem findNode?_map (a : Arena) (g : Node → Node) (hg : ∀ n, (g n).id = n.id) (j : Nat) :
    findNode? (a.map g) j = (findNode? a j).map g := by
  induction a with
  | nil => rfl
  | cons n rest ih =>
    by_cases h : n.id = j
    · unfold findNode?
      rw [List.map_cons, List.find?_cons_of_pos _ (by simp [hg n, h]),
        List.find?_cons_of_pos _ (by simp [h])]
      rfl
    · unfold findNode?
      rw [List.map_cons, List.find?_cons_of_neg _ (by simp [hg n, h]),
        List.find?_cons_of_neg _ (by simp [h])]
      exact ih

theorem eraseNode_id (n : Node) : (eraseNode n).id = n.id := rfl

theorem eraseNode_children (n : Node) : (eraseNode n).children = n.children := rfl

theorem nodeToDict_eraseNode (n : Node) :
    nodeToDict (eraseNode n) = eraseRec (nodeToDict n) := rfl

/-- `collect_nodes_recursively` appends each emitted record's id to the
seen list, in order. -/
theorem dfs_ids (a : Arena) : ∀ (fuel : Nat) (i : Nat) (st : List Nat × List NodeRec),
    st.2.map NodeRec.id = st.1.reverse →
    (dfsNode a fuel i st).2.map NodeRec.id = (dfsNode a fuel i st).1.reverse := by
  intro fuel
  induction fuel with
  | zero => intro i st h; exact h
  | succ fuel ih =>
    intro i st h
    cases hf : findNode? a i with
    | none => simp only [dfsNode, hf]; exact h
    | some n =>
      simp only [dfsNode, hf]
      by_cases hi : i ∈ st.1
      · rw [if_pos hi]
        exact h
      · rw [if_neg hi]
        have hfold : ∀ (cs : List Nat) (st2 : List Nat × List NodeRec),
            st2.2.map NodeRec.id = st2.1.reverse →
            (cs.foldl (fun st3 c => dfsNode a fuel c st3) st2).2.map NodeRec.id =
            (cs.foldl (fun st3 c => dfsNode a fuel c st3) st2).1.reverse := by
          intro cs
          induction cs with
          | nil => intro st2 h2; exact h2
          | cons c rest ihc =>
            intro st2 h2
            rw [List.foldl_cons]
            exact ihc _ (ih c st2 h2)
        apply hfold
        show (st.2 ++ [nodeToDict n]).map NodeRec.id = (i :: st.1).reverse
        rw [List.map_append, h, List.reverse_cons]
        have hni : List.map NodeRec.id [nodeToDict n] = [i] := by
          simp [nodeToDict, findNode?_id hf]
        rw [hni]

/-- The DFS of `TreeUtils.to_dict` on the trace-erased arena visits the
same nodes in the same order and emits the erased records. -/
theorem dfs_erase (a : Arena) : ∀ (fuel : Nat) (i : Nat) (st : List Nat × List NodeRec),
    dfsNode (a.map eraseNode) fuel i (st.1, st.2.map eraseRec) =
      ((dfsNode a fuel i st).1, (dfsNode a fuel i st).2.map eraseRec) := by
  intro fuel
  induction fuel with
  | zero => intro i st; rfl
  | succ fuel ih =>
    intro i st
    cases hf : findNode? a i with
    | none =>
      simp only [dfsNode, hf, findNode?_map a eraseNode eraseNode_id i, Option.map_none']
    | some n =>
      simp only [dfsNode, hf, findNode?_map a eraseNode eraseNode_id i, Option.map_some']
      by_cases hi : i ∈ st.1
      · rw [if_pos hi, if_pos hi]
      · rw [if_neg hi, if_neg hi]
        have hfold : ∀ (cs : List Nat) (st2 : List Nat × List NodeRec),
            cs.foldl (fun st3 c => dfsNode (a.map eraseNode) fuel c st3)
              (st2.1, st2.2.map eraseRec) =
            ((cs.foldl (fun st3 c => dfsNode a fuel c st3) st2).1,
             (cs.foldl (fun st3 c => dfsNode a fuel c st3) st2).2.map eraseRec) := by
          intro cs
          induction cs with
          | nil => intro st2; rfl
          | cons c rest ihc =>
            intro st2
            rw [List.foldl_cons, List.foldl_cons, ih c st2]
            exact ihc (dfsNode a fuel c st2)
        have hbase : (st.2.map eraseRec ++ [nodeToDict (eraseNode n)] : List NodeRec) =
            (st.2 ++ [nodeToDict n]).map eraseRec := by
          rw [List.map_append]
          rfl
        rw [eraseNode_children, hbase]
        exact hfold n.children (i :: st.1, st.2 ++ [nodeToDict n])

theorem collectIfUnseen_mem (a : Arena) (st : List Nat × List NodeRec) (i : Nat)
    (h : i ∈ st.1) : collectIfUnseen a st i = st := by
  unfold collectIfUnseen
  rw [if_pos h]

theorem collect_fold_mem (a : Arena) (l : List Nat) (st : List Nat × List NodeRec)
    (h : ∀ i ∈ l, i ∈ st.1) : l.foldl (collectIfUnseen a) st = st := by
  induction l with
  | nil => rfl
  | cons i rest ih =>
    rw [List.foldl_cons, collectIfUnseen_mem a st i (h i (List.mem_cons_self i rest))]
    exact ih (fun x hx => h x (List.mem_cons_of_mem i hx))

theorem collect_labels_mem (a : Arena) (ix : LabelIndex) (st : List Nat × List NodeRec)
    (h : ∀ l, ∀ i ∈ ix.get l, i ∈ st.1) :
    allLabels.foldl (fun st2 l => (ix.get l).foldl (collectIfUnseen a) st2) st = st := by
  have hgen : ∀ (ls : List NodeLabel),
      ls.foldl (fun st2 l => (ix.get l).foldl (collectIfUnseen a) st2) st = st := by
    intro ls
    induction ls with
    | nil => rfl
    | cons l rest ih =>
      rw [List.foldl_cons, collect_fold_mem a _ st (h l)]
      exact ih
  exact hgen allLabels

theorem findRec?_map_toDict (a : Arena) (j : Nat) :
    findRec? (a.map nodeToDict) j = (findNode? a j).map nodeToDict := by
  induction a with
  | nil => rfl
  | cons n rest ih =>
    by_cases h : n.id = j
    · unfold findNode? findRec?
      rw [List.map_cons, List.find?_cons_of_pos _ (by simp [nodeToDict, h]),
        List.find?_cons_of_pos _ (by simp [h])]
      rfl
    · unfold findNode? findRec?
      rw [List.map_cons, List.find?_cons_of_neg _ (by simp [nodeToDict, h]),
        List.find?_cons_of_neg _ (by simp [h])]
      exact ih

theorem collectIfUnseen_skip (a : Arena) (st : List Nat × List NodeRec) (i : Nat)
    (h : i ∈ st.1 ∨ findNode? a i = none) : collectIfUnseen a st i = st := by
  unfold collectIfUnseen
  rcases h with h | h
  · rw [if_pos h]
  · by_cases h2 : i ∈ st.1
    · rw [if_pos h2]
    · rw [if_neg h2, h]

theorem collect_fold_skip (a : Arena) (l : List Nat) (st : List Nat × List NodeRec)
    (h : ∀ i, i ∈ st.1 ∨ findNode? a i = none) : l.foldl (collectIfUnseen a) st = st := by
  induction l with
  | nil => rfl
  | cons i rest ih =>
    rw [List.foldl_cons, collectIfUnseen_skip a st i (h i)]
    exact ih

theorem collect_labels_skip (a : Arena) (ix : LabelIndex) (st : List Nat × List NodeRec)
    (h : ∀ i, i ∈ st.1 ∨ findNode? a i = none) :
    allLabels.foldl (fun st2 l => (ix.get l).foldl (collectIfUnseen a) st2) st = st := by
  have hgen : ∀ (ls : List NodeLabel),
      ls.foldl (fun st2 l => (ix.get l).foldl (collectIfUnseen a) st2) st = st := by
    intro ls
    induction ls with
    | nil => rfl
    | cons l rest ih =>
      rw [List.foldl_cons, collect_fold_skip a _ st h]
      exact ih
  exact hgen allLabels

/-- When the root DFS collects every live node, the second-pass sweeps of
`TreeUtils.to_dict` add nothing. -/
theorem treeToDict_nodes (t : Tree)
    (hskip : ∀ i, i ∈ (dfsNode t.arena (t.arena.length + 1) t.root ([], [])).1 ∨
      findNode? t.arena i = none) :
    (treeToDict t).nodes = (dfsNode t.arena (t.arena.length + 1) t.root ([], [])).2 := by
  unfold treeToDict
  dsimp only
  rw [collectIfUnseen_skip _ _ _ (hskip t.root)]
  cases hA : t.active with
  | none =>
    dsimp only
    rw [collect_labels_skip _ _ _ hskip]
  | some act =>
    dsimp only
    rw [collectIfUnseen_skip _ _ _ (hskip act), collect_labels_skip _ _ _ hskip]

theorem index_fold_mono (a : Arena) : ∀ (ix : LabelIndex) (l : NodeLabel) (i : Nat),
    i ∈ ix.get l → i ∈ (a.foldl (fun ix2 m => ix2.append m.label m.id) ix).get l := by
  induction a with
  | nil => intro ix l i h; exact h
  | cons m rest ih =>
    intro ix l i h
    rw [List.foldl_cons]
    apply ih
    rw [get_append]
    by_cases hl : l = m.label
    · rw [if_pos hl]
      exact List.mem_append.mpr (Or.inl h)
    · rw [if_neg hl]
      exact h

theorem index_fold_mem_self (a : Arena) : ∀ (ix : LabelIndex), ∀ n ∈ a,
    n.id ∈ (a.foldl (fun ix2 m => ix2.append m.label m.id) ix).get n.label := by
  induction a with
  | nil => intro ix n h; exact absurd h (List.not_mem_nil n)
  | cons m rest ih =>
    intro ix n hn
    rw [List.foldl_cons]
    rcases List.mem_cons.mp hn with rfl | h2
    · apply index_fold_mono
      rw [get_append, if_pos rfl]
      exact List.mem_append.mpr (Or.inr (List.mem_singleton.mpr rfl))
    · exact ih _ n h2

theorem label_mem_allLabels (l : NodeLabel) : l ∈ allLabels := by
  cases l <;> simp [allLabels]

/-- `InterviewStage(value)` inverts `.value` on every stage. -/
theorem parseStage_value (s : InterviewStage) : parseStage s.value = some s := by
  cases s <;> rfl

theorem eraseNode_label (n : Node) : (eraseNode n).label = n.label := rfl

/-- The three rebuild passes of `TreeUtils.from_dict` on the serialized
arena reproduce the arena with trace references nulled. -/
theorem fromDict_arena_erase (t : Tree)
    (h1 : (t.arena.map Node.id).Nodup)
    (h6 : ∀ n ∈ t.arena, n.id ∉ n.parents ∧ n.parents.Nodup ∧
      (∀ p ∈ n.parents, (findNode? t.arena p).isSome) ∧
      (∀ e ∈ n.trace, e.interactionId ≠ none ∧ e.interactionId ≠ some 0) ∧
      n.backwardsRelations.Nodup ∧ (∀ x ∈ n.backwardsRelations, (findNode? t.arena x).isSome))
    (h7 : ∀ n ∈ t.arena, n.children = (t.arena.filter (fun s => n.id ∈ s.parents)).map Node.id) :
    (t.arena.map nodeToDict).foldl restoreBackwards
      ((t.arena.map nodeToDict).foldl restoreLinks (buildById (t.arena.map nodeToDict))) =
      t.arena.map eraseNode := by
  have hidrec : (t.arena.map nodeToDict).map NodeRec.id = t.arena.map Node.id := by
    rw [List.map_map]
    rfl
  have hnd : ((t.arena.map nodeToDict).map NodeRec.id).Nodup := by
    rw [hidrec]
    exact h1
  have hliveiff : ∀ p, (findRec? (t.arena.map nodeToDict) p).isSome ↔
      (findNode? t.arena p).isSome := by
    intro p
    rw [findRec?_map_toDict]
    cases findNode? t.arena p <;> simp
  have hall : ∀ r ∈ t.arena.map nodeToDict,
      NodeRec.id r ∉ NodeRec.parents r ∧ (NodeRec.parents r).Nodup ∧
      (∀ p ∈ NodeRec.parents r, (findRec? (t.arena.map nodeToDict) p).isSome) ∧
      (∀ e ∈ NodeRec.trace r, ∃ k, e.interactionId = some k ∧ k ≠ 0) ∧
      (NodeRec.backwardsRelations r).Nodup ∧
      (∀ x ∈ NodeRec.backwardsRelations r, (findRec? (t.arena.map nodeToDict) x).isSome) := by
    intro r hr
    obtain ⟨n, hn, rfl⟩ := List.mem_map.mp hr
    obtain ⟨k1, k2, k3, k4, k5, k6⟩ := h6 n hn
    refine ⟨k1, k2, ?_, ?_, k5, ?_⟩
    · intro p hp
      rw [hliveiff p]
      exact k3 p hp
    · intro e he
      obtain ⟨hk1, hk2⟩ := k4 e he
      cases hie : e.interactionId with
      | none => exact absurd hie hk1
      | some k =>
        refine ⟨k, rfl, ?_⟩
        intro he0
        rw [he0] at hie
        exact hk2 hie
    · intro x hx
      rw [hliveiff x]
      exact k6 x hx
  rw [fromDict_arena _ hnd hall, List.map_map]
  refine List.map_congr_left fun n hn => ?_
  show restoredNode (t.arena.map nodeToDict) (nodeToDict n) = eraseNode n
  have hch : ((t.arena.map nodeToDict).filter
      (fun s => n.id ∈ NodeRec.parents s)).map NodeRec.id = n.children := by
    rw [h7 n hn, List.filter_map, List.map_map]
    rfl
  simp only [restoredNode, eraseNode, nodeToDict]
  rw [hch]

/-- `TreeUtils.from_dict` of a serialized tree rebuilds the tree exactly,
up to nulled trace references, with the root re-registered and every node
registered in arena order. -/
theorem treeFromDict_toDict (t : Tree) (rootN : Node) (act : Nat)
    (h1 : (t.arena.map Node.id).Nodup)
    (h2 : findNode? t.arena t.root = some rootN)
    (h4 : (treeToDict t).nodes = t.arena.map nodeToDict)
    (h6 : ∀ n ∈ t.arena, n.id ∉ n.parents ∧ n.parents.Nodup ∧
      (∀ p ∈ n.parents, (findNode? t.arena p).isSome) ∧
      (∀ e ∈ n.trace, e.interactionId ≠ none ∧ e.interactionId ≠ some 0) ∧
      n.backwardsRelations.Nodup ∧ (∀ x ∈ n.backwardsRelations, (findNode? t.arena x).isSome))
    (h7 : ∀ n ∈ t.arena, n.children = (t.arena.filter (fun s => n.id ∈ s.parents)).map Node.id)
    (hA : t.active = some act) (hactlive : (findNode? t.arena act).isSome) :
    treeFromDict (treeToDict t) =
      some { arena := t.arena.map eraseNode
             root := t.root
             active := some act
             index := (t.arena.map eraseNode).foldl (fun ix n => ix.append n.label n.id)
               (LabelIndex.empty.append (eraseNode rootN).label t.root) } := by
  have hrootid : (treeToDict t).rootNodeId = t.root := rfl
  have hactid : (treeToDict t).activeNodeId = t.active := rfl
  have hne : t.arena.map nodeToDict ≠ [] := by
    intro he
    rw [List.map_eq_nil] at he
    rw [he] at h2
    simp [findNode?] at h2
  unfold treeFromDict
  rw [h4, hrootid, hactid, hA]
  rw [if_neg hne]
  dsimp only
  rw [fromDict_arena_erase t h1 h6 h7]
  have hfr : findNode? (t.arena.map eraseNode) t.root = some (eraseNode rootN) := by
    rw [findNode?_map t.arena eraseNode eraseNode_id, h2, Option.map_some']
  simp only [hfr]
  have hfa : (findNode? (t.arena.map eraseNode) act).isSome = true := by
    rw [findNode?_map t.arena eraseNode eraseNode_id]
    cases hfa2 : findNode? t.arena act with
    | none => rw [hfa2] at hactlive; simp at hactlive
    | some x => rfl
  rw [if_pos hfa]
  rfl

/-- Serializing the rebuilt tree yields the erased serialization of the
original: same root and active ids, erased node records, regardless of the
rebuilt registry (the root DFS already collects every live node). -/
theorem treeToDict_rebuilt (t : Tree) (act : Nat) (ix : LabelIndex)
    (h3 : ∀ j ∈ t.arena.map Node.id,
      j ∈ (dfsNode t.arena (t.arena.length + 1) t.root ([], [])).1) :
    treeToDict
      { arena := t.arena.map eraseNode
        root := t.root
        active := some act
        index := ix } =
      { rootNodeId := t.root
        activeNodeId := some act
        nodes := (dfsNode t.arena (t.arena.length + 1) t.root ([], [])).2.map eraseRec } := by
  have hskipT : ∀ i, i ∈ (dfsNode t.arena (t.arena.length + 1) t.root ([], [])).1 ∨
      findNode? t.arena i = none := by
    intro i
    cases hf : findNode? t.arena i with
    | none => exact Or.inr rfl
    | some n =>
      refine Or.inl (h3 i ?_)
      rw [← findNode?_isSome_iff, hf]
      rfl
  have hdfs' : dfsNode (t.arena.map eraseNode) (t.arena.length + 1) t.root ([], []) =
      ((dfsNode t.arena (t.arena.length + 1) t.root ([], [])).1,
       (dfsNode t.arena (t.arena.length + 1) t.root ([], [])).2.map eraseRec) :=
    dfs_erase t.arena (t.arena.length + 1) t.root ([], [])
  have hskip' : ∀ i,
      i ∈ (dfsNode (t.arena.map eraseNode) ((t.arena.map eraseNode).length + 1) t.root
        ([], [])).1 ∨
      findNode? (t.arena.map eraseNode) i = none := by
    intro i
    rw [List.length_map, hdfs', findNode?_map t.arena eraseNode eraseNode_id]
    rcases hskipT i with h | h
    · exact Or.inl h
    · rw [h]
      exact Or.inr rfl
  have hnodes := treeToDict_nodes
    { arena := t.arena.map eraseNode
      root := t.root
      active := some act
      index := ix }
    hskip'
  rw [List.length_map, hdfs'] at hnodes
  have heq : treeToDict
      { arena := t.arena.map eraseNode
        root := t.root
        active := some act
        index := ix } =
      { rootNodeId := t.root
        activeNodeId := some act
        nodes := (treeToDict
          { arena := t.arena.map eraseNode
            root := t.root
            active := some act
            index := ix }).nodes } := rfl
  rw [heq, hnodes]

theorem stateRoundTrip (m : InterviewStateManager) :
    stateToDict (stateFromDict (stateToDict m)) = stateToDict m := by
  simp [stateToDict, stateFromDict, parseStage_value]

theorem getNodeById_live (t t' : Tree)
    (harena2 : t'.arena = t.arena.map eraseNode)
    (hreg : ∀ n ∈ t'.arena, n.id ∈ t'.index.get n.label)
    (i : Nat) (hi : (findNode? t.arena i).isSome) :
    t'.getNodeById i = some i := by
  obtain ⟨n, hn⟩ := Option.isSome_iff_exists.mp hi
  have hn' : findNode? t'.arena i = some (eraseNode n) := by
    rw [harena2, findNode?_map t.arena eraseNode eraseNode_id, hn, Option.map_some']
  have hmem : eraseNode n ∈ t'.arena := List.mem_of_find?_eq_some hn'
  have hid : (eraseNode n).id = i := findNode?_id hn'
  have hcond : (allLabels.any (fun l => i ∈ t'.index.get l) = true) ∧
      (findNode? t'.arena i).isSome = true := by
    constructor
    · rw [List.any_eq_true]
      refine ⟨(eraseNode n).label, label_mem_allLabels _, ?_⟩
      rw [decide_eq_true_eq, ← hid]
      exact hreg _ hmem
    · rw [hn']
      rfl
  unfold Tree.getNodeById
  rw [if_pos hcond]

theorem filterMap_cons_eq_some {α β : Type} (f : α → Option β) (a : α) (l : List α) (b : β)
    (h : f a = some b) : List.filterMap f (a :: l) = b :: List.filterMap f l := by
  rw [List.filterMap_cons, h]

theorem queueRoundTrip (qm : QueueManager) (t' : Tree)
    (harena2 : t'.arena = qm.tree.arena.map eraseNode)
    (hreg : ∀ n ∈ t'.arena, n.id ∈ t'.index.get n.label)
    (h9 : ∀ i ∈ qm.queue, (findNode? qm.tree.arena i).isSome)
    (h10 : ∀ a ∈ qm.activeNode.toList, (findNode? qm.tree.arena a).isSome) :
    queueToDict (queueFromDict (queueToDict qm) t') = eraseQueue (queueToDict qm) := by
  have hgid : ∀ i, (findNode? qm.tree.arena i).isSome → t'.getNodeById i = some i :=
    getNodeById_live qm.tree t' harena2 hreg
  have hq : ∀ (l : List Nat), (∀ i ∈ l, (findNode? qm.tree.arena i).isSome) →
      ((l.filterMap (fun i => (findNode? qm.tree.arena i).map nodeToDict)).filterMap
        (fun r => t'.getNodeById (NodeRec.id r))) = l := by
    intro l
    induction l with
    | nil => intro _; rfl
    | cons i rest ihl =>
      intro hl
      obtain ⟨n, hn⟩ := Option.isSome_iff_exists.mp (hl i (List.mem_cons_self i rest))
      rw [filterMap_cons_eq_some (fun j => Option.map nodeToDict (findNode? qm.tree.arena j))
        i rest (nodeToDict n) (by
          show Option.map nodeToDict (findNode? qm.tree.arena i) = some (nodeToDict n)
          rw [hn, Option.map_some'])]
      rw [filterMap_cons_eq_some (fun r => t'.getNodeById (NodeRec.id r))
        (nodeToDict n) _ i (by
          show t'.getNodeById (NodeRec.id (nodeToDict n)) = some i
          have hni : NodeRec.id (nodeToDict n) = i := findNode?_id hn
          rw [hni]
          exact hgid i (by rw [hn]; rfl))]
      rw [ihl (fun x hx => hl x (List.mem_cons_of_mem i hx))]
  have hq2 : ∀ (l : List Nat), (∀ i ∈ l, (findNode? qm.tree.arena i).isSome) →
      (l.filterMap (fun i => (findNode? qm.tree.arena i).map nodeToDict)).map eraseRec =
      l.filterMap (fun i => (findNode? t'.arena i).map nodeToDict) := by
    intro l
    induction l with
    | nil => intro _; rfl
    | cons i rest ihl =>
      intro hl
      obtain ⟨n, hn⟩ := Option.isSome_iff_exists.mp (hl i (List.mem_cons_self i rest))
      have hn' : findNode? t'.arena i = some (eraseNode n) := by
        rw [harena2, findNode?_map qm.tree.arena eraseNode eraseNode_id, hn, Option.map_some']
      rw [filterMap_cons_eq_some (fun j => Option.map nodeToDict (findNode? qm.tree.arena j))
        i rest (nodeToDict n) (by
          show Option.map nodeToDict (findNode? qm.tree.arena i) = some (nodeToDict n)
          rw [hn, Option.map_some'])]
      rw [filterMap_cons_eq_some (fun j => Option.map nodeToDict (findNode? t'.arena j))
        i rest (eraseRec (nodeToDict n)) (by
          show Option.map nodeToDict (findNode? t'.arena i) = some (eraseRec (nodeToDict n))
          rw [hn', Option.map_some', nodeToDict_eraseNode])]
      rw [List.map_cons, ihl (fun x hx => hl x (List.mem_cons_of_mem i hx))]
  have hQ1 : List.filterMap (fun r => Tree.getNodeById t' (NodeRec.id r))
      (queueToDict qm).queue = qm.queue := hq qm.queue h9
  cases hao : qm.activeNode with
  | none =>
    have hdact : (queueToDict qm).activeNode = none := by
      show qm.activeNode.bind _ = none
      rw [hao]
      rfl
    have hqfd : queueFromDict (queueToDict qm) t' =
        { tree := t'
          queue := qm.queue
          activeNode := none
          unchangedCount := qm.unchangedCount
          maxUnchanged := 3 } := by
      unfold queueFromDict
      dsimp only
      simp only [hdact]
      rw [hQ1]
      rfl
    rw [hqfd]
    unfold queueToDict eraseQueue
    dsimp only
    rw [← hq2 qm.queue h9]
    rw [hao]
    rfl
  | some a =>
    have halive : (findNode? qm.tree.arena a).isSome :=
      h10 a (by rw [hao]; exact List.mem_singleton.mpr rfl)
    obtain ⟨na, hna⟩ := Option.isSome_iff_exists.mp halive
    have hdact : (queueToDict qm).activeNode = some (nodeToDict na) := by
      show qm.activeNode.bind _ = some (nodeToDict na)
      rw [hao]
      show (findNode? qm.tree.arena a).map nodeToDict = some (nodeToDict na)
      rw [hna, Option.map_some']
    have hqfd : queueFromDict (queueToDict qm) t' =
        { tree := t'.setActiveNode a
          queue := qm.queue
          activeNode := some a
          unchangedCount := qm.unchangedCount
          maxUnchanged := 3 } := by
      unfold queueFromDict
      dsimp only
      simp only [hdact]
      have hgid2 : Tree.getNodeById t' (NodeRec.id (nodeToDict na)) = some a := by
        have hni : NodeRec.id (nodeToDict na) = a := findNode?_id hna
        rw [hni]
        exact hgid a halive
      simp only [hgid2]
      rw [hQ1]
      rfl
    rw [hqfd]
    unfold queueToDict eraseQueue
    dsimp only
    have hn' : findNode? t'.arena a = some (eraseNode na) := by
      rw [harena2, findNode?_map qm.tree.arena eraseNode eraseNode_id, hna, Option.map_some']
    have hsa : (Tree.setActiveNode t' a).arena = t'.arena := rfl
    rw [hsa]
    rw [← hq2 qm.queue h9]
    rw [hao]
    have hL : (Option.some a).bind (fun i => (findNode? t'.arena i).map nodeToDict) =
        some (eraseRec (nodeToDict na)) := by
      show (findNode? t'.arena a).map nodeToDict = _
      rw [hn', Option.map_some', nodeToDict_eraseNode]
    have hR : Option.map eraseRec ((Option.some a).bind
        (fun i => (findNode? qm.tree.arena i).map nodeToDict)) =
        some (eraseRec (nodeToDict na)) := by
      show Option.map eraseRec ((findNode? qm.tree.arena a).map nodeToDict) = _
      rw [hna, Option.map_some', Option.map_some']
    rw [hL, hR]

/-- Erasing a trace element without a node reference is the identity. -/
theorem eraseElem_refl (e : TraceElem) (h : e.node = none) : eraseElem e = e := by
  unfold eraseElem
  rw [← h]

theorem map_eraseElem_refl : ∀ (l : List TraceElem), (∀ e ∈ l, e.node = none) →
    l.map eraseElem = l := by
  intro l
  induction l with
  | nil => intro _; rfl
  | cons e rest ih =>
    intro h
    rw [List.map_cons, eraseElem_refl e (h e (List.mem_cons_self e rest)),
      ih (fun x hx => h x (List.mem_cons_of_mem e hx))]

/-- Erasing a record whose trace has no node references is the identity. -/
theorem eraseRec_refl (r : NodeRec) (h : ∀ e ∈ NodeRec.trace r, e.node = none) :
    eraseRec r = r := by
  unfold eraseRec
  rw [map_eraseElem_refl _ h]

theorem map_eraseRec_refl : ∀ (l : List NodeRec),
    (∀ r ∈ l, ∀ e ∈ NodeRec.trace r, e.node = none) → l.map eraseRec = l := by
  intro l
  induction l with
  | nil => intro _; rfl
  | cons r rest ih =>
    intro h
    rw [List.map_cons, eraseRec_refl r (h r (List.mem_cons_self r rest)),
      ih (fun x hx => h x (List.mem_cons_of_mem r hx))]

/-- The tree `TreeUtils.from_dict` rebuilds from a faithful serialization:
erased nodes, the original root and active ids, the root re-registered and
every node registered in arena order. -/
def rebuiltTree (t : Tree) (rootN : Node) (act : Nat) : Tree :=
  { arena := t.arena.map eraseNode
    root := t.root
    active := some act
    index := (t.arena.map eraseNode).foldl (fun ix n => ix.append n.label n.id)
      (LabelIndex.empty.append (eraseNode rootN).label t.root) }

/-- The tree object held by the queue manager that `QueueManager.from_dict`
returns — the same object the handler keeps — carries the restored active
node: with a stored live active node `a` it is `t'.setActiveNode a`,
without one it is `t'` unchanged. -/
theorem queueFromDict_tree (qm : QueueManager) (t' : Tree)
    (harena2 : t'.arena = qm.tree.arena.map eraseNode)
    (hreg : ∀ n ∈ t'.arena, n.id ∈ t'.index.get n.label)
    (h10 : ∀ a ∈ qm.activeNode.toList, (findNode? qm.tree.arena a).isSome) :
    (queueFromDict (queueToDict qm) t').tree =
      match qm.activeNode with
      | some a => t'.setActiveNode a
      | none => t' := by
  have hgid : ∀ i, (findNode? qm.tree.arena i).isSome → t'.getNodeById i = some i :=
    getNodeById_live qm.tree t' harena2 hreg
  cases hao : qm.activeNode with
  | none =>
    have hdact : (queueToDict qm).activeNode = none := by
      show qm.activeNode.bind _ = none
      rw [hao]
      rfl
    unfold queueFromDict
    dsimp only
    simp only [hdact]
  | some a =>
    have halive : (findNode? qm.tree.arena a).isSome :=
      h10 a (by rw [hao]; exact List.mem_singleton.mpr rfl)
    obtain ⟨na, hna⟩ := Option.isSome_iff_exists.mp halive
    have hdact : (queueToDict qm).activeNode = some (nodeToDict na) := by
      show qm.activeNode.bind _ = some (nodeToDict na)
      rw [hao]
      show (findNode? qm.tree.arena a).map nodeToDict = some (nodeToDict na)
      rw [hna, Option.map_some']
    have hgid2 : Tree.getNodeById t' (NodeRec.id (nodeToDict na)) = some a := by
      have hni : NodeRec.id (nodeToDict na) = a := findNode?_id hna
      rw [hni]
      exact hgid a halive
    unfold queueFromDict
    dsimp only
    simp only [hdact, hgid2]
    rfl

/-- C7: serialize → deserialize → serialize is NOT the identity on the
serialized session — `TraceExplanationElement.from_dict` nulls every trace
node reference and `Node.add_trace` skips restoring the resolved element —
but for a session whose tree serializes its arena in order, with distinct
node ids, well-formed duplicate-free live links, truthy trace interaction
ids, a live active node, a queue of live nodes and a queue-manager active
node that agrees with the tree's active node (the state every
manager-driven session maintains, `_set_active_node` being what sets
`tree.active`; the deserializer's mutation of the shared tree object then
restores the same active id), the round trip equals the
trace-node-reference erasure of the original serialization, and it is the
identity exactly when no trace element carries a node reference. -/
theorem sessionRoundTripIdentityUpToTraceRefs (t : Tree) (qm : QueueManager)
    (m : InterviewStateManager) (rootN : Node) (act : Nat)
    (h1 : (t.arena.map Node.id).Nodup)
    (h2 : findNode? t.arena t.root = some rootN)
    (h3 : ∀ j ∈ t.arena.map Node.id,
      j ∈ (dfsNode t.arena (t.arena.length + 1) t.root ([], [])).1)
    (h4 : (treeToDict t).nodes = t.arena.map nodeToDict)
    (h6 : ∀ n ∈ t.arena, n.id ∉ n.parents ∧ n.parents.Nodup ∧
      (∀ p ∈ n.parents, (findNode? t.arena p).isSome) ∧
      (∀ e ∈ n.trace, e.interactionId ≠ none ∧ e.interactionId ≠ some 0) ∧
      n.backwardsRelations.Nodup ∧
      (∀ x ∈ n.backwardsRelations, (findNode? t.arena x).isSome))
    (h7 : ∀ n ∈ t.arena,
      n.children = (t.arena.filter (fun s => n.id ∈ s.parents)).map Node.id)
    (hA : t.active = some act) (hactlive : (findNode? t.arena act).isSome)
    (h8 : qm.tree = t)
    (h9 : ∀ i ∈ qm.queue, (findNode? t.arena i).isSome)
    (h10 : ∀ a ∈ qm.activeNode.toList, (findNode? t.arena a).isSome)
    (hsync : qm.activeNode = t.active) :
    sessionRoundTrip (sessionToDict t qm m) =
      some (eraseSession (sessionToDict t qm m)) ∧
    ((∀ n ∈ t.arena, ∀ e ∈ n.trace, e.node = none) →
      sessionRoundTrip (sessionToDict t qm m) = some (sessionToDict t qm m)) := by
  have h9' : ∀ i ∈ qm.queue, (findNode? qm.tree.arena i).isSome := by
    rw [h8]
    exact h9
  have h10' : ∀ a ∈ qm.activeNode.toList, (findNode? qm.tree.arena a).isSome := by
    rw [h8]
    exact h10
  have htd : treeFromDict (treeToDict t) = some (rebuiltTree t rootN act) :=
    treeFromDict_toDict t rootN act h1 h2 h4 h6 h7 hA hactlive
  have harena2 : (rebuiltTree t rootN act).arena = qm.tree.arena.map eraseNode := by
    show t.arena.map eraseNode = qm.tree.arena.map eraseNode
    rw [h8]
  have hreg : ∀ n ∈ (rebuiltTree t rootN act).arena,
      n.id ∈ ((rebuiltTree t rootN act).index).get n.label :=
    fun n hn => index_fold_mem_self (t.arena.map eraseNode) _ n hn
  have hqrt : queueToDict (queueFromDict (queueToDict qm) (rebuiltTree t rootN act)) =
      eraseQueue (queueToDict qm) :=
    queueRoundTrip qm (rebuiltTree t rootN act) harena2 hreg h9' h10'
  have hskipT : ∀ i, i ∈ (dfsNode t.arena (t.arena.length + 1) t.root ([], [])).1 ∨
      findNode? t.arena i = none := by
    intro i
    cases hf : findNode? t.arena i with
    | none => exact Or.inr rfl
    | some n =>
      refine Or.inl (h3 i ?_)
      rw [← findNode?_isSome_iff, hf]
      rfl
  have hdfs2 : (dfsNode t.arena (t.arena.length + 1) t.root ([], [])).2 =
      t.arena.map nodeToDict := by
    rw [← treeToDict_nodes t hskipT]
    exact h4
  have hrb : treeToDict (rebuiltTree t rootN act) =
      { rootNodeId := t.root
        activeNodeId := some act
        nodes := (dfsNode t.arena (t.arena.length + 1) t.root ([], [])).2.map eraseRec } :=
    treeToDict_rebuilt t act _ h3
  have htree' : (queueFromDict (queueToDict qm) (rebuiltTree t rootN act)).tree =
      rebuiltTree t rootN act := by
    have h := queueFromDict_tree qm (rebuiltTree t rootN act) harena2 hreg h10'
    rw [hsync, hA] at h
    exact h
  have hmain : sessionRoundTrip (sessionToDict t qm m) =
      some { tree := treeToDict ((queueFromDict (queueToDict qm)
               (rebuiltTree t rootN act)).tree)
             queue := queueToDict (queueFromDict (queueToDict qm) (rebuiltTree t rootN act))
             state := stateToDict (stateFromDict (stateToDict m)) } := by
    unfold sessionRoundTrip sessionFromDict
    rw [show (sessionToDict t qm m).tree = treeToDict t from rfl, htd]
    rfl
  rw [htree'] at hmain
  have hET : eraseTree (treeToDict t) =
      { rootNodeId := t.root
        activeNodeId := some act
        nodes := (t.arena.map nodeToDict).map eraseRec } := by
    unfold eraseTree
    rw [h4, show (treeToDict t).activeNodeId = t.active from rfl, hA,
      show (treeToDict t).rootNodeId = t.root from rfl]
  have hfirst : sessionRoundTrip (sessionToDict t qm m) =
      some (eraseSession (sessionToDict t qm m)) := by
    rw [hmain]
    unfold eraseSession
    rw [show (sessionToDict t qm m).tree = treeToDict t from rfl,
      show (sessionToDict t qm m).queue = queueToDict qm from rfl,
      show (sessionToDict t qm m).state = stateToDict m from rfl,
      hET, hrb, hdfs2, hqrt, stateRoundTrip m]
  refine ⟨hfirst, fun hnt => ?_⟩
  have hnodesN : ∀ r ∈ (treeToDict t).nodes, ∀ e ∈ NodeRec.trace r, e.node = none := by
    rw [h4]
    intro r hr
    obtain ⟨n, hn, rfl⟩ := List.mem_map.mp hr
    intro e he
    exact hnt n hn e he
  have hQrecs : ∀ r ∈ (queueToDict qm).queue, ∀ e ∈ NodeRec.trace r, e.node = none := by
    intro r hr
    rw [show (queueToDict qm).queue =
      qm.queue.filterMap (fun i => (findNode? qm.tree.arena i).map nodeToDict) from rfl] at hr
    obtain ⟨i, hi, hfi⟩ := List.mem_filterMap.mp hr
    have hfi' : Option.map nodeToDict (findNode? qm.tree.arena i) = some r := hfi
    cases hfind : findNode? qm.tree.arena i with
    | none =>
      rw [hfind] at hfi'
      exact absurd hfi' (by simp)
    | some n =>
      rw [hfind, Option.map_some'] at hfi'
      obtain rfl := Option.some.inj hfi'
      intro e he
      have hmem : n ∈ qm.tree.arena := List.mem_of_find?_eq_some hfind
      rw [h8] at hmem
      exact hnt n hmem e he
  have hQact : Option.map eraseRec ((queueToDict qm).activeNode) =
      (queueToDict qm).activeNode := by
    show Option.map eraseRec (qm.activeNode.bind
      (fun i => (findNode? qm.tree.arena i).map nodeToDict)) =
      qm.activeNode.bind (fun i => (findNode? qm.tree.arena i).map nodeToDict)
    cases hao : qm.activeNode with
    | none => rfl
    | some a =>
      have ha : (findNode? qm.tree.arena a).isSome :=
        h10' a (by rw [hao]; exact List.mem_singleton.mpr rfl)
      obtain ⟨n, hn⟩ := Option.isSome_iff_exists.mp ha
      show Option.map eraseRec ((findNode? qm.tree.arena a).map nodeToDict) =
        (findNode? qm.tree.arena a).map nodeToDict
      rw [hn, Option.map_some', Option.map_some']
      have hmem : n ∈ qm.tree.arena := List.mem_of_find?_eq_some hn
      rw [h8] at hmem
      rw [eraseRec_refl _ (fun e he => hnt n hmem e he)]
  have hEQid : eraseQueue (queueToDict qm) = queueToDict qm := by
    unfold eraseQueue
    rw [map_eraseRec_refl _ hQrecs, hQact]
  have hETid : eraseTree (treeToDict t) = treeToDict t := by
    unfold eraseTree
    rw [map_eraseRec_refl _ hnodesN]
  have hESid : eraseSession (sessionToDict t qm m) = sessionToDict t qm m := by
    unfold eraseSession
    rw [show (sessionToDict t qm m).tree = treeToDict t from rfl,
      show (sessionToDict t qm m).queue = queueToDict qm from rfl,
      hETid, hEQid]
    rfl
  rw [hfirst, hESid]


/-- The corrected C7 round-trip law instantiated on a concrete two-node
session whose IDEA node carries a trace reference. -/
theorem sessionRoundTripIdentityUpToTraceRefsWitness :
    sessionRoundTrip (sessionToDict exTreeC7 exQmC7 exStateC7) =
      some (eraseSession (sessionToDict exTreeC7 exQmC7 exStateC7)) ∧
    ((∀ n ∈ exTreeC7.arena, ∀ e ∈ n.trace, e.node = none) →
      sessionRoundTrip (sessionToDict exTreeC7 exQmC7 exStateC7) =
        some (sessionToDict exTreeC7 exQmC7 exStateC7)) :=
  sessionRoundTripIdentityUpToTraceRefs exTreeC7 exQmC7 exStateC7 exRootC7 2
    (by decide) (by decide) (by decide) (by decide) (by decide) (by decide)
    (by decide) (by decide) rfl (by decide) (by decide) (by decide)


end Interview
